import Mathlib

/-!
# Verification of the warehouse-robot pathfinding engine

Shallow embedding of the algorithmic core of `Project.py`: the grid model
(`get_neighbors`, `heuristic`), the path reconstructor (`reconstruct_path`),
and the five search loops (`run_astar`, `run_bfs`, `run_dfs`, `run_ucs`,
`run_dls`), together with the `find_path` entry-point validation.

Modelling conventions:
* A coordinate is a pair of integers `(row, col)`, exactly as in the source.
* The grid is a rectangular mapping from coordinates to cell states with
  fixed dimensions; the Python 2D list `self.grid` becomes the function
  `Grid.cell`.
* Python dicts (`came_from`, `g_score`, `f_score`) become association lists
  where a new binding is consed on the front and lookup returns the most
  recent binding, which is exactly dict-overwrite semantics.
* `heapq` heaps of `(priority, coord)` tuples become lists of entries whose
  pop removes the lexicographically least entry.  Python's binary heap pops
  the minimum tuple under lexicographic comparison, and equal tuples are
  indistinguishable values, so a multiset-with-min-pop model is faithful.
* Loops become fuel-indexed recursions; `search_fuel` is proved sufficient
  (the `.out` constructor is never returned) in the termination theorems.
* Each search state additionally carries ghost trace fields (`pops`: the
  chronological list of accepted dequeues, mirroring the visit order of the
  spec's trace; `adds`: the chronological list of `frontier_cells.add`
  events, i.e. generation events; A* also records `improves`: coordinates
  whose stored cost was improved while they sat in the open list).  The
  ghosts only record events the source performs and never influence the
  computed result.
-/

deriving instance DecidableEq for Except

/-- A cell coordinate `(row, col)`, 0-indexed integer pair. -/
abbrev Coord := ℤ × ℤ

/-- Cell states, mirroring `CellType` in the source.  Only `OBSTACLE` blocks
movement; the rendering overlays are carried along unchanged. -/
inductive CellType where
  | EMPTY
  | OBSTACLE
  | START
  | GOAL
  | PATH
  | VISITED
  | ROBOT
  | FRONTIER
  | CURRENT
deriving DecidableEq, Repr

/-- The grid model: fixed dimensions and a cell-state mapping
(the Python 2D list `self.grid` viewed as a function). -/
structure Grid where
  rows : ℕ
  cols : ℕ
  cell : Coord → CellType

/-- `0 <= r < rows and 0 <= c < cols`, the bounds test of `get_neighbors`. -/
def inBounds (g : Grid) (p : Coord) : Prop :=
  0 ≤ p.1 ∧ p.1 < (g.rows : ℤ) ∧ 0 ≤ p.2 ∧ p.2 < (g.cols : ℤ)

instance (g : Grid) (p : Coord) : Decidable (inBounds g p) :=
  inferInstanceAs (Decidable (0 ≤ p.1 ∧ p.1 < (g.rows : ℤ) ∧ 0 ≤ p.2 ∧ p.2 < (g.cols : ℤ)))

/-- The four direction offsets `up, right, down, left`, in the source's
fixed order. -/
def directions : List Coord := [(-1, 0), (0, 1), (1, 0), (0, -1)]

/-- `get_neighbors`: the in-bounds, non-obstacle cells among the four
4-adjacent cells of `pos`, in `up, right, down, left` order.  The source
builds the list by appending each passing candidate in direction order,
which is the same as filtering the mapped direction list. -/
def get_neighbors (g : Grid) (pos : Coord) : List Coord :=
  (directions.map (fun d => (pos.1 + d.1, pos.2 + d.2))).filter
    (fun q => decide (inBounds g q) && decide (g.cell q ≠ CellType.OBSTACLE))

/-- `heuristic`: Manhattan distance `|Δrow| + |Δcol|`. -/
def heuristic (pos1 pos2 : Coord) : ℤ :=
  |pos1.1 - pos2.1| + |pos1.2 - pos2.2|

/-- Dict lookup on an association list: the first (most recently consed)
binding wins, i.e. Python dict-overwrite semantics for a cons-updated list. -/
def dget {α : Type} (m : List (Coord × α)) (k : Coord) : Option α :=
  match m with
  | [] => none
  | (k', v) :: rest => if k' = k then some v else dget rest k

/-- The backward walk of `reconstruct_path`: follow predecessors while the
current coordinate has one, consing each onto the accumulator (which directly
builds the reversed list the source produces with `append` + `reverse`).
Fuel bounds the walk; every use in the development is on predecessor maps
whose chains are acyclic and shorter than the fuel. -/
def reconstruct_aux (cf : List (Coord × Coord)) :
    Coord → List Coord → ℕ → List Coord
  | _, acc, 0 => acc
  | cur, acc, fuel + 1 =>
    match dget cf cur with
    | none => acc
    | some p => reconstruct_aux cf p (p :: acc) fuel

/-- `reconstruct_path`: walk the predecessor map backward from `current`
until a coordinate with no predecessor is reached, producing the path in
start-to-goal order. -/
def reconstruct_path (cf : List (Coord × Coord)) (current : Coord) :
    List Coord :=
  reconstruct_aux cf current [current] (cf.length + 1)

/-- Result of one search run: a found path plus final state, a no-path
failure plus final state, or fuel exhaustion (proved unreachable for
`search_fuel`). -/
inductive RunRes (σ : Type) where
  | found : List Coord → σ → RunRes σ
  | noPath : σ → RunRes σ
  | out : RunRes σ
deriving DecidableEq

/-- Fuel used by every search loop; proved strictly larger than the number
of loop iterations any of the five algorithms can perform. -/
def search_fuel (g : Grid) : ℕ := 5 * (g.rows * g.cols) + 10

/-! ## Breadth-First search (`run_bfs`) -/

/-- State of the `run_bfs` loop.  `queue` is the FIFO frontier, `visited`
the eagerly-marked visited set, `came_from` the predecessor dict;
`nodes_visited`/`nodes_explored` mirror `self.stats`; `pops`/`adds` are
ghost event traces. -/
structure BfsState where
  queue : List Coord
  visited : Finset Coord
  came_from : List (Coord × Coord)
  nodes_visited : ℕ
  nodes_explored : ℕ
  pops : List Coord
  adds : List Coord
deriving DecidableEq

/-- The neighbor loop of `run_bfs`: each unvisited neighbor is marked
visited at enqueue time, given a predecessor, appended to the queue, and
counted as explored. -/
def bfs_expand (current : Coord) (st : BfsState) : List Coord → BfsState
  | [] => st
  | n :: rest =>
    if n ∈ st.visited then bfs_expand current st rest
    else
      bfs_expand current
        { st with
          visited := insert n st.visited
          came_from := (n, current) :: st.came_from
          queue := st.queue ++ [n]
          nodes_explored := st.nodes_explored + 1
          adds := st.adds ++ [n] } rest

/-- The `while queue:` loop of `run_bfs`: dequeue from the front, count the
dequeue, test the goal, then expand neighbors. -/
def run_bfs_loop (g : Grid) (goal : Coord) : BfsState → ℕ → RunRes BfsState
  | _, 0 => .out
  | st, fuel + 1 =>
    match st.queue with
    | [] => .noPath st
    | current :: rest =>
      let st1 : BfsState :=
        { st with
          queue := rest
          nodes_visited := st.nodes_visited + 1
          pops := st.pops ++ [current] }
      if current = goal then .found (reconstruct_path st1.came_from current) st1
      else run_bfs_loop g goal (bfs_expand current st1 (get_neighbors g current)) fuel

/-- Initial BFS state: queue `[start]`, `start` marked visited, explored
count starts at 1 (the initial frontier placement of `start`). -/
def bfs_init (s : Coord) : BfsState :=
  ⟨[s], {s}, [], 0, 1, [], [s]⟩

/-- `run_bfs`, the Breadth-First search of the source. -/
def run_bfs (g : Grid) (s t : Coord) : RunRes BfsState :=
  run_bfs_loop g t (bfs_init s) (search_fuel g)

/-! ## Depth-First search (`run_dfs`) -/

/-- State of the `run_dfs` loop.  The Python list used as a stack
(`append`/`pop` at the end) is modelled with cons/head at the front. -/
structure DfsState where
  stack : List Coord
  visited : Finset Coord
  came_from : List (Coord × Coord)
  nodes_visited : ℕ
  nodes_explored : ℕ
  pops : List Coord
  adds : List Coord
deriving DecidableEq

/-- The neighbor loop of `run_dfs`: iterate the reversed neighbor list,
pushing each not-yet-visited neighbor (recording a predecessor and counting
it as explored).  Duplicates already on the stack may be pushed again. -/
def dfs_expand (current : Coord) (st : DfsState) : List Coord → DfsState
  | [] => st
  | n :: rest =>
    if n ∈ st.visited then dfs_expand current st rest
    else
      dfs_expand current
        { st with
          came_from := (n, current) :: st.came_from
          stack := n :: st.stack
          nodes_explored := st.nodes_explored + 1
          adds := st.adds ++ [n] } rest

/-- The `while stack:` loop of `run_dfs`: pop, skip if already visited
(lazy marking), otherwise mark visited, count, test the goal, and expand
the reversed neighbor list. -/
def run_dfs_loop (g : Grid) (goal : Coord) : DfsState → ℕ → RunRes DfsState
  | _, 0 => .out
  | st, fuel + 1 =>
    match st.stack with
    | [] => .noPath st
    | current :: rest =>
      let st0 : DfsState := { st with stack := rest }
      if current ∈ st0.visited then run_dfs_loop g goal st0 fuel
      else
        let st1 : DfsState :=
          { st0 with
            visited := insert current st0.visited
            nodes_visited := st0.nodes_visited + 1
            pops := st0.pops ++ [current] }
        if current = goal then .found (reconstruct_path st1.came_from current) st1
        else
          run_dfs_loop g goal
            (dfs_expand current st1 (get_neighbors g current).reverse) fuel

/-- Initial DFS state. -/
def dfs_init (s : Coord) : DfsState :=
  ⟨[s], ∅, [], 0, 1, [], [s]⟩

/-- `run_dfs`, the Depth-First search of the source. -/
def run_dfs (g : Grid) (s t : Coord) : RunRes DfsState :=
  run_dfs_loop g t (dfs_init s) (search_fuel g)

/-! ## Priority-queue model shared by `run_ucs` and `run_astar` -/

/-- A heap entry `(priority, coord)`, as pushed by the source. -/
abbrev HeapEntry := ℤ × Coord

/-- Lexicographic comparison of `(priority, (row, col))` tuples — Python's
tuple ordering used by `heapq`. -/
def entry_le (a b : HeapEntry) : Prop :=
  a.1 < b.1 ∨ (a.1 = b.1 ∧ (a.2.1 < b.2.1 ∨ (a.2.1 = b.2.1 ∧ a.2.2 ≤ b.2.2)))

instance (a b : HeapEntry) : Decidable (entry_le a b) :=
  inferInstanceAs (Decidable (a.1 < b.1 ∨ (a.1 = b.1 ∧
    (a.2.1 < b.2.1 ∨ (a.2.1 = b.2.1 ∧ a.2.2 ≤ b.2.2)))))

/-- The least entry of a heap list under `entry_le` (`none` iff empty). -/
def heap_min : List HeapEntry → Option HeapEntry
  | [] => none
  | e :: rest =>
    match heap_min rest with
    | none => some e
    | some m => if entry_le e m then some e else some m

/-- `heapq.heappop`: remove and return the least entry. -/
def heap_pop (l : List HeapEntry) : Option (HeapEntry × List HeapEntry) :=
  match heap_min l with
  | none => none
  | some m => some (m, l.erase m)

/-! ## Uniform-Cost search (`run_ucs`) -/

/-- State of the `run_ucs` loop.  `visited_cells` is the lazily-marked
closed set, `g_score` the best-known cost dict. -/
structure UcsState where
  open_set : List HeapEntry
  came_from : List (Coord × Coord)
  g_score : List (Coord × ℤ)
  visited_cells : Finset Coord
  nodes_visited : ℕ
  nodes_explored : ℕ
  pops : List Coord
  adds : List Coord
deriving DecidableEq

/-- The neighbor loop of `run_ucs`: skip visited neighbors; relax the rest
with tentative cost `g_score[current] + 1`, pushing a fresh heap entry on
every improvement.  (`g_score[current]` is always present when this runs;
the `getD 0` default is never taken, matching the source's direct dict
access.) -/
def ucs_expand (current : Coord) (st : UcsState) : List Coord → UcsState
  | [] => st
  | n :: rest =>
    if n ∈ st.visited_cells then ucs_expand current st rest
    else
      let tg : ℤ := (dget st.g_score current).getD 0 + 1
      let improve : Bool :=
        match dget st.g_score n with
        | none => true
        | some gn => decide (tg < gn)
      if improve then
        ucs_expand current
          { st with
            came_from := (n, current) :: st.came_from
            g_score := (n, tg) :: st.g_score
            open_set := st.open_set ++ [(tg, n)]
            nodes_explored := st.nodes_explored + 1
            adds := st.adds ++ [n] } rest
      else ucs_expand current st rest

/-- The `while open_set:` loop of `run_ucs`: pop the cheapest entry, skip
if already visited (lazy marking), otherwise mark, count, test the goal,
and relax neighbors. -/
def run_ucs_loop (g : Grid) (goal : Coord) : UcsState → ℕ → RunRes UcsState
  | _, 0 => .out
  | st, fuel + 1 =>
    match heap_pop st.open_set with
    | none => .noPath st
    | some ((_, current), restHeap) =>
      let st0 : UcsState := { st with open_set := restHeap }
      if current ∈ st0.visited_cells then run_ucs_loop g goal st0 fuel
      else
        let st1 : UcsState :=
          { st0 with
            visited_cells := insert current st0.visited_cells
            nodes_visited := st0.nodes_visited + 1
            pops := st0.pops ++ [current] }
        if current = goal then .found (reconstruct_path st1.came_from current) st1
        else
          run_ucs_loop g goal
            (ucs_expand current st1 (get_neighbors g current)) fuel

/-- Initial UCS state: heap `[(0, start)]`, `g_score = {start: 0}`,
explored count starts at 1. -/
def ucs_init (s : Coord) : UcsState :=
  ⟨[(0, s)], [], [(s, 0)], ∅, 0, 1, [], [s]⟩

/-- `run_ucs`, the Uniform-Cost search of the source. -/
def run_ucs (g : Grid) (s t : Coord) : RunRes UcsState :=
  run_ucs_loop g t (ucs_init s) (search_fuel g)

/-! ## A* search (`run_astar`) -/

/-- State of the `run_astar` loop.  `closed_set` is the eagerly-closed set
(duplicated into `visited_cells` exactly as the source does), `g_score` and
`f_score` the cost dicts.  `improves` is a ghost trace of coordinates whose
`g_score` was improved while they were already in the open list (the case
in which the source suppresses the re-push). -/
structure AstarState where
  open_set : List HeapEntry
  closed_set : Finset Coord
  came_from : List (Coord × Coord)
  g_score : List (Coord × ℤ)
  f_score : List (Coord × ℤ)
  visited_cells : Finset Coord
  nodes_visited : ℕ
  nodes_explored : ℕ
  pops : List Coord
  adds : List Coord
  improves : List Coord
deriving DecidableEq

/-- The neighbor loop of `run_astar`: skip closed neighbors; on a strict
`g_score` improvement (or first discovery) update `came_from`, `g_score`
and `f_score`, but push a heap entry only if the coordinate does not
already appear in the open list (`neighbor not in [item[1] for item in
open_set]`). -/
def astar_expand (g : Grid) (goal current : Coord) (st : AstarState) :
    List Coord → AstarState
  | [] => st
  | n :: rest =>
    if n ∈ st.closed_set then astar_expand g goal current st rest
    else
      let tg : ℤ := (dget st.g_score current).getD 0 + 1
      let improve : Bool :=
        match dget st.g_score n with
        | none => true
        | some gn => decide (tg < gn)
      if improve then
        let fn : ℤ := tg + heuristic n goal
        let stUpd : AstarState :=
          { st with
            came_from := (n, current) :: st.came_from
            g_score := (n, tg) :: st.g_score
            f_score := (n, fn) :: st.f_score }
        if n ∈ st.open_set.map (fun e => e.2) then
          astar_expand g goal current
            { stUpd with improves := stUpd.improves ++ [n] } rest
        else
          astar_expand g goal current
            { stUpd with
              open_set := stUpd.open_set ++ [(fn, n)]
              nodes_explored := stUpd.nodes_explored + 1
              adds := stUpd.adds ++ [n] } rest
      else astar_expand g goal current st rest

/-- The `while open_set:` loop of `run_astar`: pop the entry with least
f-value, test the goal *before* closing or counting, then close the node,
count it, and relax neighbors. -/
def run_astar_loop (g : Grid) (goal : Coord) :
    AstarState → ℕ → RunRes AstarState
  | _, 0 => .out
  | st, fuel + 1 =>
    match heap_pop st.open_set with
    | none => .noPath st
    | some ((_, current), restHeap) =>
      let st0 : AstarState := { st with open_set := restHeap }
      if current = goal then .found (reconstruct_path st0.came_from current) st0
      else
        let st1 : AstarState :=
          { st0 with
            closed_set := insert current st0.closed_set
            visited_cells := insert current st0.visited_cells
            nodes_visited := st0.nodes_visited + 1
            pops := st0.pops ++ [current] }
        run_astar_loop g goal
          (astar_expand g goal current st1 (get_neighbors g current)) fuel

/-- Initial A* state: heap `[(0, start)]` (the source pushes priority `0`),
`g_score = {start: 0}`, `f_score = {start: h(start, goal)}`, and — unlike
the other four algorithms — an explored count starting at `0` even though
`start` is placed on the frontier. -/
def astar_init (s t : Coord) : AstarState :=
  ⟨[(0, s)], ∅, [], [(s, 0)], [(s, heuristic s t)], ∅, 0, 0, [], [s], []⟩

/-- `run_astar`, the A* search of the source. -/
def run_astar (g : Grid) (s t : Coord) : RunRes AstarState :=
  run_astar_loop g t (astar_init s t) (search_fuel g)

/-! ## Depth-Limited search (`run_dls`) -/

/-- State of the `run_dls` loop: stack entries carry a depth counter. -/
structure DlsState where
  stack : List (Coord × ℕ)
  visited : Finset Coord
  came_from : List (Coord × Coord)
  nodes_visited : ℕ
  nodes_explored : ℕ
  pops : List Coord
  adds : List Coord
deriving DecidableEq

/-- The neighbor loop of `run_dls` (only reached when `depth < limit`):
push each not-yet-visited neighbor with depth `depth + 1`. -/
def dls_expand (current : Coord) (depth : ℕ) (st : DlsState) :
    List Coord → DlsState
  | [] => st
  | n :: rest =>
    if n ∈ st.visited then dls_expand current depth st rest
    else
      dls_expand current depth
        { st with
          came_from := (n, current) :: st.came_from
          stack := (n, depth + 1) :: st.stack
          nodes_explored := st.nodes_explored + 1
          adds := st.adds ++ [n] } rest

/-- The `while stack:` loop of `run_dls`: pop, skip if visited, otherwise
mark, count, test the goal, prune when `depth >= limit`, else expand the
reversed neighbor list at depth `depth + 1`.  The `.noPath` outcome is the
source's "no path within depth limit" report. -/
def run_dls_loop (g : Grid) (goal : Coord) (limit : ℕ) :
    DlsState → ℕ → RunRes DlsState
  | _, 0 => .out
  | st, fuel + 1 =>
    match st.stack with
    | [] => .noPath st
    | (current, depth) :: rest =>
      let st0 : DlsState := { st with stack := rest }
      if current ∈ st0.visited then run_dls_loop g goal limit st0 fuel
      else
        let st1 : DlsState :=
          { st0 with
            visited := insert current st0.visited
            nodes_visited := st0.nodes_visited + 1
            pops := st0.pops ++ [current] }
        if current = goal then .found (reconstruct_path st1.came_from current) st1
        else if limit ≤ depth then run_dls_loop g goal limit st1 fuel
        else
          run_dls_loop g goal limit
            (dls_expand current depth st1 (get_neighbors g current).reverse) fuel

/-- Initial DLS state: stack `[(start, 0)]`. -/
def dls_init (s : Coord) : DlsState :=
  ⟨[(s, 0)], ∅, [], 0, 1, [], [s]⟩

/-- `run_dls`, the Depth-Limited search of the source. -/
def run_dls (g : Grid) (s t : Coord) (limit : ℕ) : RunRes DlsState :=
  run_dls_loop g t limit (dls_init s) (search_fuel g)

/-! ## `find_path` entry point -/

/-- Algorithm selector, mirroring the `Algorithm` enum. -/
inductive Alg where
  | ASTAR
  | BFS
  | DFS
  | UCS
  | DLS
deriving DecidableEq, Repr

/-- The error `find_path` can signal before a run starts. -/
inductive FindPathError where
  | MissingPositions
deriving DecidableEq, Repr

/-- Algorithm-independent summary of a run, for the `find_path` boundary. -/
structure RunSummary where
  path : Option (List Coord)
  nodes_visited : ℕ
  nodes_explored : ℕ
deriving DecidableEq, Repr

/-- Project a `RunRes` to its summary via state accessors. -/
def summarize {σ : Type} (vis exp : σ → ℕ) : RunRes σ → RunSummary
  | .found p st => ⟨some p, vis st, exp st⟩
  | .noPath st => ⟨none, vis st, exp st⟩
  | .out => ⟨none, 0, 0⟩

/-- `find_path`: the only validation the source performs is
`if not self.start_pos or not self.goal_pos` — a missing start or goal.
Out-of-bounds or obstacle positions are *not* checked; with both positions
present the selected algorithm runs unconditionally. -/
def find_path (g : Grid) (start_pos goal_pos : Option Coord) (alg : Alg)
    (depth_limit : ℕ) : Except FindPathError RunSummary :=
  match start_pos, goal_pos with
  | none, _ => .error .MissingPositions
  | some _, none => .error .MissingPositions
  | some s, some t =>
    match alg with
    | .ASTAR => .ok (summarize AstarState.nodes_visited AstarState.nodes_explored (run_astar g s t))
    | .BFS => .ok (summarize BfsState.nodes_visited BfsState.nodes_explored (run_bfs g s t))
    | .DFS => .ok (summarize DfsState.nodes_visited DfsState.nodes_explored (run_dfs g s t))
    | .UCS => .ok (summarize UcsState.nodes_visited UcsState.nodes_explored (run_ucs g s t))
    | .DLS => .ok (summarize DlsState.nodes_visited DlsState.nodes_explored (run_dls g s t depth_limit))

/-! ## Specification-side path notions -/

/-- Consecutive cells of the list are 4-adjacent (Manhattan distance 1). -/
def pathSteps : List Coord → Prop
  | [] => True
  | [_] => True
  | a :: b :: rest => heuristic a b = 1 ∧ pathSteps (b :: rest)

instance instDecidablePathSteps : (l : List Coord) → Decidable (pathSteps l)
  | [] => inferInstanceAs (Decidable True)
  | [_] => inferInstanceAs (Decidable True)
  | _ :: b :: rest =>
    haveI := instDecidablePathSteps (b :: rest)
    inferInstanceAs (Decidable (_ ∧ _))

/-- `pathSteps` is the chain of adjacency steps. -/
theorem pathSteps_iff_chain : ∀ l : List Coord,
    pathSteps l ↔ l.Chain' (fun a b => heuristic a b = 1) := by
  intro l
  match l with
  | [] => simp [pathSteps]
  | [a] => simp [pathSteps]
  | a :: b :: rest =>
    rw [pathSteps, List.chain'_cons, pathSteps_iff_chain (b :: rest)]

/-- A valid path for the claims: starts at `s`, ends at `t`, every cell
in bounds and not an obstacle, consecutive cells 4-adjacent. -/
def ValidPath (g : Grid) (s t : Coord) (p : List Coord) : Prop :=
  p.head? = some s ∧ p.getLast? = some t ∧
    (∀ c ∈ p, inBounds g c ∧ g.cell c ≠ CellType.OBSTACLE) ∧
    pathSteps p

instance (g : Grid) (s t : Coord) (p : List Coord) :
    Decidable (ValidPath g s t p) :=
  inferInstanceAs (Decidable (p.head? = some s ∧ p.getLast? = some t ∧
    (∀ c ∈ p, inBounds g c ∧ g.cell c ≠ CellType.OBSTACLE) ∧
    pathSteps p))

/-! ## Helper projections and concrete grids -/

/-- Grid with the given dimensions whose obstacles are exactly `obst`. -/
def mkGrid (rows cols : ℕ) (obst : List Coord) : Grid :=
  ⟨rows, cols, fun p => if p ∈ obst then CellType.OBSTACLE else CellType.EMPTY⟩

/-- Did the run find a path? -/
def is_found {σ : Type} : RunRes σ → Bool
  | .found _ _ => true
  | _ => false

/-- Did the run fail with the no-path outcome? -/
def is_no_path {σ : Type} : RunRes σ → Bool
  | .noPath _ => true
  | _ => false

/-- The path of a successful run (`[]` otherwise). -/
def res_path {σ : Type} : RunRes σ → List Coord
  | .found p _ => p
  | _ => []

/-- Final A* state of a completed run (dummy initial state on fuel-out,
which `search_fuel` never produces). -/
def astar_final : RunRes AstarState → AstarState
  | .found _ st => st
  | .noPath st => st
  | .out => astar_init (0, 0) (0, 0)

/-! ## Adjacency characterization -/

/-- Two cells are at Manhattan distance 1 exactly when one is the
up/right/down/left neighbor of the other. -/
theorem heuristic_eq_one_iff (a b : Coord) :
    heuristic a b = 1 ↔
      b = (a.1 - 1, a.2) ∨ b = (a.1, a.2 + 1) ∨
      b = (a.1 + 1, a.2) ∨ b = (a.1, a.2 - 1) := by
  obtain ⟨a1, a2⟩ := a
  obtain ⟨b1, b2⟩ := b
  simp only [heuristic, Prod.mk.injEq]
  rcases abs_cases (a1 - b1) with ⟨h1, _⟩ | ⟨h1, _⟩ <;>
    rcases abs_cases (a2 - b2) with ⟨h2, _⟩ | ⟨h2, _⟩ <;>
      rw [h1, h2] <;> omega

/-- `get_neighbors` written with the four candidate cells spelled out. -/
theorem get_neighbors_eq (g : Grid) (pos : Coord) :
    get_neighbors g pos =
      [(pos.1 - 1, pos.2), (pos.1, pos.2 + 1),
       (pos.1 + 1, pos.2), (pos.1, pos.2 - 1)].filter
        (fun q => decide (inBounds g q) && decide (g.cell q ≠ CellType.OBSTACLE)) := by
  have h1 : pos.1 + (-1 : ℤ) = pos.1 - 1 := by ring
  have h2 : pos.2 + (0 : ℤ) = pos.2 := by ring
  have h3 : pos.1 + (0 : ℤ) = pos.1 := by ring
  have h4 : pos.2 + (-1 : ℤ) = pos.2 - 1 := by ring
  simp [get_neighbors, directions, h1, h2, h3, h4]

/-- Membership characterization of `get_neighbors`: exactly the 4-adjacent,
in-bounds, non-obstacle cells. -/
theorem mem_get_neighbors (g : Grid) (pos q : Coord) :
    q ∈ get_neighbors g pos ↔
      heuristic pos q = 1 ∧ inBounds g q ∧ g.cell q ≠ CellType.OBSTACLE := by
  rw [get_neighbors_eq, heuristic_eq_one_iff]
  simp only [List.mem_filter, List.mem_cons, List.not_mem_nil, or_false,
    Bool.and_eq_true, decide_eq_true_eq]

/-- C7: for every in-bounds position, `get_neighbors` returns exactly those
of the four cells above, right of, below and left of it — in that fixed
order — that lie within bounds and are not obstacles; at most 4 coordinates
are returned.  (`get_neighbors` is a pure function of the grid in this
embedding, so it modifies no state.) -/
theorem claim_get_neighbors_correct (g : Grid) (pos : Coord)
    (_hpos : inBounds g pos) :
    get_neighbors g pos =
      [(pos.1 - 1, pos.2), (pos.1, pos.2 + 1),
       (pos.1 + 1, pos.2), (pos.1, pos.2 - 1)].filter
        (fun q => decide (inBounds g q) && decide (g.cell q ≠ CellType.OBSTACLE)) ∧
    (∀ q, q ∈ get_neighbors g pos ↔
      heuristic pos q = 1 ∧ inBounds g q ∧ g.cell q ≠ CellType.OBSTACLE) ∧
    (get_neighbors g pos).length ≤ 4 := by
  refine ⟨get_neighbors_eq g pos, fun q => mem_get_neighbors g pos q, ?_⟩
  rw [get_neighbors_eq]
  exact le_trans (List.length_filter_le _ _) (by norm_num)

/-- Witness for C7 at a concrete grid and position. -/
theorem claim_get_neighbors_correct_witness :
    inBounds (mkGrid 2 2 [((0 : ℤ), (1 : ℤ))]) (0, 0) ∧
      (get_neighbors (mkGrid 2 2 [((0 : ℤ), (1 : ℤ))]) (0, 0) =
        [((0 : ℤ) - 1, (0 : ℤ)), ((0 : ℤ), (0 : ℤ) + 1),
         ((0 : ℤ) + 1, (0 : ℤ)), ((0 : ℤ), (0 : ℤ) - 1)].filter
          (fun q => decide (inBounds (mkGrid 2 2 [((0 : ℤ), (1 : ℤ))]) q) &&
            decide ((mkGrid 2 2 [((0 : ℤ), (1 : ℤ))]).cell q ≠ CellType.OBSTACLE)) ∧
      (∀ q, q ∈ get_neighbors (mkGrid 2 2 [((0 : ℤ), (1 : ℤ))]) (0, 0) ↔
        heuristic (0, 0) q = 1 ∧ inBounds (mkGrid 2 2 [((0 : ℤ), (1 : ℤ))]) q ∧
          (mkGrid 2 2 [((0 : ℤ), (1 : ℤ))]).cell q ≠ CellType.OBSTACLE) ∧
      (get_neighbors (mkGrid 2 2 [((0 : ℤ), (1 : ℤ))]) (0, 0)).length ≤ 4) :=
  ⟨by decide, claim_get_neighbors_correct (mkGrid 2 2 [((0 : ℤ), (1 : ℤ))]) (0, 0) (by decide)⟩

/-! ## Start = goal behaviour (C10) -/

/-- `search_fuel` in successor form, so one loop step can be unfolded. -/
theorem search_fuel_eq (g : Grid) :
    search_fuel g = (5 * (g.rows * g.cols) + 9) + 1 := by
  unfold search_fuel; omega

/-- BFS with `start = goal`: the dequeued goal is counted before the goal
test, so one visit is recorded. -/
theorem run_bfs_self (g : Grid) (s : Coord) :
    run_bfs g s s = .found [s] ⟨[], {s}, [], 1, 1, [s], [s]⟩ := by
  rw [run_bfs, search_fuel_eq]
  simp [bfs_init, run_bfs_loop, reconstruct_path, reconstruct_aux, dget]

/-- DFS with `start = goal`. -/
theorem run_dfs_self (g : Grid) (s : Coord) :
    run_dfs g s s = .found [s] ⟨[], {s}, [], 1, 1, [s], [s]⟩ := by
  rw [run_dfs, search_fuel_eq]
  simp [dfs_init, run_dfs_loop, reconstruct_path, reconstruct_aux, dget]

/-- UCS with `start = goal`. -/
theorem run_ucs_self (g : Grid) (s : Coord) :
    run_ucs g s s = .found [s] ⟨[], [], [(s, 0)], {s}, 1, 1, [s], [s]⟩ := by
  rw [run_ucs, search_fuel_eq]
  simp [ucs_init, run_ucs_loop, heap_pop, heap_min, reconstruct_path,
    reconstruct_aux, dget]

/-- DLS with `start = goal`. -/
theorem run_dls_self (g : Grid) (s : Coord) (L : ℕ) :
    run_dls g s s L = .found [s] ⟨[], {s}, [], 1, 1, [s], [s]⟩ := by
  rw [run_dls, search_fuel_eq]
  simp [dls_init, run_dls_loop, reconstruct_path, reconstruct_aux, dget]

/-- A* with `start = goal`: the goal test precedes closing and counting,
so no visit is recorded. -/
theorem run_astar_self (g : Grid) (s : Coord) :
    run_astar g s s =
      .found [s] ⟨[], ∅, [], [(s, 0)], [(s, heuristic s s)], ∅, 0, 0, [], [s], []⟩ := by
  rw [run_astar, search_fuel_eq]
  simp [astar_init, run_astar_loop, heap_pop, heap_min, reconstruct_path,
    reconstruct_aux, dget]

/-- C10: when start equals goal, all five algorithms succeed on the first
frontier element with the single-cell path `[start]`; A* records
`nodes_visited = 0` (goal test before the visited increment) while the
other four record `nodes_visited = 1` (the dequeued goal is counted). -/
theorem claim_start_eq_goal (g : Grid) (s : Coord) (L : ℕ) :
    (∃ st, run_astar g s s = .found [s] st ∧ st.nodes_visited = 0) ∧
    (∃ st, run_bfs g s s = .found [s] st ∧ st.nodes_visited = 1) ∧
    (∃ st, run_dfs g s s = .found [s] st ∧ st.nodes_visited = 1) ∧
    (∃ st, run_ucs g s s = .found [s] st ∧ st.nodes_visited = 1) ∧
    (∃ st, run_dls g s s L = .found [s] st ∧ st.nodes_visited = 1) :=
  ⟨⟨_, run_astar_self g s, rfl⟩, ⟨_, run_bfs_self g s, rfl⟩,
   ⟨_, run_dfs_self g s, rfl⟩, ⟨_, run_ucs_self g s, rfl⟩,
   ⟨_, run_dls_self g s L, rfl⟩⟩

/-! ## `find_path` validation (C6) -/

/-- Counterexample to C6: on a 2×2 grid whose start cell `(0,0)` is an
Obstacle, `find_path` does not signal any error — the Breadth-First run
executes in full (4 loop iterations are counted) and even returns a path
through the obstacle start.  The source validates only *missing* positions. -/
theorem claim_find_path_validation_cex :
    (mkGrid 2 2 [((0 : ℤ), (0 : ℤ))]).cell (0, 0) = CellType.OBSTACLE ∧
      find_path (mkGrid 2 2 [((0 : ℤ), (0 : ℤ))]) (some (0, 0)) (some (1, 1))
          Alg.BFS 15 =
        .ok ⟨some [(0, 0), (0, 1), (1, 1)], 4, 4⟩ := by
  constructor
  · decide
  · decide

/-- C6 amended: `find_path` signals `MissingPositions` exactly when the
start or the goal position is absent; out-of-bounds or obstacle positions
are not validated, and with both positions present the selected algorithm
always runs (no error is possible). -/
theorem claim_find_path_validation_amended (g : Grid)
    (start_pos goal_pos : Option Coord) (alg : Alg) (L : ℕ) :
    (∃ e, find_path g start_pos goal_pos alg L = .error e) ↔
      start_pos = none ∨ goal_pos = none := by
  cases start_pos with
  | none => simpa [find_path] using ⟨.MissingPositions, trivial⟩
  | some s =>
    cases goal_pos with
    | none => simpa [find_path] using ⟨.MissingPositions, trivial⟩
    | some t => cases alg <;> simp [find_path]

/-! ## Statistics semantics (C5) -/

/-- The run's counters agree with its event traces: `nodes_visited` equals
the number of accepted pops recorded, and `nodes_explored` plus a fixed
offset equals the number of frontier-add (generation) events recorded. -/
def stats_match {σ : Type} (vis exp : σ → ℕ) (popsF addsF : σ → List Coord)
    (off : ℕ) : RunRes σ → Prop
  | .found _ st => vis st = (popsF st).length ∧ exp st + off = (addsF st).length
  | .noPath st => vis st = (popsF st).length ∧ exp st + off = (addsF st).length
  | .out => True

/-- Stats invariant preserved by the BFS neighbor loop. -/
theorem bfs_expand_stats (c : Coord) (ns : List Coord) : ∀ st : BfsState,
    st.nodes_visited = st.pops.length ∧ st.nodes_explored = st.adds.length →
    (bfs_expand c st ns).nodes_visited = (bfs_expand c st ns).pops.length ∧
      (bfs_expand c st ns).nodes_explored = (bfs_expand c st ns).adds.length := by
  induction ns with
  | nil => intro st h; simpa [bfs_expand] using h
  | cons n rest ih =>
    intro st h
    rw [bfs_expand]
    split
    · exact ih st h
    · exact ih _ (by simp [h.1, h.2])

/-- Stats invariant through the BFS loop. -/
theorem run_bfs_loop_stats (g : Grid) (goal : Coord) : ∀ fuel (st : BfsState),
    st.nodes_visited = st.pops.length ∧ st.nodes_explored = st.adds.length →
    stats_match BfsState.nodes_visited BfsState.nodes_explored BfsState.pops
      BfsState.adds 0 (run_bfs_loop g goal st fuel) := by
  intro fuel
  induction fuel with
  | zero => intro st _; simp [run_bfs_loop, stats_match]
  | succ n ih =>
    intro st h
    rw [run_bfs_loop]
    cases hq : st.queue with
    | nil => simpa [stats_match] using h
    | cons current rest =>
      by_cases hg : current = goal
      · simp only [hg, if_pos rfl]
        simp only [stats_match]
        constructor
        · simp [h.1]
        · simp [h.2]
      · simp only [if_neg hg]
        exact ih _ (bfs_expand_stats _ _ _ (by simp [h.1, h.2]))

/-- Stats invariant preserved by the DFS neighbor loop. -/
theorem dfs_expand_stats (c : Coord) (ns : List Coord) : ∀ st : DfsState,
    st.nodes_visited = st.pops.length ∧ st.nodes_explored = st.adds.length →
    (dfs_expand c st ns).nodes_visited = (dfs_expand c st ns).pops.length ∧
      (dfs_expand c st ns).nodes_explored = (dfs_expand c st ns).adds.length := by
  induction ns with
  | nil => intro st h; simpa [dfs_expand] using h
  | cons n rest ih =>
    intro st h
    rw [dfs_expand]
    split
    · exact ih st h
    · exact ih _ (by simp [h.1, h.2])

/-- Stats invariant through the DFS loop. -/
theorem run_dfs_loop_stats (g : Grid) (goal : Coord) : ∀ fuel (st : DfsState),
    st.nodes_visited = st.pops.length ∧ st.nodes_explored = st.adds.length →
    stats_match DfsState.nodes_visited DfsState.nodes_explored DfsState.pops
      DfsState.adds 0 (run_dfs_loop g goal st fuel) := by
  intro fuel
  induction fuel with
  | zero => intro st _; simp [run_dfs_loop, stats_match]
  | succ n ih =>
    intro st h
    rw [run_dfs_loop]
    cases hq : st.stack with
    | nil => simpa [stats_match] using h
    | cons current rest =>
      by_cases hv : current ∈ st.visited
      · simp only [if_pos hv]
        exact ih _ (by simp [h.1, h.2])
      · simp only [if_neg hv]
        by_cases hg : current = goal
        · simp only [hg, if_pos rfl]
          simp only [stats_match]
          exact ⟨by simp [h.1], by simp [h.2]⟩
        · simp only [if_neg hg]
          exact ih _ (dfs_expand_stats _ _ _ (by simp [h.1, h.2]))

/-- Stats invariant preserved by the DLS neighbor loop. -/
theorem dls_expand_stats (c : Coord) (d : ℕ) (ns : List Coord) :
    ∀ st : DlsState,
    st.nodes_visited = st.pops.length ∧ st.nodes_explored = st.adds.length →
    (dls_expand c d st ns).nodes_visited = (dls_expand c d st ns).pops.length ∧
      (dls_expand c d st ns).nodes_explored = (dls_expand c d st ns).adds.length := by
  induction ns with
  | nil => intro st h; simpa [dls_expand] using h
  | cons n rest ih =>
    intro st h
    rw [dls_expand]
    split
    · exact ih st h
    · exact ih _ (by simp [h.1, h.2])

/-- Stats invariant through the DLS loop. -/
theorem run_dls_loop_stats (g : Grid) (goal : Coord) (L : ℕ) :
    ∀ fuel (st : DlsState),
    st.nodes_visited = st.pops.length ∧ st.nodes_explored = st.adds.length →
    stats_match DlsState.nodes_visited DlsState.nodes_explored DlsState.pops
      DlsState.adds 0 (run_dls_loop g goal L st fuel) := by
  intro fuel
  induction fuel with
  | zero => intro st _; simp [run_dls_loop, stats_match]
  | succ n ih =>
    intro st h
    rw [run_dls_loop]
    cases hq : st.stack with
    | nil => simpa [stats_match] using h
    | cons cd rest =>
      obtain ⟨current, depth⟩ := cd
      by_cases hv : current ∈ st.visited
      · simp only [if_pos hv]
        exact ih _ (by simp [h.1, h.2])
      · simp only [if_neg hv]
        by_cases hg : current = goal
        · simp only [hg, if_pos rfl]
          simp only [stats_match]
          exact ⟨by simp [h.1], by simp [h.2]⟩
        · simp only [if_neg hg]
          by_cases hd : L ≤ depth
          · simp only [if_pos hd]
            exact ih _ (by simp [h.1, h.2])
          · simp only [if_neg hd]
            exact ih _ (dls_expand_stats _ _ _ _ (by simp [h.1, h.2]))

/-- Stats invariant preserved by the UCS neighbor loop. -/
theorem ucs_expand_stats (c : Coord) (ns : List Coord) : ∀ st : UcsState,
    st.nodes_visited = st.pops.length ∧ st.nodes_explored = st.adds.length →
    (ucs_expand c st ns).nodes_visited = (ucs_expand c st ns).pops.length ∧
      (ucs_expand c st ns).nodes_explored = (ucs_expand c st ns).adds.length := by
  induction ns with
  | nil => intro st h; simpa [ucs_expand] using h
  | cons n rest ih =>
    intro st h
    rw [ucs_expand]
    by_cases hv : n ∈ st.visited_cells
    · simp only [if_pos hv]
      exact ih st h
    · simp only [if_neg hv]
      cases hdg : dget st.g_score n with
      | none =>
        simp only [hdg]
        exact ih _ (by simp [h.1, h.2])
      | some gn =>
        simp only [hdg]
        split
        · exact ih _ (by simp [h.1, h.2])
        · exact ih st h

/-- Stats invariant through the UCS loop. -/
theorem run_ucs_loop_stats (g : Grid) (goal : Coord) : ∀ fuel (st : UcsState),
    st.nodes_visited = st.pops.length ∧ st.nodes_explored = st.adds.length →
    stats_match UcsState.nodes_visited UcsState.nodes_explored UcsState.pops
      UcsState.adds 0 (run_ucs_loop g goal st fuel) := by
  intro fuel
  induction fuel with
  | zero => intro st _; simp [run_ucs_loop, stats_match]
  | succ n ih =>
    intro st h
    rw [run_ucs_loop]
    cases hq : heap_pop st.open_set with
    | none => simpa [stats_match] using h
    | some pr =>
      obtain ⟨⟨k, current⟩, restHeap⟩ := pr
      by_cases hv : current ∈ st.visited_cells
      · simp only [if_pos hv]
        exact ih _ (by simp [h.1, h.2])
      · simp only [if_neg hv]
        by_cases hg : current = goal
        · simp only [hg, if_pos rfl]
          simp only [stats_match]
          exact ⟨by simp [h.1], by simp [h.2]⟩
        · simp only [if_neg hg]
          exact ih _ (ucs_expand_stats _ _ _ (by simp [h.1, h.2]))

/-- Stats invariant (with offset 1) preserved by the A* neighbor loop. -/
theorem astar_expand_stats (g : Grid) (goal c : Coord) (ns : List Coord) :
    ∀ st : AstarState,
    st.nodes_visited = st.pops.length ∧ st.nodes_explored + 1 = st.adds.length →
    (astar_expand g goal c st ns).nodes_visited =
        (astar_expand g goal c st ns).pops.length ∧
      (astar_expand g goal c st ns).nodes_explored + 1 =
        (astar_expand g goal c st ns).adds.length := by
  induction ns with
  | nil => intro st h; simpa [astar_expand] using h
  | cons n rest ih =>
    intro st h
    rw [astar_expand]
    by_cases hc : n ∈ st.closed_set
    · simp only [if_pos hc]
      exact ih st h
    · simp only [if_neg hc]
      cases hdg : dget st.g_score n with
      | none =>
        simp only [hdg]
        by_cases hop : n ∈ st.open_set.map (fun e => e.2)
        · simp only [if_pos hop]
          exact ih _ (by simp [h.1, h.2])
        · simp only [if_neg hop]
          exact ih _ (by simp [h.1, h.2])
      | some gn =>
        simp only [hdg]
        split
        · by_cases hop : n ∈ st.open_set.map (fun e => e.2)
          · simp only [if_pos hop]
            exact ih _ (by simp [h.1, h.2])
          · simp only [if_neg hop]
            exact ih _ (by simp [h.1, h.2])
        · exact ih st h

/-- Stats invariant (offset 1) through the A* loop. -/
theorem run_astar_loop_stats (g : Grid) (goal : Coord) :
    ∀ fuel (st : AstarState),
    st.nodes_visited = st.pops.length ∧ st.nodes_explored + 1 = st.adds.length →
    stats_match AstarState.nodes_visited AstarState.nodes_explored
      AstarState.pops AstarState.adds 1 (run_astar_loop g goal st fuel) := by
  intro fuel
  induction fuel with
  | zero => intro st _; simp [run_astar_loop, stats_match]
  | succ n ih =>
    intro st h
    rw [run_astar_loop]
    cases hq : heap_pop st.open_set with
    | none => simpa [stats_match] using h
    | some pr =>
      obtain ⟨⟨k, current⟩, restHeap⟩ := pr
      by_cases hg : current = goal
      · simp only [hg, if_pos rfl]
        simp only [stats_match]
        exact ⟨by simp [h.1], by simp [h.2]⟩
      · simp only [if_neg hg]
        exact ih _ (astar_expand_stats _ _ _ _ _ (by simp [h.1, h.2]))

/-- Counterexample to C5: A* on a 1×1 grid with `start = goal`.  The run
dequeues and accepts the goal (it returns `found`), and one generation
event occurred (the initial frontier placement of start, visible in the
`adds` trace), yet `nodes_visited = 0` and `nodes_explored = 0`: A* counts
neither the terminal goal dequeue nor the initial placement, contradicting
the claimed counting rule. -/
theorem claim_stats_semantics_cex :
    run_astar (mkGrid 1 1 []) (0, 0) (0, 0) =
      .found [(0, 0)]
        ⟨[], ∅, [], [((0, 0), 0)], [((0, 0), 0)], ∅, 0, 0, [], [(0, 0)], []⟩ := by
  decide

/-- C5 amended: for Breadth-First, Depth-First, Uniform-Cost and
Depth-Limited, `nodes_visited` equals the number of accepted pops and
`nodes_explored` equals the number of generation events including the
initial placement of the start node; for A*, `nodes_visited` excludes the
terminal goal dequeue (no pop event is recorded for it) and
`nodes_explored` is one less than the number of generation events — the
initial placement of the start node is not counted. -/
theorem claim_stats_semantics_amended (g : Grid) (s t : Coord) (L : ℕ) :
    stats_match BfsState.nodes_visited BfsState.nodes_explored BfsState.pops
      BfsState.adds 0 (run_bfs g s t) ∧
    stats_match DfsState.nodes_visited DfsState.nodes_explored DfsState.pops
      DfsState.adds 0 (run_dfs g s t) ∧
    stats_match UcsState.nodes_visited UcsState.nodes_explored UcsState.pops
      UcsState.adds 0 (run_ucs g s t) ∧
    stats_match DlsState.nodes_visited DlsState.nodes_explored DlsState.pops
      DlsState.adds 0 (run_dls g s t L) ∧
    stats_match AstarState.nodes_visited AstarState.nodes_explored
      AstarState.pops AstarState.adds 1 (run_astar g s t) :=
  ⟨run_bfs_loop_stats g t _ _ (by simp [bfs_init]),
   run_dfs_loop_stats g t _ _ (by simp [dfs_init]),
   run_ucs_loop_stats g t _ _ (by simp [ucs_init]),
   run_dls_loop_stats g t L _ _ (by simp [dls_init]),
   run_astar_loop_stats g t _ _ (by simp [astar_init])⟩

/-! ## Heap model lemmas -/

theorem entry_le_refl (a : HeapEntry) : entry_le a a := by
  simp [entry_le]

theorem entry_le_total (a b : HeapEntry) : entry_le a b ∨ entry_le b a := by
  unfold entry_le; omega

theorem entry_le_trans {a b c : HeapEntry} (h1 : entry_le a b)
    (h2 : entry_le b c) : entry_le a c := by
  unfold entry_le at *; omega

theorem heap_min_eq_none : ∀ {l : List HeapEntry}, heap_min l = none ↔ l = [] := by
  intro l
  cases l with
  | nil => simp [heap_min]
  | cons e rest =>
    rw [heap_min]
    cases hr : heap_min rest <;> simp
    intro h
    exact absurd h (by split <;> simp)

theorem heap_min_mem : ∀ {l : List HeapEntry} {m : HeapEntry},
    heap_min l = some m → m ∈ l := by
  intro l
  induction l with
  | nil => intro m h; simp [heap_min] at h
  | cons e rest ih =>
    intro m h
    cases hr : heap_min rest with
    | none =>
      simp [heap_min, hr] at h
      simp [h]
    | some m' =>
      simp [heap_min, hr] at h
      by_cases hle : entry_le e m'
      · rw [if_pos hle] at h
        simp at h
        simp [h]
      · rw [if_neg hle] at h
        simp at h
        exact List.mem_cons_of_mem e (h ▸ ih hr)

theorem heap_min_le : ∀ {l : List HeapEntry} {m : HeapEntry},
    heap_min l = some m → ∀ x ∈ l, entry_le m x := by
  intro l
  induction l with
  | nil => intro m h; simp [heap_min] at h
  | cons e rest ih =>
    intro m h x hx
    cases hr : heap_min rest with
    | none =>
      have hrest : rest = [] := heap_min_eq_none.mp hr
      subst hrest
      simp [heap_min] at h
      simp at hx
      subst h
      subst hx
      exact entry_le_refl _
    | some m' =>
      simp [heap_min, hr] at h
      rcases List.mem_cons.mp hx with rfl | hx'
      · by_cases hle : entry_le x m'
        · rw [if_pos hle] at h
          simp at h
          subst h
          exact entry_le_refl _
        · rw [if_neg hle] at h
          simp at h
          rw [← h]
          exact (entry_le_total x m').resolve_left hle
      · by_cases hle : entry_le e m'
        · rw [if_pos hle] at h
          simp at h
          subst h
          exact entry_le_trans hle (ih hr x hx')
        · rw [if_neg hle] at h
          simp at h
          subst h
          exact ih hr x hx'

theorem heap_pop_some {l : List HeapEntry} {m : HeapEntry}
    {rest : List HeapEntry} (h : heap_pop l = some (m, rest)) :
    heap_min l = some m ∧ rest = l.erase m := by
  unfold heap_pop at h
  cases hm : heap_min l with
  | none => rw [hm] at h; simp at h
  | some m' =>
    rw [hm] at h
    simp at h
    obtain ⟨h1, h2⟩ := h
    subst h1
    exact ⟨rfl, h2.symm⟩

theorem heap_pop_none {l : List HeapEntry} (h : heap_pop l = none) : l = [] := by
  unfold heap_pop at h
  cases hm : heap_min l with
  | none => exact heap_min_eq_none.mp hm
  | some m => rw [hm] at h; simp at h

/-- Erasing an entry commutes with projecting coordinates, when the heap's
coordinates are distinct. -/
theorem map_snd_erase : ∀ (l : List HeapEntry) (m : HeapEntry), m ∈ l →
    (l.map (fun e => e.2)).Nodup →
    (l.erase m).map (fun e => e.2) = (l.map (fun e => e.2)).erase m.2 := by
  intro l
  induction l with
  | nil => intro m hm; simp at hm
  | cons a t ih =>
    intro m hm hnd
    rcases List.mem_cons.mp hm with rfl | hmt
    · simp [List.erase_cons_head]
    · have hne : a ≠ m := by
        rintro rfl
        exact (List.nodup_cons.mp hnd).1 (List.mem_map_of_mem _ hmt)
      have hne2 : a.2 ≠ m.2 := by
        intro he
        apply (List.nodup_cons.mp hnd).1
        have hm2 : m.2 ∈ List.map (fun e => e.2) t := List.mem_map_of_mem _ hmt
        simpa [he] using hm2
      rw [List.erase_cons_tail (by simpa using hne), List.map_cons,
        List.map_cons, List.erase_cons_tail (by simpa using hne2),
        ih m hmt (List.nodup_cons.mp hnd).2]

/-! ## A* open-list structure (C3) -/

/-- Structural invariant of the A* open list: heap coordinates are
pairwise distinct, disjoint from the closed set, and together with the
closed set they are exactly the coordinates ever added to the frontier
(which are themselves pairwise distinct: no coordinate is pushed twice). -/
structure AOpen (st : AstarState) : Prop where
  nd : (st.open_set.map (fun e => e.2)).Nodup
  disj : ∀ c ∈ st.open_set.map (fun e => e.2), c ∉ st.closed_set
  cover : ∀ c, c ∈ st.adds ↔
    (c ∈ st.open_set.map (fun e => e.2) ∨ c ∈ st.closed_set)
  andd : st.adds.Nodup

/-- `AOpen` is preserved by the A* neighbor loop. -/
theorem astar_expand_aopen (g : Grid) (goal c : Coord) (ns : List Coord) :
    ∀ st : AstarState, AOpen st →
    AOpen (astar_expand g goal c st ns) := by
  induction ns with
  | nil => intro st h; simpa [astar_expand] using h
  | cons n rest ih =>
    intro st h
    rw [astar_expand]
    by_cases hc : n ∈ st.closed_set
    · simp only [if_pos hc]
      exact ih st h
    · simp only [if_neg hc]
      have step : ∀ st' : AstarState, st'.open_set = st.open_set →
          st'.closed_set = st.closed_set → st'.adds = st.adds → AOpen st' := by
        intro st' h1 h2 h3
        exact ⟨h1 ▸ h.nd, fun x hx => h2 ▸ h.disj x (h1 ▸ hx),
          fun x => h3 ▸ h1 ▸ h2 ▸ h.cover x, h3 ▸ h.andd⟩
      have push : ∀ fn : ℤ, n ∉ st.open_set.map (fun e => e.2) →
          ∀ st' : AstarState, st'.open_set = st.open_set ++ [(fn, n)] →
          st'.closed_set = st.closed_set → st'.adds = st.adds ++ [n] →
          AOpen st' := by
        intro fn hop st' h1 h2 h3
        have hnadds : n ∉ st.adds := by
          rw [h.cover]
          push_neg
          exact ⟨hop, hc⟩
        refine ⟨?_, ?_, ?_, ?_⟩
        · rw [h1]
          simp only [List.map_append, List.map_cons, List.map_nil]
          exact List.Nodup.append h.nd (by simp) (by
            intro x hx hx2
            simp at hx2
            subst hx2
            exact hop hx)
        · intro x hx
          rw [h1] at hx
          simp only [List.map_append, List.mem_append] at hx
          rw [h2]
          rcases hx with hx | hx
          · exact h.disj x hx
          · simp at hx
            subst hx
            exact hc
        · intro x
          rw [h1, h2, h3]
          simp only [List.map_append, List.mem_append, List.map_cons,
            List.map_nil, List.mem_singleton]
          rw [h.cover x]
          tauto
        · rw [h3]
          exact List.Nodup.append h.andd (by simp) (by
            intro x hx hx2
            simp at hx2
            subst hx2
            exact hnadds hx)
      cases hdg : dget st.g_score n with
      | none =>
        simp only [hdg]
        by_cases hop : n ∈ st.open_set.map (fun e => e.2)
        · simp only [if_pos hop]
          exact ih _ (step _ rfl rfl rfl)
        · simp only [if_neg hop]
          exact ih _ (push _ hop _ rfl rfl rfl)
      | some gn =>
        simp only [hdg]
        split
        · by_cases hop : n ∈ st.open_set.map (fun e => e.2)
          · simp only [if_pos hop]
            exact ih _ (step _ rfl rfl rfl)
          · simp only [if_neg hop]
            exact ih _ (push _ hop _ rfl rfl rfl)
        · exact ih st h

/-- After popping the minimal entry, the remaining heap coordinates are the
previous ones without the popped coordinate. -/
theorem aopen_pop {st : AstarState} (h : AOpen st) {k : ℤ} {current : Coord}
    {restHeap : List HeapEntry}
    (hp : heap_pop st.open_set = some ((k, current), restHeap)) :
    restHeap.map (fun e => e.2) =
      (st.open_set.map (fun e => e.2)).erase current ∧
    current ∈ st.open_set.map (fun e => e.2) ∧ current ∉ st.closed_set := by
  obtain ⟨hmin, hrest⟩ := heap_pop_some hp
  have hmem : ((k, current) : HeapEntry) ∈ st.open_set := heap_min_mem hmin
  have hmap := map_snd_erase st.open_set (k, current) hmem h.nd
  have hcur : current ∈ st.open_set.map (fun e => e.2) :=
    List.mem_map_of_mem _ hmem
  exact ⟨by rw [hrest]; exact hmap, hcur, h.disj current hcur⟩

/-- The final state of every A* run has a duplicate-free `adds` trace. -/
def res_adds_nodup : RunRes AstarState → Prop
  | .found _ st => st.adds.Nodup
  | .noPath st => st.adds.Nodup
  | .out => True

/-- The invariant `AOpen` survives popping the minimal entry and closing
its coordinate (the accept step of the A* loop). -/
theorem aopen_accept {st : AstarState} (h : AOpen st) {k : ℤ}
    {current : Coord} {restHeap : List HeapEntry}
    (hq : heap_pop st.open_set = some ((k, current), restHeap)) :
    AOpen { st with
      open_set := restHeap
      closed_set := insert current st.closed_set
      visited_cells := insert current st.visited_cells
      nodes_visited := st.nodes_visited + 1
      pops := st.pops ++ [current] } := by
  obtain ⟨hmap, hcur, hncl⟩ := aopen_pop h hq
  refine ⟨?_, ?_, ?_, h.andd⟩
  · simp only [hmap]
    exact h.nd.erase current
  · intro x hx
    simp only [hmap] at hx
    rw [h.nd.mem_erase_iff] at hx
    simp only [Finset.mem_insert]
    push_neg
    exact ⟨hx.1, h.disj x hx.2⟩
  · intro x
    simp only [hmap]
    rw [h.cover x]
    simp only [Finset.mem_insert]
    by_cases hxc : x = current
    · subst hxc
      simp [List.Nodup.mem_erase_iff h.nd, hcur]
    · simp [List.Nodup.mem_erase_iff h.nd, hxc]

/-- `AOpen` through the A* loop: every outcome's `adds` trace is
duplicate-free. -/
theorem run_astar_loop_aopen (g : Grid) (goal : Coord) :
    ∀ fuel (st : AstarState), AOpen st →
    res_adds_nodup (run_astar_loop g goal st fuel) := by
  intro fuel
  induction fuel with
  | zero => intro st _; simp [run_astar_loop, res_adds_nodup]
  | succ n ih =>
    intro st h
    rw [run_astar_loop]
    cases hq : heap_pop st.open_set with
    | none => simpa [res_adds_nodup] using h.andd
    | some pr =>
      obtain ⟨⟨k, current⟩, restHeap⟩ := pr
      by_cases hg : current = goal
      · simp only [hg, if_pos rfl]
        simpa [res_adds_nodup] using h.andd
      · simp only [if_neg hg]
        exact ih _ (astar_expand_aopen g goal current _ _ (aopen_accept h hq))

/-- The initial A* state satisfies the open-list invariant. -/
theorem astar_init_aopen (s t : Coord) : AOpen (astar_init s t) := by
  constructor <;> simp [astar_init]

/-- C3 amended: in every A* run no coordinate is ever pushed onto the open
list twice — in particular, when a cheaper path to a coordinate already in
the open list is discovered (an `improves` event, which does occur, see the
counterexample), the coordinate's `g_score`, `f_score` and `came_from` are
updated but it is *not* re-pushed with its improved f value. -/
theorem claim_astar_repush_amended (g : Grid) (s t : Coord) :
    res_adds_nodup (run_astar g s t) :=
  run_astar_loop_aopen g t _ _ (astar_init_aopen s t)

/-- Counterexample to C3 as stated: on the 3×4 grid with obstacles at
`(0,1)` and `(1,0)`, start `(2,3)`, goal `(0,0)`, a cheaper path to `(2,1)`
is discovered while `(2,1)` is in the open list and not closed (recorded in
`improves`), yet `(2,1)` appears exactly once in the frontier-add trace:
it was never re-pushed. -/
theorem claim_astar_repush_cex :
    (astar_final (run_astar (mkGrid 3 4 [((0 : ℤ), (1 : ℤ)), ((1 : ℤ), (0 : ℤ))])
        (2, 3) (0, 0))).improves = [(2, 1)] ∧
    (astar_final (run_astar (mkGrid 3 4 [((0 : ℤ), (1 : ℤ)), ((1 : ℤ), (0 : ℤ))])
        (2, 3) (0, 0))).adds.count (2, 1) = 1 := by
  constructor
  · decide
  · decide

/-! ## Valid-path constructions -/

/-- The one-cell path at a well-placed cell. -/
theorem validPath_single {g : Grid} {s : Coord} (h1 : inBounds g s)
    (h2 : g.cell s ≠ CellType.OBSTACLE) : ValidPath g s s [s] := by
  refine ⟨rfl, rfl, ?_, by simp [pathSteps]⟩
  intro c hc
  simp at hc
  subst hc
  exact ⟨h1, h2⟩

/-- Extending a valid path by one neighbor step. -/
theorem validPath_snoc {g : Grid} {s c n : Coord} {p : List Coord}
    (h : ValidPath g s c p) (hn : n ∈ get_neighbors g c) :
    ValidPath g s n (p ++ [n]) := by
  obtain ⟨hh, hl, hm, hch⟩ := h
  obtain ⟨hadj, hb, hob⟩ := (mem_get_neighbors g c n).mp hn
  have hne : p ≠ [] := by
    intro he
    rw [he] at hh
    simp at hh
  refine ⟨?_, ?_, ?_, ?_⟩
  · rwa [List.head?_append_of_ne_nil _ hne]
  · simp
  · intro x hx
    rcases List.mem_append.mp hx with hx | hx
    · exact hm x hx
    · simp at hx
      subst hx
      exact ⟨hb, hob⟩
  · rw [pathSteps_iff_chain] at hch ⊢
    rw [List.chain'_append]
    refine ⟨hch, by simp, ?_⟩
    intro x hx y hy
    simp at hy
    subst hy
    rw [hl] at hx
    simp at hx
    subst hx
    exact hadj

/-! ## Depth-Limited search bound (C4) -/

/-- Every stack entry of a DLS run carries a depth within the limit and is
reachable from the start by a valid path of `depth + 1` cells. -/
def DlsStackInv (g : Grid) (s : Coord) (L : ℕ) (st : DlsState) : Prop :=
  ∀ e ∈ st.stack, e.2 ≤ L ∧ ∃ p, ValidPath g s e.1 p ∧ p.length = e.2 + 1

/-- Success of a DLS run implies a valid path of at most `L + 1` cells. -/
def dls_short_path (g : Grid) (s t : Coord) (L : ℕ) : RunRes DlsState → Prop
  | .found _ _ => ∃ q, ValidPath g s t q ∧ q.length ≤ L + 1
  | _ => True

/-- The DLS neighbor loop preserves the stack invariant, given the current
node's witness path. -/
theorem dls_expand_stackinv (g : Grid) (s : Coord) (L : ℕ) (c : Coord)
    (depth : ℕ) (hdepth : depth < L) (p : List Coord)
    (hp : ValidPath g s c p) (hlen : p.length = depth + 1) :
    ∀ (ns : List Coord), (∀ n ∈ ns, n ∈ get_neighbors g c) →
    ∀ st : DlsState, DlsStackInv g s L st →
    DlsStackInv g s L (dls_expand c depth st ns) := by
  intro ns
  induction ns with
  | nil => intro _ st h; simpa [dls_expand] using h
  | cons n rest ih =>
    intro hns st h
    rw [dls_expand]
    split
    · exact ih (fun x hx => hns x (List.mem_cons_of_mem n hx)) st h
    · apply ih (fun x hx => hns x (List.mem_cons_of_mem n hx))
      intro e he
      simp only [List.mem_cons] at he
      rcases he with rfl | he
      · refine ⟨hdepth, p ++ [n], ?_, by simp [hlen]⟩
        exact validPath_snoc hp (hns n (List.mem_cons_self n rest))
      · exact h e he

/-- The DLS loop turns the stack invariant into the short-path conclusion. -/
theorem run_dls_loop_short (g : Grid) (s t : Coord) (L : ℕ) :
    ∀ fuel (st : DlsState), DlsStackInv g s L st →
    dls_short_path g s t L (run_dls_loop g t L st fuel) := by
  intro fuel
  induction fuel with
  | zero => intro st _; simp [run_dls_loop, dls_short_path]
  | succ nn ih =>
    intro st h
    rw [run_dls_loop]
    cases hq : st.stack with
    | nil => simp [dls_short_path]
    | cons cd rest =>
      obtain ⟨current, depth⟩ := cd
      have hhead := h (current, depth) (hq ▸ List.mem_cons_self _ _)
      have htail : DlsStackInv g s L { st with stack := rest } := by
        intro e he
        exact h e (hq ▸ List.mem_cons_of_mem _ he)
      by_cases hv : current ∈ st.visited
      · simp only [if_pos hv]
        exact ih _ htail
      · simp only [if_neg hv]
        by_cases hg : current = t
        case pos =>
          subst hg
          simp only [if_pos rfl]
          simp only [dls_short_path]
          obtain ⟨hd, p, hp, hlen⟩ := hhead
          exact ⟨p, hp, by omega⟩
        case neg =>
          simp only [if_neg hg]
          by_cases hd : L ≤ depth
          · simp only [if_pos hd]
            exact ih _ (fun e he => htail e he)
          · simp only [if_neg hd]
            apply ih
            obtain ⟨_, p, hp, hlen⟩ := hhead
            apply dls_expand_stackinv g s L current depth (by omega) p hp hlen
            · intro n hn
              exact (List.mem_reverse).mp hn
            · intro e he
              exact htail e he

/-- C4 amended: whenever every valid path from start to goal has more than
`L + 1` cells, Depth-Limited search cannot succeed (equivalently, success
implies a valid path of at most `L + 1` cells exists).  The other direction
of the original claim — success whenever a path of at most `L + 1` cells
exists — is false (see the counterexample): lazy visited marking can poison
a cell re-pushed at the depth limit. -/
theorem claim_dls_limit_amended (g : Grid) (s t : Coord) (L : ℕ)
    (hs1 : inBounds g s) (hs2 : g.cell s ≠ CellType.OBSTACLE)
    (hfound : is_found (run_dls g s t L) = true) :
    ∃ q, ValidPath g s t q ∧ q.length ≤ L + 1 := by
  have h := run_dls_loop_short g s t L (search_fuel g) (dls_init s) ?_
  · unfold run_dls at hfound
    cases hres : run_dls_loop g t L (dls_init s) (search_fuel g) with
    | found p st => rw [hres] at h; exact h
    | noPath st => rw [hres] at hfound; simp [is_found] at hfound
    | out => rw [hres] at hfound; simp [is_found] at hfound
  · intro e he
    simp only [dls_init, List.mem_singleton] at he
    subst he
    exact ⟨by omega, [s], validPath_single hs1 hs2, rfl⟩

/-- Witness for the amended C4 theorem at a concrete successful run. -/
theorem claim_dls_limit_amended_witness :
    inBounds (mkGrid 1 2 []) (0, 0) ∧
      (mkGrid 1 2 []).cell (0, 0) ≠ CellType.OBSTACLE ∧
      is_found (run_dls (mkGrid 1 2 []) (0, 0) (0, 1) 1) = true ∧
      (∃ q, ValidPath (mkGrid 1 2 []) (0, 0) (0, 1) q ∧ q.length ≤ 1 + 1) :=
  ⟨by decide, by decide, by decide,
    claim_dls_limit_amended (mkGrid 1 2 []) (0, 0) (0, 1) 1
      (by decide) (by decide) (by decide)⟩

/-- Counterexample to C4 as stated: on the empty 2×3 grid with start
`(0,2)`, goal `(0,0)` and depth limit `3`, the straight 3-cell path (which
has at most `L + 1 = 4` cells) exists, yet `run_dls` fails: the lazy
visited marking lets cell `(0,1)` be re-pushed at depth 3 and pruned, and
its earlier, shallower stack entry is then skipped as already visited. -/
theorem claim_dls_limit_cex :
    ValidPath (mkGrid 2 3 []) (0, 2) (0, 0) [(0, 2), (0, 1), (0, 0)] ∧
      ([(0, 2), (0, 1), (0, 0)] : List Coord).length ≤ 3 + 1 ∧
      is_no_path (run_dls (mkGrid 2 3 []) (0, 2) (0, 0) 3) = true := by
  refine ⟨by decide, by decide, by decide⟩

/-! ## Termination of the search loops (C9) -/

/-- The finite set of in-bounds coordinates of a grid. -/
def boardFinset (g : Grid) : Finset Coord :=
  (Finset.range g.rows ×ˢ Finset.range g.cols).image
    (fun rc => ((rc.1 : ℤ), (rc.2 : ℤ)))

theorem mem_boardFinset (g : Grid) (p : Coord) :
    p ∈ boardFinset g ↔ inBounds g p := by
  obtain ⟨r, c⟩ := p
  simp only [boardFinset, Finset.mem_image, Finset.mem_product,
    Finset.mem_range, Prod.exists, Prod.mk.injEq, inBounds]
  constructor
  · rintro ⟨a, b, ⟨ha, hb⟩, h1, h2⟩
    subst h1
    subst h2
    constructor
    · positivity
    refine ⟨by exact_mod_cast ha, by positivity, by exact_mod_cast hb⟩
  · rintro ⟨h1, h2, h3, h4⟩
    refine ⟨r.toNat, c.toNat, ⟨?_, ?_⟩, ?_, ?_⟩ <;> omega

theorem boardFinset_card (g : Grid) :
    (boardFinset g).card ≤ g.rows * g.cols := by
  calc (boardFinset g).card ≤ (Finset.range g.rows ×ˢ Finset.range g.cols).card :=
        Finset.card_image_le
    _ = g.rows * g.cols := by simp

theorem get_neighbors_subset_board (g : Grid) (c : Coord) :
    ∀ n ∈ get_neighbors g c, n ∈ boardFinset g := by
  intro n hn
  rw [mem_boardFinset]
  exact ((mem_get_neighbors g c n).mp hn).2.1

theorem get_neighbors_len (g : Grid) (c : Coord) :
    (get_neighbors g c).length ≤ 4 := by
  rw [get_neighbors_eq]
  exact le_trans (List.length_filter_le _ _) (by norm_num)

/-- BFS expansion: visited cells stay inside the universe and the measure
`2 * (|U| - |visited|) + |queue|` does not increase. -/
theorem bfs_expand_term (U : Finset Coord) (c : Coord)
    (ns : List Coord) (hns : ∀ n ∈ ns, n ∈ U) : ∀ st : BfsState,
    st.visited ⊆ U →
    (bfs_expand c st ns).visited ⊆ U ∧
      2 * (U.card - (bfs_expand c st ns).visited.card) +
          (bfs_expand c st ns).queue.length ≤
        2 * (U.card - st.visited.card) + st.queue.length := by
  induction ns with
  | nil => intro st h; simp [bfs_expand, h]
  | cons n rest ih =>
    intro st h
    rw [bfs_expand]
    by_cases hv : n ∈ st.visited
    · simp only [if_pos hv]
      exact ih (fun x hx => hns x (List.mem_cons_of_mem _ hx)) st h
    · simp only [if_neg hv]
      have hnU : n ∈ U := hns n (List.mem_cons_self _ _)
      have hsub : insert n st.visited ⊆ U := Finset.insert_subset hnU h
      have hcard : (insert n st.visited).card = st.visited.card + 1 :=
        Finset.card_insert_of_not_mem hv
      have hle : (insert n st.visited).card ≤ U.card := Finset.card_le_card hsub
      obtain ⟨ih1, ih2⟩ :=
        ih (fun x hx => hns x (List.mem_cons_of_mem _ hx))
          { st with
            visited := insert n st.visited
            came_from := (n, c) :: st.came_from
            queue := st.queue ++ [n]
            nodes_explored := st.nodes_explored + 1
            adds := st.adds ++ [n] } (by simpa using hsub)
      refine ⟨ih1, le_trans ih2 ?_⟩
      simp only [List.length_append, List.length_singleton, hcard]
      omega

/-- The BFS loop cannot exhaust its fuel while the fuel exceeds the
measure `2 * (|U| - |visited|) + |queue|`. -/
theorem run_bfs_loop_term (g : Grid) (t : Coord) (U : Finset Coord)
    (hU : ∀ n, n ∈ boardFinset g → n ∈ U) :
    ∀ fuel (st : BfsState), st.visited ⊆ U →
    2 * (U.card - st.visited.card) + st.queue.length < fuel →
    run_bfs_loop g t st fuel ≠ .out := by
  intro fuel
  induction fuel with
  | zero => intro st _ hm; omega
  | succ n ih =>
    intro st hsub hm
    rw [run_bfs_loop]
    cases hq : st.queue with
    | nil => simp
    | cons current rest =>
      by_cases hg : current = t
      · simp only [if_pos hg]
        simp
      · simp only [if_neg hg]
        have hns : ∀ x ∈ get_neighbors g current, x ∈ U :=
          fun x hx => hU x (get_neighbors_subset_board g current x hx)
        obtain ⟨h1, h2⟩ := bfs_expand_term U current (get_neighbors g current)
          hns
          { st with
            queue := rest
            nodes_visited := st.nodes_visited + 1
            pops := st.pops ++ [current] } (by simpa using hsub)
        apply ih _ h1
        calc 2 * (U.card - _) + _ ≤ _ := h2
          _ < n := by
            simp only []
            rw [hq] at hm
            simp only [List.length_cons] at hm
            omega

theorem run_bfs_not_out (g : Grid) (s t : Coord) : run_bfs g s t ≠ .out := by
  apply run_bfs_loop_term g t (insert s (boardFinset g))
    (fun n hn => Finset.mem_insert_of_mem hn)
  · simp [bfs_init]
  · have h1 : (insert s (boardFinset g)).card ≤ g.rows * g.cols + 1 :=
      le_trans (Finset.card_insert_le _ _) (by
        have := boardFinset_card g
        omega)
    simp only [bfs_init, List.length_singleton, search_fuel]
    have h2 : ({s} : Finset Coord).card = 1 := rfl
    omega

/-- DFS expansion: visited is untouched, stack coordinates stay in the
universe, and the stack grows by at most the number of neighbors. -/
theorem dfs_expand_term (U : Finset Coord) (c : Coord) (ns : List Coord)
    (hns : ∀ n ∈ ns, n ∈ U) : ∀ st : DfsState,
    (∀ x ∈ st.stack, x ∈ U) →
    (dfs_expand c st ns).visited = st.visited ∧
      (∀ x ∈ (dfs_expand c st ns).stack, x ∈ U) ∧
      (dfs_expand c st ns).stack.length ≤ st.stack.length + ns.length := by
  induction ns with
  | nil =>
    intro st h
    refine ⟨rfl, ?_, by simp [dfs_expand]⟩
    simpa [dfs_expand] using h
  | cons n rest ih =>
    intro st h
    rw [dfs_expand]
    by_cases hv : n ∈ st.visited
    · simp only [if_pos hv]
      obtain ⟨h1, h2, h3⟩ := ih (fun x hx => hns x (List.mem_cons_of_mem _ hx)) st h
      exact ⟨h1, h2, by simpa using Nat.le_succ_of_le h3⟩
    · simp only [if_neg hv]
      obtain ⟨h1, h2, h3⟩ := ih (fun x hx => hns x (List.mem_cons_of_mem _ hx))
        { st with
          came_from := (n, c) :: st.came_from
          stack := n :: st.stack
          nodes_explored := st.nodes_explored + 1
          adds := st.adds ++ [n] }
        (by
          intro x hx
          simp only [List.mem_cons] at hx
          rcases hx with rfl | hx
          · exact hns x (List.mem_cons_self _ _)
          · exact h x hx)
      refine ⟨h1, h2, ?_⟩
      simp only [List.length_cons] at h3 ⊢
      omega

/-- The DFS loop cannot exhaust its fuel while the fuel exceeds
`5 * (|U| - |visited|) + |stack|`. -/
theorem run_dfs_loop_term (g : Grid) (t : Coord) (U : Finset Coord)
    (hU : ∀ n, n ∈ boardFinset g → n ∈ U) :
    ∀ fuel (st : DfsState), st.visited ⊆ U → (∀ x ∈ st.stack, x ∈ U) →
    5 * (U.card - st.visited.card) + st.stack.length < fuel →
    run_dfs_loop g t st fuel ≠ .out := by
  intro fuel
  induction fuel with
  | zero => intro st _ _ hm; omega
  | succ n ih =>
    intro st hsub hstack hm
    rw [run_dfs_loop]
    cases hq : st.stack with
    | nil => simp
    | cons current rest =>
      have hrest : ∀ x ∈ rest, x ∈ U := by
        intro x hx
        exact hstack x (hq ▸ List.mem_cons_of_mem _ hx)
      by_cases hv : current ∈ st.visited
      · simp only [if_pos hv]
        apply ih _ (by simpa using hsub) (by simpa using hrest)
        rw [hq] at hm
        simp only [List.length_cons] at hm
        simpa using by omega
      · simp only [if_neg hv]
        by_cases hg : current = t
        · simp only [if_pos hg]
          simp
        · simp only [if_neg hg]
          have hcU : current ∈ U := hstack current (hq ▸ List.mem_cons_self _ _)
          have hcard : (insert current st.visited).card = st.visited.card + 1 :=
            Finset.card_insert_of_not_mem hv
          have hle : (insert current st.visited).card ≤ U.card :=
            Finset.card_le_card (Finset.insert_subset hcU hsub)
          have hns : ∀ x ∈ (get_neighbors g current).reverse, x ∈ U := by
            intro x hx
            exact hU x (get_neighbors_subset_board g current x
              (List.mem_reverse.mp hx))
          obtain ⟨h1, h2, h3⟩ := dfs_expand_term U current _ hns
            { st with
              stack := rest
              visited := insert current st.visited
              nodes_visited := st.nodes_visited + 1
              pops := st.pops ++ [current] } (by simpa using hrest)
          apply ih _ (by rw [h1]; simpa using Finset.insert_subset hcU hsub) h2
          have hrev : (get_neighbors g current).reverse.length ≤ 4 := by
            simpa using get_neighbors_len g current
          rw [hq] at hm
          simp only [List.length_cons] at hm
          simp only [h1] at *
          calc 5 * (U.card - _) + _ ≤ _ := by
                exact Nat.add_le_add_left h3 _
            _ < n := by
              simp only [hcard]
              omega

theorem run_dfs_not_out (g : Grid) (s t : Coord) : run_dfs g s t ≠ .out := by
  apply run_dfs_loop_term g t (insert s (boardFinset g))
    (fun n hn => Finset.mem_insert_of_mem hn)
  · simp [dfs_init]
  · intro x hx
    simp only [dfs_init, List.mem_singleton] at hx
    subst hx
    exact Finset.mem_insert_self _ _
  · have h1 : (insert s (boardFinset g)).card ≤ g.rows * g.cols + 1 :=
      le_trans (Finset.card_insert_le _ _) (by
        have := boardFinset_card g
        omega)
    simp only [dfs_init, List.length_singleton, search_fuel]
    have h2 : (∅ : Finset Coord).card = 0 := rfl
    omega

/-- DLS expansion: visited untouched, stack coordinates stay in the
universe, stack grows by at most the number of neighbors. -/
theorem dls_expand_term (U : Finset Coord) (c : Coord) (d : ℕ)
    (ns : List Coord) (hns : ∀ n ∈ ns, n ∈ U) : ∀ st : DlsState,
    (∀ x ∈ st.stack, x.1 ∈ U) →
    (dls_expand c d st ns).visited = st.visited ∧
      (∀ x ∈ (dls_expand c d st ns).stack, x.1 ∈ U) ∧
      (dls_expand c d st ns).stack.length ≤ st.stack.length + ns.length := by
  induction ns with
  | nil =>
    intro st h
    refine ⟨rfl, ?_, by simp [dls_expand]⟩
    simpa [dls_expand] using h
  | cons n rest ih =>
    intro st h
    rw [dls_expand]
    by_cases hv : n ∈ st.visited
    · simp only [if_pos hv]
      obtain ⟨h1, h2, h3⟩ := ih (fun x hx => hns x (List.mem_cons_of_mem _ hx)) st h
      exact ⟨h1, h2, by simpa using Nat.le_succ_of_le h3⟩
    · simp only [if_neg hv]
      obtain ⟨h1, h2, h3⟩ := ih (fun x hx => hns x (List.mem_cons_of_mem _ hx))
        { st with
          came_from := (n, c) :: st.came_from
          stack := (n, d + 1) :: st.stack
          nodes_explored := st.nodes_explored + 1
          adds := st.adds ++ [n] }
        (by
          intro x hx
          simp only [List.mem_cons] at hx
          rcases hx with rfl | hx
          · exact hns n (List.mem_cons_self _ _)
          · exact h x hx)
      refine ⟨h1, h2, ?_⟩
      simp only [List.length_cons] at h3 ⊢
      omega

/-- The DLS loop cannot exhaust its fuel while the fuel exceeds
`5 * (|U| - |visited|) + |stack|`. -/
theorem run_dls_loop_term (g : Grid) (t : Coord) (L : ℕ) (U : Finset Coord)
    (hU : ∀ n, n ∈ boardFinset g → n ∈ U) :
    ∀ fuel (st : DlsState), st.visited ⊆ U → (∀ x ∈ st.stack, x.1 ∈ U) →
    5 * (U.card - st.visited.card) + st.stack.length < fuel →
    run_dls_loop g t L st fuel ≠ .out := by
  intro fuel
  induction fuel with
  | zero => intro st _ _ hm; omega
  | succ n ih =>
    intro st hsub hstack hm
    rw [run_dls_loop]
    cases hq : st.stack with
    | nil => simp
    | cons cd rest =>
      obtain ⟨current, depth⟩ := cd
      have hrest : ∀ x ∈ rest, x.1 ∈ U := by
        intro x hx
        exact hstack x (hq ▸ List.mem_cons_of_mem _ hx)
      have hmrest : 5 * (U.card - st.visited.card) + rest.length < n := by
        rw [hq] at hm
        simp only [List.length_cons] at hm
        omega
      by_cases hv : current ∈ st.visited
      · simp only [if_pos hv]
        exact ih _ (by simpa using hsub) (by simpa using hrest) (by simpa using hmrest)
      · simp only [if_neg hv]
        have hcU : current ∈ U := hstack (current, depth) (hq ▸ List.mem_cons_self _ _)
        have hcard : (insert current st.visited).card = st.visited.card + 1 :=
          Finset.card_insert_of_not_mem hv
        have hle : (insert current st.visited).card ≤ U.card :=
          Finset.card_le_card (Finset.insert_subset hcU hsub)
        by_cases hg : current = t
        · simp only [if_pos hg]
          simp
        · simp only [if_neg hg]
          by_cases hd : L ≤ depth
          · simp only [if_pos hd]
            apply ih _ (by simpa using Finset.insert_subset hcU hsub)
              (by simpa using hrest)
            simp only [hcard]
            omega
          · simp only [if_neg hd]
            have hns : ∀ x ∈ (get_neighbors g current).reverse, x ∈ U := by
              intro x hx
              exact hU x (get_neighbors_subset_board g current x
                (List.mem_reverse.mp hx))
            obtain ⟨h1, h2, h3⟩ := dls_expand_term U current depth _ hns
              { st with
                stack := rest
                visited := insert current st.visited
                nodes_visited := st.nodes_visited + 1
                pops := st.pops ++ [current] } (by simpa using hrest)
            apply ih _ (by rw [h1]; simpa using Finset.insert_subset hcU hsub) h2
            have hrev : (get_neighbors g current).reverse.length ≤ 4 := by
              simpa using get_neighbors_len g current
            simp only [h1] at *
            calc 5 * (U.card - _) + _ ≤ _ := Nat.add_le_add_left h3 _
              _ < n := by
                simp only [hcard]
                omega

theorem run_dls_not_out (g : Grid) (s t : Coord) (L : ℕ) :
    run_dls g s t L ≠ .out := by
  apply run_dls_loop_term g t L (insert s (boardFinset g))
    (fun n hn => Finset.mem_insert_of_mem hn)
  · simp [dls_init]
  · intro x hx
    simp only [dls_init, List.mem_singleton] at hx
    subst hx
    exact Finset.mem_insert_self _ _
  · have h1 : (insert s (boardFinset g)).card ≤ g.rows * g.cols + 1 :=
      le_trans (Finset.card_insert_le _ _) (by
        have := boardFinset_card g
        omega)
    simp only [dls_init, List.length_singleton, search_fuel]
    have h2 : (∅ : Finset Coord).card = 0 := rfl
    omega

/-- UCS expansion: visited untouched, heap-entry coordinates stay in the
universe, heap grows by at most the number of neighbors. -/
theorem ucs_expand_term (U : Finset Coord) (c : Coord) (ns : List Coord)
    (hns : ∀ n ∈ ns, n ∈ U) : ∀ st : UcsState,
    (∀ e ∈ st.open_set, e.2 ∈ U) →
    (ucs_expand c st ns).visited_cells = st.visited_cells ∧
      (∀ e ∈ (ucs_expand c st ns).open_set, e.2 ∈ U) ∧
      (ucs_expand c st ns).open_set.length ≤ st.open_set.length + ns.length := by
  induction ns with
  | nil =>
    intro st h
    refine ⟨rfl, ?_, by simp [ucs_expand]⟩
    simpa [ucs_expand] using h
  | cons n rest ih =>
    intro st h
    rw [ucs_expand]
    by_cases hv : n ∈ st.visited_cells
    · simp only [if_pos hv]
      obtain ⟨h1, h2, h3⟩ := ih (fun x hx => hns x (List.mem_cons_of_mem _ hx)) st h
      exact ⟨h1, h2, by simpa using Nat.le_succ_of_le h3⟩
    · simp only [if_neg hv]
      split
      · obtain ⟨h1, h2, h3⟩ := ih (fun x hx => hns x (List.mem_cons_of_mem _ hx))
          { st with
            came_from := (n, c) :: st.came_from
            g_score := (n, (dget st.g_score c).getD 0 + 1) :: st.g_score
            open_set := st.open_set ++ [((dget st.g_score c).getD 0 + 1, n)]
            nodes_explored := st.nodes_explored + 1
            adds := st.adds ++ [n] }
          (by
            intro e he
            simp only [List.mem_append, List.mem_singleton] at he
            rcases he with he | rfl
            · exact h e he
            · exact hns n (List.mem_cons_self _ _))
        refine ⟨h1, h2, ?_⟩
        have hlen2 : (st.open_set ++ [((dget st.g_score c).getD 0 + 1, n)]).length
            = st.open_set.length + 1 := by simp
        simp only [hlen2] at h3
        simp only [List.length_cons]
        omega
      · obtain ⟨h1, h2, h3⟩ := ih (fun x hx => hns x (List.mem_cons_of_mem _ hx)) st h
        exact ⟨h1, h2, by simpa using Nat.le_succ_of_le h3⟩

/-- The UCS loop cannot exhaust its fuel while the fuel exceeds
`5 * (|U| - |visited|) + |heap|`. -/
theorem run_ucs_loop_term (g : Grid) (t : Coord) (U : Finset Coord)
    (hU : ∀ n, n ∈ boardFinset g → n ∈ U) :
    ∀ fuel (st : UcsState), st.visited_cells ⊆ U →
    (∀ e ∈ st.open_set, e.2 ∈ U) →
    5 * (U.card - st.visited_cells.card) + st.open_set.length < fuel →
    run_ucs_loop g t st fuel ≠ .out := by
  intro fuel
  induction fuel with
  | zero => intro st _ _ hm; omega
  | succ n ih =>
    intro st hsub hheap hm
    rw [run_ucs_loop]
    cases hq : heap_pop st.open_set with
    | none => simp
    | some pr =>
      obtain ⟨⟨k, current⟩, restHeap⟩ := pr
      obtain ⟨hmin, hrest⟩ := heap_pop_some hq
      have hmem : ((k, current) : HeapEntry) ∈ st.open_set := heap_min_mem hmin
      have hlen : restHeap.length = st.open_set.length - 1 := by
        rw [hrest]
        exact List.length_erase_of_mem hmem
      have hpos : 0 < st.open_set.length := List.length_pos.mpr (by
        intro he
        rw [he] at hmem
        simp at hmem)
      have hrheap : ∀ e ∈ restHeap, e.2 ∈ U := by
        intro e he
        rw [hrest] at he
        exact hheap e (List.mem_of_mem_erase he)
      by_cases hv : current ∈ st.visited_cells
      · simp only [if_pos hv]
        apply ih _ (by simpa using hsub) (by simpa using hrheap)
        simp only []
        omega
      · simp only [if_neg hv]
        by_cases hg : current = t
        · simp only [if_pos hg]
          simp
        · simp only [if_neg hg]
          have hcU : current ∈ U := hheap (k, current) hmem
          have hcard : (insert current st.visited_cells).card =
              st.visited_cells.card + 1 := Finset.card_insert_of_not_mem hv
          have hle : (insert current st.visited_cells).card ≤ U.card :=
            Finset.card_le_card (Finset.insert_subset hcU hsub)
          have hns : ∀ x ∈ get_neighbors g current, x ∈ U :=
            fun x hx => hU x (get_neighbors_subset_board g current x hx)
          obtain ⟨h1, h2, h3⟩ := ucs_expand_term U current _ hns
            { st with
              open_set := restHeap
              visited_cells := insert current st.visited_cells
              nodes_visited := st.nodes_visited + 1
              pops := st.pops ++ [current] } (by simpa using hrheap)
          apply ih _ (by rw [h1]; simpa using Finset.insert_subset hcU hsub) h2
          have hlen4 : (get_neighbors g current).length ≤ 4 := get_neighbors_len g current
          simp only [h1] at *
          calc 5 * (U.card - _) + _ ≤ _ := Nat.add_le_add_left h3 _
            _ < n := by
              simp only [hcard]
              omega

theorem run_ucs_not_out (g : Grid) (s t : Coord) : run_ucs g s t ≠ .out := by
  apply run_ucs_loop_term g t (insert s (boardFinset g))
    (fun n hn => Finset.mem_insert_of_mem hn)
  · simp [ucs_init]
  · intro e he
    simp only [ucs_init, List.mem_singleton] at he
    subst he
    exact Finset.mem_insert_self _ _
  · have h1 : (insert s (boardFinset g)).card ≤ g.rows * g.cols + 1 :=
      le_trans (Finset.card_insert_le _ _) (by
        have := boardFinset_card g
        omega)
    simp only [ucs_init, List.length_singleton, search_fuel]
    have h2 : (∅ : Finset Coord).card = 0 := rfl
    omega

/-- A* expansion: the closed set is untouched, heap-entry coordinates stay
in the universe, and the heap grows by at most the number of neighbors. -/
theorem astar_expand_term (g : Grid) (goal : Coord) (U : Finset Coord)
    (c : Coord) (ns : List Coord) (hns : ∀ n ∈ ns, n ∈ U) :
    ∀ st : AstarState, (∀ e ∈ st.open_set, e.2 ∈ U) →
    (astar_expand g goal c st ns).closed_set = st.closed_set ∧
      (∀ e ∈ (astar_expand g goal c st ns).open_set, e.2 ∈ U) ∧
      (astar_expand g goal c st ns).open_set.length ≤
        st.open_set.length + ns.length := by
  induction ns with
  | nil =>
    intro st h
    refine ⟨rfl, ?_, by simp [astar_expand]⟩
    simpa [astar_expand] using h
  | cons n rest ih =>
    intro st h
    rw [astar_expand]
    have htail : ∀ x ∈ rest, x ∈ U :=
      fun x hx => hns x (List.mem_cons_of_mem n hx)
    by_cases hc : n ∈ st.closed_set
    · simp only [if_pos hc]
      obtain ⟨h1, h2, h3⟩ := ih htail st h
      exact ⟨h1, h2, by simpa using Nat.le_succ_of_le h3⟩
    · simp only [if_neg hc]
      have hpush : ∀ fn : ℤ,
          (astar_expand g goal c
            { st with
              came_from := (n, c) :: st.came_from
              g_score := (n, (dget st.g_score c).getD 0 + 1) :: st.g_score
              f_score := (n, fn) :: st.f_score
              open_set := st.open_set ++ [(fn, n)]
              nodes_explored := st.nodes_explored + 1
              adds := st.adds ++ [n] } rest).closed_set = st.closed_set ∧
          (∀ e ∈ (astar_expand g goal c
            { st with
              came_from := (n, c) :: st.came_from
              g_score := (n, (dget st.g_score c).getD 0 + 1) :: st.g_score
              f_score := (n, fn) :: st.f_score
              open_set := st.open_set ++ [(fn, n)]
              nodes_explored := st.nodes_explored + 1
              adds := st.adds ++ [n] } rest).open_set, e.2 ∈ U) ∧
          (astar_expand g goal c
            { st with
              came_from := (n, c) :: st.came_from
              g_score := (n, (dget st.g_score c).getD 0 + 1) :: st.g_score
              f_score := (n, fn) :: st.f_score
              open_set := st.open_set ++ [(fn, n)]
              nodes_explored := st.nodes_explored + 1
              adds := st.adds ++ [n] } rest).open_set.length ≤
            st.open_set.length + (n :: rest).length := by
        intro fn
        obtain ⟨h1, h2, h3⟩ := ih htail
          { st with
            came_from := (n, c) :: st.came_from
            g_score := (n, (dget st.g_score c).getD 0 + 1) :: st.g_score
            f_score := (n, fn) :: st.f_score
            open_set := st.open_set ++ [(fn, n)]
            nodes_explored := st.nodes_explored + 1
            adds := st.adds ++ [n] }
          (by
            intro e he
            simp only [List.mem_append, List.mem_singleton] at he
            rcases he with he | rfl
            · exact h e he
            · exact hns n (List.mem_cons_self _ _))
        refine ⟨h1, h2, ?_⟩
        have hlen2 : (st.open_set ++ [((fn : ℤ), n)]).length
            = st.open_set.length + 1 := by simp
        simp only [hlen2] at h3
        simp only [List.length_cons]
        omega
      have hupd : ∀ st' : AstarState, st'.closed_set = st.closed_set →
          st'.open_set = st.open_set → (∀ e ∈ st'.open_set, e.2 ∈ U) →
          (astar_expand g goal c st' rest).closed_set = st.closed_set ∧
          (∀ e ∈ (astar_expand g goal c st' rest).open_set, e.2 ∈ U) ∧
          (astar_expand g goal c st' rest).open_set.length ≤
            st.open_set.length + (n :: rest).length := by
        intro st' hcl hop hu
        obtain ⟨h1, h2, h3⟩ := ih htail st' hu
        refine ⟨hcl ▸ h1, h2, ?_⟩
        rw [hop] at h3
        simp only [List.length_cons]
        omega
      cases hdg : dget st.g_score n with
      | none =>
        simp only [hdg]
        by_cases hop : n ∈ st.open_set.map (fun e => e.2)
        · simp only [if_pos hop]
          exact hupd _ rfl rfl h
        · simp only [if_neg hop]
          exact hpush _
      | some gn =>
        simp only [hdg]
        split
        · by_cases hop : n ∈ st.open_set.map (fun e => e.2)
          · simp only [if_pos hop]
            exact hupd _ rfl rfl h
          · simp only [if_neg hop]
            exact hpush _
        · obtain ⟨h1, h2, h3⟩ := ih htail st h
          exact ⟨h1, h2, by simpa using Nat.le_succ_of_le h3⟩

/-- The A* loop cannot exhaust its fuel while the fuel exceeds
`5 * (|U| - |closed|) + |heap|` (using that popped coordinates are never
already closed, from `AOpen`). -/
theorem run_astar_loop_term (g : Grid) (t : Coord) (U : Finset Coord)
    (hU : ∀ n, n ∈ boardFinset g → n ∈ U) :
    ∀ fuel (st : AstarState), AOpen st → st.closed_set ⊆ U →
    (∀ e ∈ st.open_set, e.2 ∈ U) →
    5 * (U.card - st.closed_set.card) + st.open_set.length < fuel →
    run_astar_loop g t st fuel ≠ .out := by
  intro fuel
  induction fuel with
  | zero => intro st _ _ _ hm; omega
  | succ n ih =>
    intro st hAO hsub hheap hm
    rw [run_astar_loop]
    cases hq : heap_pop st.open_set with
    | none => simp
    | some pr =>
      obtain ⟨⟨k, current⟩, restHeap⟩ := pr
      by_cases hg : current = t
      · simp only [if_pos hg]
        simp
      · simp only [if_neg hg]
        obtain ⟨hmin, hrest⟩ := heap_pop_some hq
        have hmem : ((k, current) : HeapEntry) ∈ st.open_set := heap_min_mem hmin
        have hlen : restHeap.length = st.open_set.length - 1 := by
          rw [hrest]
          exact List.length_erase_of_mem hmem
        have hpos : 0 < st.open_set.length := List.length_pos.mpr (by
          intro he
          rw [he] at hmem
          simp at hmem)
        have hncl : current ∉ st.closed_set :=
          hAO.disj current (List.mem_map_of_mem _ hmem)
        have hcU : current ∈ U := hheap (k, current) hmem
        have hcard : (insert current st.closed_set).card =
            st.closed_set.card + 1 := Finset.card_insert_of_not_mem hncl
        have hle : (insert current st.closed_set).card ≤ U.card :=
          Finset.card_le_card (Finset.insert_subset hcU hsub)
        have hrheap : ∀ e ∈ restHeap, e.2 ∈ U := by
          intro e he
          rw [hrest] at he
          exact hheap e (List.mem_of_mem_erase he)
        have hns : ∀ x ∈ get_neighbors g current, x ∈ U :=
          fun x hx => hU x (get_neighbors_subset_board g current x hx)
        obtain ⟨h1, h2, h3⟩ := astar_expand_term g t U current _ hns
          { st with
            open_set := restHeap
            closed_set := insert current st.closed_set
            visited_cells := insert current st.visited_cells
            nodes_visited := st.nodes_visited + 1
            pops := st.pops ++ [current] } (by simpa using hrheap)
        apply ih _ (astar_expand_aopen g t current _ _ (aopen_accept hAO hq))
          (by rw [h1]; simpa using Finset.insert_subset hcU hsub) h2
        have hlen4 : (get_neighbors g current).length ≤ 4 := get_neighbors_len g current
        simp only [h1] at *
        calc 5 * (U.card - _) + _ ≤ _ := Nat.add_le_add_left h3 _
          _ < n := by
            simp only [hcard]
            omega

theorem run_astar_not_out (g : Grid) (s t : Coord) : run_astar g s t ≠ .out := by
  apply run_astar_loop_term g t (insert s (boardFinset g))
    (fun n hn => Finset.mem_insert_of_mem hn)
  · exact astar_init_aopen s t
  · simp [astar_init]
  · intro e he
    simp only [astar_init, List.mem_singleton] at he
    subst he
    exact Finset.mem_insert_self _ _
  · have h1 : (insert s (boardFinset g)).card ≤ g.rows * g.cols + 1 :=
      le_trans (Finset.card_insert_le _ _) (by
        have := boardFinset_card g
        omega)
    simp only [astar_init, List.length_singleton, search_fuel]
    have h2 : (∅ : Finset Coord).card = 0 := rfl
    omega

/-- C9: on every grid, with any start, goal and depth limit, each of the
five search loops terminates after finitely many iterations: with
`search_fuel` (strictly more than any possible number of iterations, since
visited/closed sets grow inside a finite board and every expansion pushes
at most four entries) no run ever returns the fuel-exhaustion marker, so
every run ends by reaching the goal or exhausting its frontier. -/
theorem claim_termination (g : Grid) (s t : Coord) (L : ℕ) :
    run_astar g s t ≠ .out ∧ run_bfs g s t ≠ .out ∧ run_dfs g s t ≠ .out ∧
      run_ucs g s t ≠ .out ∧ run_dls g s t L ≠ .out :=
  ⟨run_astar_not_out g s t, run_bfs_not_out g s t, run_dfs_not_out g s t,
   run_ucs_not_out g s t, run_dls_not_out g s t L⟩

/-! ## Neighbor paths and reachability (for C1, C2, C8) -/

/-- A neighbor path: a chain of `get_neighbors` steps from `s` to `v`.
Unlike `ValidPath` it places no condition on the start cell itself, exactly
as the search loops do. -/
def NPath (g : Grid) (s v : Coord) (p : List Coord) : Prop :=
  p.head? = some s ∧ p.getLast? = some v ∧
    p.Chain' (fun a b => b ∈ get_neighbors g a)

theorem npath_single (g : Grid) (s : Coord) : NPath g s s [s] :=
  ⟨rfl, rfl, by simp⟩

theorem npath_snoc {g : Grid} {s c n : Coord} {p : List Coord}
    (h : NPath g s c p) (hn : n ∈ get_neighbors g c) :
    NPath g s n (p ++ [n]) := by
  obtain ⟨hh, hl, hch⟩ := h
  have hne : p ≠ [] := by
    intro he
    rw [he] at hh
    simp at hh
  refine ⟨?_, by simp, ?_⟩
  · rwa [List.head?_append_of_ne_nil _ hne]
  · rw [List.chain'_append]
    refine ⟨hch, by simp, ?_⟩
    intro x hx y hy
    simp at hy
    subst hy
    rw [hl] at hx
    simp at hx
    subst hx
    exact hn

/-- `v` is reachable from `s` by `k` neighbor steps. -/
inductive ReachN (g : Grid) (s : Coord) : Coord → ℕ → Prop where
  | refl : ReachN g s s 0
  | step {w n : Coord} {k : ℕ} : ReachN g s w k → n ∈ get_neighbors g w →
      ReachN g s n (k + 1)

theorem reachN_zero {g : Grid} {s u : Coord} (h : ReachN g s u 0) : u = s := by
  cases h
  rfl

theorem reachN_succ {g : Grid} {s u : Coord} {k : ℕ}
    (h : ReachN g s u (k + 1)) :
    ∃ w, ReachN g s w k ∧ u ∈ get_neighbors g w := by
  cases h with
  | step hw hn => exact ⟨_, hw, hn⟩

/-- A valid path of `k + 1` cells witnesses reachability in `k` steps. -/
theorem validPath_reachN {g : Grid} {s : Coord} : ∀ (q : List Coord) (v : Coord),
    ValidPath g s v q → ReachN g s v (q.length - 1) := by
  intro q
  induction q using List.reverseRecOn with
  | nil => intro v h; simp [ValidPath] at h
  | append_singleton l x ih =>
    intro v h
    obtain ⟨hh, hl, hm, hst⟩ := h
    simp only [List.getLast?_append, List.getLast?_singleton] at hl
    cases hl
    by_cases hlne : l = []
    · subst hlne
      simp at hh
      subst hh
      simpa using ReachN.refl (g := g) (s := x)
    · have hw : l.getLast? = some (l.getLast hlne) := List.getLast?_eq_getLast l hlne
      have hchain : (l ++ [x]).Chain' (fun a b => heuristic a b = 1) :=
        (pathSteps_iff_chain _).mp hst
      rw [List.chain'_append] at hchain
      obtain ⟨hcl, _, hlink⟩ := hchain
      have hxprops := hm x (by simp)
      have hstep : x ∈ get_neighbors g (l.getLast hlne) := by
        rw [mem_get_neighbors]
        exact ⟨hlink _ hw x rfl, hxprops.1, hxprops.2⟩
      have hvp : ValidPath g s (l.getLast hlne) l := by
        refine ⟨?_, hw, ?_, (pathSteps_iff_chain _).mpr hcl⟩
        · rwa [List.head?_append_of_ne_nil _ hlne] at hh
        · intro c hc
          exact hm c (List.mem_append_left _ hc)
      have hr := ih (l.getLast hlne) hvp
      have hlen : l.length - 1 + 1 = l.length := by
        have : 0 < l.length := List.length_pos.mpr hlne
        omega
      have hfin := ReachN.step hr hstep
      rw [hlen] at hfin
      simpa using hfin

/-- Cells after the head of a neighbor chain are in bounds and passable. -/
theorem npath_tail_props {g : Grid} : ∀ {p : List Coord},
    p.Chain' (fun a b => b ∈ get_neighbors g a) →
    ∀ c ∈ p.tail, inBounds g c ∧ g.cell c ≠ CellType.OBSTACLE := by
  intro p
  induction p with
  | nil => intro _ c hc; simp at hc
  | cons a rest ih =>
    intro hch c hc
    simp only [List.tail_cons] at hc
    cases rest with
    | nil => simp at hc
    | cons b r =>
      rw [List.chain'_cons] at hch
      have hb := (mem_get_neighbors g a b).mp hch.1
      rcases List.mem_cons.mp hc with rfl | hc'
      · exact ⟨hb.2.1, hb.2.2⟩
      · exact ih hch.2 c hc'

/-- A neighbor path whose start cell is well placed is a valid path. -/
theorem npath_validPath {g : Grid} {s v : Coord} {p : List Coord}
    (h : NPath g s v p) (hs1 : inBounds g s)
    (hs2 : g.cell s ≠ CellType.OBSTACLE) : ValidPath g s v p := by
  obtain ⟨hh, hl, hch⟩ := h
  refine ⟨hh, hl, ?_, ?_⟩
  · intro c hc
    cases p with
    | nil => simp at hc
    | cons a rest =>
      simp at hh
      subst hh
      rcases List.mem_cons.mp hc with rfl | hc'
      · exact ⟨hs1, hs2⟩
      · exact npath_tail_props hch c (by simpa using hc')
  · rw [pathSteps_iff_chain]
    exact List.Chain'.imp (fun a b hab => ((mem_get_neighbors g a b).mp hab).1) hch

/-! ## Predecessor chains -/

theorem dget_cons {α : Type} (k : Coord) (v : α) (m : List (Coord × α))
    (x : Coord) : dget ((k, v) :: m) x = if k = x then some v else dget m x :=
  rfl

/-- The spine of parent links from the predecessor map: following
`came_from` from `v` for `k` steps, each along a neighbor edge, reaches the
root `s` (which has no parent). -/
inductive Spine (g : Grid) (s : Coord) (cf : List (Coord × Coord)) :
    Coord → ℕ → Prop where
  | base : dget cf s = none → Spine g s cf s 0
  | step {v p : Coord} {k : ℕ} : dget cf v = some p → v ∈ get_neighbors g p →
      Spine g s cf p k → Spine g s cf v (k + 1)

/-- The pure backward walk of the reconstructor, without the accumulator. -/
def walk (cf : List (Coord × Coord)) (c : Coord) : ℕ → List Coord
  | 0 => []
  | fuel + 1 =>
    match dget cf c with
    | none => []
    | some p => walk cf p fuel ++ [p]

theorem reconstruct_aux_eq_walk (cf : List (Coord × Coord)) :
    ∀ (fuel : ℕ) (c : Coord) (acc : List Coord),
    reconstruct_aux cf c acc fuel = walk cf c fuel ++ acc := by
  intro fuel
  induction fuel with
  | zero => intro c acc; simp [reconstruct_aux, walk]
  | succ n ih =>
    intro c acc
    rw [reconstruct_aux, walk]
    cases hd : dget cf c with
    | none => simp
    | some p => simp [ih p (p :: acc)]

theorem reconstruct_path_eq_walk (cf : List (Coord × Coord)) (c : Coord) :
    reconstruct_path cf c = walk cf c (cf.length + 1) ++ [c] := by
  rw [reconstruct_path, reconstruct_aux_eq_walk]

/-- With enough fuel, the walk of a spine of length `k` is the `k`-cell
prefix of a neighbor path: appending the node itself yields an `NPath` of
`k + 1` cells. -/
theorem spine_walk {g : Grid} {s : Coord} {cf : List (Coord × Coord)} :
    ∀ {v : Coord} {k : ℕ}, Spine g s cf v k → ∀ fuel, k ≤ fuel →
    NPath g s v (walk cf v fuel ++ [v]) ∧ (walk cf v fuel).length = k := by
  intro v k h
  induction h with
  | base hroot =>
    intro fuel _
    cases fuel with
    | zero => simpa [walk] using npath_single g s
    | succ n =>
      rw [walk]
      rw [hroot]
      simpa using npath_single g s
  | step hd hn _ ih =>
    intro fuel hf
    cases fuel with
    | zero => omega
    | succ f =>
      rw [walk]
      rw [hd]
      obtain ⟨ih1, ih2⟩ := ih f (by omega)
      constructor
      · simpa using npath_snoc ih1 hn
      · simp [ih2]

/-- The reconstructed path of a spine node is a neighbor path from the
start of exactly `k + 1` cells. -/
theorem spine_reconstruct {g : Grid} {s v : Coord}
    {cf : List (Coord × Coord)} {k : ℕ} (h : Spine g s cf v k)
    (hk : k ≤ cf.length) :
    NPath g s v (reconstruct_path cf v) ∧
      (reconstruct_path cf v).length = k + 1 := by
  rw [reconstruct_path_eq_walk]
  obtain ⟨h1, h2⟩ := spine_walk h (cf.length + 1) (by omega)
  exact ⟨h1, by simp [h2]⟩

/-! ## Sorted-depth helpers -/

theorem sorted_le_across {D : Coord → ℕ} {l1 l2 : List Coord}
    (h : ((l1 ++ l2).map D).Sorted (· ≤ ·)) :
    ∀ a ∈ l1, ∀ b ∈ l2, D a ≤ D b := by
  intro a ha b hb
  rw [List.map_append] at h
  exact (List.pairwise_append.mp h).2.2 (D a) (List.mem_map_of_mem D ha)
    (D b) (List.mem_map_of_mem D hb)

theorem sorted_le_getLast {D : Coord → ℕ} {l : List Coord} {v u : Coord}
    (h : (l.map D).Sorted (· ≤ ·)) (hv : v ∈ l) (hu : l.getLast? = some u) :
    D v ≤ D u := by
  have hne : l ≠ [] := by
    intro he
    rw [he] at hu
    simp at hu
  have hsplit : l.dropLast ++ [l.getLast hne] = l :=
    List.dropLast_append_getLast hne
  have hueq : u = l.getLast hne := by
    rw [List.getLast?_eq_getLast l hne] at hu
    exact (Option.some_inj.mp hu).symm
  subst hueq
  rw [← hsplit] at h hv
  rcases List.mem_append.mp hv with hv' | hv'
  · exact sorted_le_across h v hv' _ (by simp)
  · simp at hv'
    rw [hv']

theorem sorted_snoc {D : Coord → ℕ} {l : List Coord} {n : Coord}
    (h : (l.map D).Sorted (· ≤ ·)) (hb : ∀ v ∈ l, D v ≤ D n) :
    (((l ++ [n]).map D)).Sorted (· ≤ ·) := by
  rw [List.map_append]
  rw [List.Sorted]
  rw [List.pairwise_append]
  refine ⟨h, by simp, ?_⟩
  intro a ha b hb'
  simp at hb'
  subst hb'
  obtain ⟨v, hv, rfl⟩ := List.mem_map.mp ha
  exact hb v hv

/-- Spines are stable under extending the predecessor map with a fresh
key, provided all spine nodes have recorded parents inside `adds`. -/
theorem spine_cons {g : Grid} {s : Coord} {cf : List (Coord × Coord)}
    {adds : List Coord}
    (hparent : ∀ v ∈ adds, v ≠ s → ∃ p, dget cf v = some p ∧ p ∈ adds)
    (hs : s ∈ adds) (hroot : dget cf s = none) {n c : Coord}
    (hn : n ∉ adds) :
    ∀ v k, Spine g s cf v k → v ∈ adds → Spine g s ((n, c) :: cf) v k := by
  intro v k h
  induction h with
  | base hroot0 =>
    intro _
    refine .base ?_
    rw [dget_cons, if_neg (fun he => hn (by rw [he]; exact hs))]
    exact hroot0
  | step hd hnb hsp ih =>
    rename_i v' p' k'
    intro hv
    have hvs : v' ≠ s := by
      intro he
      rw [he, hroot] at hd
      simp at hd
    obtain ⟨p2, hp2, hp2mem⟩ := hparent v' hv hvs
    rw [hd] at hp2
    cases hp2
    refine .step ?_ hnb (ih hp2mem)
    rw [dget_cons, if_neg (fun he => hn (by rw [he]; exact hv))]
    exact hd

/-! ## The BFS loop invariant (C1) -/

/-- Full invariant of the BFS loop, relative to a ghost depth assignment
`D`.  `adds` is the enqueue order, `pops` the dequeue order, and the queue
is the yet-undequeued suffix. -/
structure BfsInv (g : Grid) (s t : Coord) (D : Coord → ℕ)
    (st : BfsState) : Prop where
  split : st.adds = st.pops ++ st.queue
  nodup : st.adds.Nodup
  vis : ∀ v, v ∈ st.visited ↔ v ∈ st.adds
  smem : s ∈ st.adds
  sroot : dget st.came_from s = none
  parent : ∀ v ∈ st.adds, v ≠ s → ∃ p, dget st.came_from v = some p ∧
    p ∈ st.pops ∧ v ∈ get_neighbors g p ∧ D v = D p + 1
  mono : (st.adds.map D).Sorted (· ≤ ·)
  tbound : ∀ v ∈ st.adds, ∀ u, st.pops.getLast? = some u → D v ≤ D u + 1
  dexact : ∀ v ∈ st.adds, ReachN g s v (D v) ∧ ∀ k, ReachN g s v k → D v ≤ k
  level : ∀ u k, ReachN g s u k → ∀ l, st.pops.getLast? = some l →
    k < D l → u ∈ st.pops
  closure : ∀ u ∈ st.pops, ∀ m ∈ get_neighbors g u, m ∈ st.adds
  tfresh : t ∉ st.pops
  spine : ∀ v ∈ st.adds, Spine g s st.came_from v (D v)
  dbound : ∀ v ∈ st.adds, D v ≤ st.came_from.length
  initShape : st.pops = [] → st.adds = [s]

/-- Invariant holding during the expansion of `current` in the BFS loop:
`current` has just been appended to the dequeue order, the unprocessed
neighbors are `ns`, and closure is weakened accordingly. -/
structure BfsMid (g : Grid) (s t current : Coord) (D : Coord → ℕ)
    (ns : List Coord) (st : BfsState) : Prop where
  split : st.adds = st.pops ++ st.queue
  nodup : st.adds.Nodup
  vis : ∀ v, v ∈ st.visited ↔ v ∈ st.adds
  smem : s ∈ st.adds
  sroot : dget st.came_from s = none
  parent : ∀ v ∈ st.adds, v ≠ s → ∃ p, dget st.came_from v = some p ∧
    p ∈ st.pops ∧ v ∈ get_neighbors g p ∧ D v = D p + 1
  mono : (st.adds.map D).Sorted (· ≤ ·)
  curLast : st.pops.getLast? = some current
  curAdds : current ∈ st.adds
  nsub : ∀ n ∈ ns, n ∈ get_neighbors g current
  tbound : ∀ v ∈ st.adds, D v ≤ D current + 1
  dexact : ∀ v ∈ st.adds, ReachN g s v (D v) ∧ ∀ k, ReachN g s v k → D v ≤ k
  level : ∀ u k, ReachN g s u k → k < D current → u ∈ st.pops
  closureOld : ∀ u ∈ st.pops, u ≠ current → ∀ m ∈ get_neighbors g u, m ∈ st.adds
  closureCur : ∀ m ∈ get_neighbors g current, m ∈ st.adds ∨ m ∈ ns
  tfresh : t ∉ st.pops
  spine : ∀ v ∈ st.adds, Spine g s st.came_from v (D v)
  dbound : ∀ v ∈ st.adds, D v ≤ st.came_from.length

theorem BfsMid.popsSub {g : Grid} {s t current : Coord} {D : Coord → ℕ}
    {ns : List Coord} {st : BfsState} (h : BfsMid g s t current D ns st) :
    ∀ u ∈ st.pops, u ∈ st.adds := by
  intro u hu
  rw [h.split]
  exact List.mem_append_left _ hu

/-- One fresh-neighbor step of BFS expansion preserves the mid-invariant,
with the depth function extended at the new node. -/
theorem bfsMid_push {g : Grid} {s t current : Coord} {D : Coord → ℕ}
    {n : Coord} {ns : List Coord} {st : BfsState}
    (h : BfsMid g s t current D (n :: ns) st) (hfresh : n ∉ st.visited) :
    BfsMid g s t current (fun v => if v = n then D current + 1 else D v) ns
      { st with
        visited := insert n st.visited
        came_from := (n, current) :: st.came_from
        queue := st.queue ++ [n]
        nodes_explored := st.nodes_explored + 1
        adds := st.adds ++ [n] } := by
  have hnadds : n ∉ st.adds := fun hc => hfresh ((h.vis n).mpr hc)
  have hnbr : n ∈ get_neighbors g current := h.nsub n (List.mem_cons_self _ _)
  have hncur : n ≠ current := fun he => hnadds (he ▸ h.curAdds)
  have hcurPops : current ∈ st.pops := by
    have hcl := h.curLast
    have hne : st.pops ≠ [] := by
      intro he
      rw [he] at hcl
      simp at hcl
    rw [List.getLast?_eq_getLast st.pops hne] at hcl
    have heq : current = st.pops.getLast hne := (Option.some_inj.mp hcl).symm
    rw [heq]
    exact List.getLast_mem hne
  have hDag : ∀ v ∈ st.adds,
      (if v = n then D current + 1 else D v) = D v := by
    intro v hv
    rw [if_neg (show v ≠ n from fun he => hnadds (he ▸ hv))]
  have hmapag : st.adds.map (fun v => if v = n then D current + 1 else D v) =
      st.adds.map D := List.map_congr_left hDag
  have hparentAdds : ∀ v ∈ st.adds, v ≠ s →
      ∃ p, dget st.came_from v = some p ∧ p ∈ st.adds := by
    intro v hv hvs
    obtain ⟨p, hp1, hp2, _, _⟩ := h.parent v hv hvs
    exact ⟨p, hp1, h.popsSub p hp2⟩
  refine ⟨?_, ?_, ?_, ?_, ?_, ?_, ?_, ?_, ?_, ?_, ?_, ?_, ?_, ?_, ?_, ?_, ?_, ?_⟩
  · simp only [h.split, List.append_assoc]
  · simp only []
    exact List.Nodup.append h.nodup (by simp) (by
      intro x hx hx2
      simp at hx2
      subst hx2
      exact hnadds hx)
  · intro v
    simp only [Finset.mem_insert, List.mem_append, List.mem_singleton, h.vis v]
    tauto
  · exact List.mem_append_left _ h.smem
  · simp only [dget_cons]
    rw [if_neg (show n ≠ s from fun he => hnadds (by rw [he]; exact h.smem))]
    exact h.sroot
  · intro v hv hvs
    rcases List.mem_append.mp hv with hv' | hv'
    · obtain ⟨p, hp1, hp2, hp3, hp4⟩ := h.parent v hv' hvs
      refine ⟨p, ?_, hp2, hp3, ?_⟩
      · simp only [dget_cons]
        rw [if_neg (show n ≠ v from fun he => hnadds (by rw [he]; exact hv'))]
        exact hp1
      · rw [hDag v hv', hDag p (h.popsSub p hp2)]
        exact hp4
    · simp at hv'
      refine ⟨current, ?_, hcurPops, ?_, ?_⟩
      · rw [hv']
        simp [dget_cons]
      · rw [hv']
        exact hnbr
      · rw [hv', if_pos rfl, if_neg (show ¬current = n from Ne.symm hncur)]
  · simp only [List.map_append, hmapag, List.map_singleton, if_true]
    rw [List.Sorted, List.pairwise_append]
    refine ⟨h.mono, by simp, ?_⟩
    intro a ha b hb
    simp at hb
    subst hb
    obtain ⟨v, hv, rfl⟩ := List.mem_map.mp ha
    exact h.tbound v hv
  · exact h.curLast
  · exact List.mem_append_left _ h.curAdds
  · intro m hm
    exact h.nsub m (List.mem_cons_of_mem _ hm)
  · intro v hv
    rcases List.mem_append.mp hv with hv' | hv'
    · rw [hDag v hv']
      rw [if_neg (Ne.symm hncur)]
      exact h.tbound v hv'
    · simp at hv'
      rw [hv', if_pos rfl, if_neg (show ¬current = n from Ne.symm hncur)]
  · intro v hv
    rcases List.mem_append.mp hv with hv' | hv'
    · rw [hDag v hv']
      exact h.dexact v hv'
    · simp at hv'
      subst hv'
      rw [if_pos rfl]
      constructor
      · exact ReachN.step (h.dexact current h.curAdds).1 hnbr
      · intro k hk
        by_contra hlt
        push_neg at hlt
        match k, hk with
        | 0, hk =>
          have := reachN_zero hk
          subst this
          exact hnadds h.smem
        | (k' + 1), hk =>
          obtain ⟨w, hw, hwn⟩ := reachN_succ hk
          have hklt : k' < D current := by omega
          have hwpops := h.level w k' hw hklt
          by_cases hwc : w = current
          · subst hwc
            exact absurd ((h.dexact w h.curAdds).2 k' hw) (by omega)
          · exact hnadds (h.closureOld w hwpops hwc v hwn)
  · intro u k hk hlt
    rw [if_neg (show ¬current = n from Ne.symm hncur)] at hlt
    exact h.level u k hk hlt
  · intro u hu huc m hm
    exact List.mem_append_left _ (h.closureOld u hu huc m hm)
  · intro m hm
    rcases h.closureCur m hm with hin | hin
    · exact Or.inl (List.mem_append_left _ hin)
    · rcases List.mem_cons.mp hin with rfl | hin'
      · exact Or.inl (List.mem_append_right _ (by simp))
      · exact Or.inr hin'
  · exact h.tfresh
  · intro v hv
    rcases List.mem_append.mp hv with hv' | hv'
    · rw [hDag v hv']
      exact spine_cons hparentAdds h.smem h.sroot hnadds v (D v)
        (h.spine v hv') hv'
    · simp at hv'
      subst hv'
      rw [if_pos rfl]
      refine Spine.step (by simp [dget_cons]) hnbr ?_
      exact spine_cons hparentAdds h.smem h.sroot hnadds current (D current)
        (h.spine current h.curAdds) h.curAdds
  · intro v hv
    simp only [List.length_cons]
    rcases List.mem_append.mp hv with hv' | hv'
    · rw [hDag v hv']
      exact le_trans (h.dbound v hv') (by omega)
    · simp at hv'
      rw [hv', if_pos rfl]
      have := h.dbound current h.curAdds
      omega

/-- Skipping an already-visited neighbor preserves the mid-invariant. -/
theorem bfsMid_skip {g : Grid} {s t current : Coord} {D : Coord → ℕ}
    {n : Coord} {ns : List Coord} {st : BfsState}
    (h : BfsMid g s t current D (n :: ns) st) (hvis : n ∈ st.visited) :
    BfsMid g s t current D ns st := by
  obtain ⟨h1, h2, h3, h4, h5, h6, h7, h8, h9, h10, h11, h12, h13, h14, h15,
    h16, h17, h18⟩ := h
  refine ⟨h1, h2, h3, h4, h5, h6, h7, h8, h9,
    fun m hm => h10 m (List.mem_cons_of_mem _ hm), h11, h12, h13, h14, ?_,
    h16, h17, h18⟩
  intro m hm
  rcases h15 m hm with hin | hin
  · exact Or.inl hin
  · rcases List.mem_cons.mp hin with rfl | hin'
    · exact Or.inl ((h3 m).mp hvis)
    · exact Or.inr hin'

/-- The BFS neighbor fold preserves the mid-invariant, ending with no
unprocessed neighbors (for a suitably extended depth assignment). -/
theorem bfs_expand_mid {g : Grid} {s t current : Coord} :
    ∀ (ns : List Coord) (st : BfsState) (D : Coord → ℕ),
    BfsMid g s t current D ns st →
    ∃ Df, BfsMid g s t current Df [] (bfs_expand current st ns) := by
  intro ns
  induction ns with
  | nil => intro st D h; exact ⟨D, by simpa [bfs_expand] using h⟩
  | cons n rest ih =>
    intro st D h
    rw [bfs_expand]
    by_cases hv : n ∈ st.visited
    · simp only [if_pos hv]
      exact ih st D (bfsMid_skip h hv)
    · simp only [if_neg hv]
      exact ih _ _ (bfsMid_push h hv)

/-- Under the loop invariant with queue head `current`, every queue element
has depth at least `D current`. -/
theorem bfs_queue_ge {g : Grid} {s t : Coord} {D : Coord → ℕ} {st : BfsState}
    {current : Coord} {rest : List Coord} (h : BfsInv g s t D st)
    (hq : st.queue = current :: rest) :
    ∀ x ∈ st.queue, D current ≤ D x := by
  intro x hx
  rw [hq] at hx
  rcases List.mem_cons.mp hx with rfl | hx'
  · exact le_refl _
  · have hmono := h.mono
    rw [h.split, List.map_append] at hmono
    have hqs : (st.queue.map D).Sorted (· ≤ ·) :=
      (List.pairwise_append.mp hmono).2.1
    rw [hq, List.map_cons] at hqs
    exact List.rel_of_sorted_cons hqs (D x) (List.mem_map_of_mem D hx')

/-- Under the loop invariant, popped depths are bounded by queue depths. -/
theorem bfs_pops_le_queue {g : Grid} {s t : Coord} {D : Coord → ℕ}
    {st : BfsState} (h : BfsInv g s t D st) :
    ∀ u ∈ st.pops, ∀ x ∈ st.queue, D u ≤ D x := by
  intro u hu x hx
  have hmono := h.mono
  rw [h.split] at hmono
  exact sorted_le_across hmono u hu x hx

/-- Dequeuing a non-goal `current` from the queue head establishes the
mid-invariant for its expansion. -/
theorem bfs_dequeue_mid {g : Grid} {s t : Coord} {D : Coord → ℕ}
    {st : BfsState} {current : Coord} {rest : List Coord}
    (h : BfsInv g s t D st) (hq : st.queue = current :: rest)
    (hct : current ≠ t) :
    BfsMid g s t current D (get_neighbors g current)
      { st with
        queue := rest
        nodes_visited := st.nodes_visited + 1
        pops := st.pops ++ [current] } := by
  have hcurQ : current ∈ st.queue := by
    rw [hq]
    exact List.mem_cons_self _ _
  have hcurAdds : current ∈ st.adds := by
    rw [h.split]
    exact List.mem_append_right _ hcurQ
  have hDs0 : D s = 0 := by
    have := (h.dexact s h.smem).2 0 ReachN.refl
    omega
  -- when the pop list is empty the state is the initial one
  have hshape : st.pops = [] → current = s ∧ D current = 0 := by
    intro hp
    have hsh := h.initShape hp
    have hsp := h.split
    rw [hp, hq, hsh] at hsp
    simp at hsp
    refine ⟨hsp.1.symm, ?_⟩
    rw [← hsp.1]
    exact hDs0
  have hDcur_ub : ∀ v ∈ st.adds, D v ≤ D current + 1 := by
    intro v hv
    by_cases hne : st.pops = []
    · have hsh := h.initShape hne
      have hvs : v = s := by
        rw [hsh] at hv
        simpa using hv
      rw [hvs, (hshape hne).1]
      omega
    · have hl0 := List.getLast?_eq_getLast st.pops hne
      have hb := h.tbound v hv _ hl0
      have hl0mem : st.pops.getLast hne ∈ st.pops := List.getLast_mem hne
      have hmono2 : D (st.pops.getLast hne) ≤ D current :=
        bfs_pops_le_queue h _ hl0mem current hcurQ
      omega
  have hlevel1 : ∀ u k, ReachN g s u k → k < D current →
      u ∈ st.pops ++ [current] := by
    intro u k hk hlt
    by_cases hne : st.pops = []
    · rw [(hshape hne).2] at hlt
      omega
    · have hl0 := List.getLast?_eq_getLast st.pops hne
      have hl0mem : st.pops.getLast hne ∈ st.pops := List.getLast_mem hne
      have hcl0 : D (st.pops.getLast hne) ≤ D current :=
        bfs_pops_le_queue h _ hl0mem current hcurQ
      have hcub : D current ≤ D (st.pops.getLast hne) + 1 :=
        h.tbound current hcurAdds _ hl0
      by_cases hkl : k < D (st.pops.getLast hne)
      · exact List.mem_append_left _ (h.level u k hk _ hl0 hkl)
      · -- here D current = D l0 + 1 and k = D l0
        have hinAdds : u ∈ st.adds := by
          match k, hk with
          | 0, hk =>
            rw [reachN_zero hk]
            exact h.smem
          | (k' + 1), hk =>
            obtain ⟨w, hw, hwn⟩ := reachN_succ hk
            have hwk : k' < D (st.pops.getLast hne) := by omega
            have hwpops := h.level w k' hw _ hl0 hwk
            exact h.closure w hwpops u hwn
        have hdu : D u ≤ k := (h.dexact u hinAdds).2 k hk
        rcases List.mem_append.mp (h.split ▸ hinAdds) with hup | huq
        · exact List.mem_append_left _ hup
        · exfalso
          have := bfs_queue_ge h hq u huq
          omega
  refine ⟨?_, h.nodup, h.vis, h.smem, h.sroot, ?_, h.mono, by simp, hcurAdds,
    fun m hm => hm, hDcur_ub, h.dexact, hlevel1, ?_, fun m hm => Or.inr hm,
    ?_, h.spine, h.dbound⟩
  · rw [h.split, hq]
    simp
  · intro v hv hvs
    obtain ⟨p, hp1, hp2, hp3, hp4⟩ := h.parent v hv hvs
    exact ⟨p, hp1, List.mem_append_left _ hp2, hp3, hp4⟩
  · intro u hu huc m hm
    rcases List.mem_append.mp hu with hu' | hu'
    · exact h.closure u hu' m hm
    · simp at hu'
      exact absurd hu' huc
  · intro hc
    rcases List.mem_append.mp hc with hc' | hc'
    · exact h.tfresh hc'
    · simp at hc'
      exact hct hc'.symm

/-- After the expansion completes, the mid-invariant yields the loop
invariant again. -/
theorem bfsMid_to_inv {g : Grid} {s t current : Coord} {D : Coord → ℕ}
    {st : BfsState} (h : BfsMid g s t current D [] st) : BfsInv g s t D st := by
  refine ⟨h.split, h.nodup, h.vis, h.smem, h.sroot, h.parent, h.mono, ?_,
    h.dexact, ?_, ?_, h.tfresh, h.spine, h.dbound, ?_⟩
  · intro v hv u hu
    have hcl := h.curLast
    rw [hu] at hcl
    cases hcl
    exact h.tbound v hv
  · intro u k hk l hl hlt
    have hcl := h.curLast
    rw [hl] at hcl
    cases hcl
    exact h.level u k hk hlt
  · intro u hu m hm
    by_cases huc : u = current
    · subst huc
      rcases h.closureCur m hm with hin | hin
      · exact hin
      · simp at hin
    · exact h.closureOld u hu huc m hm
  · intro hp
    have hcl := h.curLast
    rw [hp] at hcl
    simp at hcl

/-- The initial BFS state satisfies the loop invariant with the constant
depth assignment. -/
theorem bfs_init_inv (g : Grid) (s t : Coord) :
    BfsInv g s t (fun _ => 0) (bfs_init s) := by
  refine ⟨rfl, by simp [bfs_init], ?_, by simp [bfs_init], rfl, ?_, ?_, ?_,
    ?_, ?_, ?_, ?_, ?_, ?_, ?_⟩
  · intro v
    simp [bfs_init]
  · intro v hv hvs
    simp only [bfs_init, List.mem_singleton] at hv
    exact absurd hv hvs
  · simp [bfs_init]
  · intro v _ u hu
    simp [bfs_init] at hu
  · intro v hv
    simp only [bfs_init, List.mem_singleton] at hv
    subst hv
    exact ⟨ReachN.refl, fun k _ => by omega⟩
  · intro u k _ l hl
    simp [bfs_init] at hl
  · intro u hu
    simp [bfs_init] at hu
  · simp [bfs_init]
  · intro v hv
    simp only [bfs_init, List.mem_singleton] at hv
    subst hv
    exact Spine.base rfl
  · intro v _
    simp [bfs_init]
  · intro _
    rfl

/-- Correctness of a completed BFS run: a found path is a shortest
neighbor path with a duplicate-free enqueue trace; a no-path outcome means
the goal is unreachable. -/
def BfsOutcomeOK (g : Grid) (s t : Coord) : RunRes BfsState → Prop
  | .found p st' => NPath g s t p ∧ (∀ k, ReachN g s t k → p.length ≤ k + 1) ∧
      st'.adds.Nodup
  | .noPath _ => ∀ k, ¬ ReachN g s t k
  | .out => True

/-- Main BFS loop lemma: the invariant yields a correct outcome. -/
theorem run_bfs_loop_ok (g : Grid) (s t : Coord) :
    ∀ fuel (st : BfsState) (D : Coord → ℕ), BfsInv g s t D st →
    BfsOutcomeOK g s t (run_bfs_loop g t st fuel) := by
  intro fuel
  induction fuel with
  | zero => intro st D _; simp [run_bfs_loop, BfsOutcomeOK]
  | succ n ih =>
    intro st D h
    rw [run_bfs_loop]
    cases hq : st.queue with
    | nil =>
      simp only [BfsOutcomeOK]
      intro k hk
      have hall : ∀ u j, ReachN g s u j → u ∈ st.pops := by
        intro u j hu
        induction hu with
        | refl =>
          have := h.smem
          rw [h.split, hq] at this
          simpa using this
        | step hw hn ihw =>
          have := h.closure _ ihw _ hn
          rw [h.split, hq] at this
          simpa using this
      exact h.tfresh (hall t k hk)
    | cons current rest =>
      by_cases hg : current = t
      · simp only [hg, if_pos rfl]
        simp only [BfsOutcomeOK]
        subst hg
        have hcAdds : current ∈ st.adds := by
          rw [h.split, hq]
          exact List.mem_append_right _ (List.mem_cons_self _ _)
        obtain ⟨hnp, hlen⟩ := spine_reconstruct (h.spine current hcAdds)
          (h.dbound current hcAdds)
        refine ⟨hnp, ?_, h.nodup⟩
        intro k hk
        rw [hlen]
        have := (h.dexact current hcAdds).2 k hk
        omega
      · simp only [if_neg hg]
        obtain ⟨Df, hmid⟩ := bfs_expand_mid (get_neighbors g current) _ D
          (bfs_dequeue_mid h hq hg)
        exact ih _ Df (bfsMid_to_inv hmid)

/-- If any valid path exists, `run_bfs` finds a shortest one with a
duplicate-free enqueue trace. -/
theorem run_bfs_found_shortest (g : Grid) (s t : Coord) (p0 : List Coord)
    (hp : ValidPath g s t p0) :
    ∃ p st', run_bfs g s t = .found p st' ∧ ValidPath g s t p ∧
      (∀ q, ValidPath g s t q → p.length ≤ q.length) ∧ st'.adds.Nodup := by
  have hreach : ReachN g s t (p0.length - 1) := validPath_reachN p0 t hp
  have hsmem : s ∈ p0 := by
    have := hp.1
    cases p0 with
    | nil => simp at this
    | cons a l =>
      simp at this
      rw [this]
      exact List.mem_cons_self _ _
  have hsprops := hp.2.2.1 s hsmem
  have hok : BfsOutcomeOK g s t (run_bfs g s t) :=
    run_bfs_loop_ok g s t (search_fuel g) (bfs_init s) _ (bfs_init_inv g s t)
  cases hres : run_bfs g s t with
  | found p st' =>
    rw [hres] at hok
    simp only [BfsOutcomeOK] at hok
    obtain ⟨hnp, hopt, hnodup⟩ := hok
    refine ⟨p, st', rfl, npath_validPath hnp hsprops.1 hsprops.2, ?_, hnodup⟩
    intro q hq
    have hq1 : 1 ≤ q.length := by
      have := hq.1
      cases q with
      | nil => simp at this
      | cons a l => simp
    have := hopt (q.length - 1) (validPath_reachN q t hq)
    omega
  | noPath st' =>
    rw [hres] at hok
    simp only [BfsOutcomeOK] at hok
    exact absurd hreach (hok _)
  | out => exact absurd hres (run_bfs_not_out g s t)

/-- C1: if any valid path (in-bounds, non-obstacle, 4-adjacent cells) from
start to goal exists, `run_bfs` succeeds and the path it reconstructs is a
shortest valid path; moreover every coordinate is enqueued at most once
(the frontier-add trace of the run is duplicate-free), because BFS marks
nodes visited at enqueue time. -/
theorem claim_bfs_shortest (g : Grid) (s t : Coord) (p0 : List Coord)
    (hp : ValidPath g s t p0) :
    ∃ p st', run_bfs g s t = .found p st' ∧ ValidPath g s t p ∧
      (∀ q, ValidPath g s t q → p.length ≤ q.length) ∧ st'.adds.Nodup :=
  run_bfs_found_shortest g s t p0 hp

/-- Witness for C1 on a concrete 1×2 grid. -/
theorem claim_bfs_shortest_witness :
    ValidPath (mkGrid 1 2 []) (0, 0) (0, 1) [(0, 0), (0, 1)] ∧
      (∃ p st', run_bfs (mkGrid 1 2 []) (0, 0) (0, 1) = .found p st' ∧
        ValidPath (mkGrid 1 2 []) (0, 0) (0, 1) p ∧
        (∀ q, ValidPath (mkGrid 1 2 []) (0, 0) (0, 1) q →
          p.length ≤ q.length) ∧ st'.adds.Nodup) :=
  ⟨by decide, claim_bfs_shortest (mkGrid 1 2 []) (0, 0) (0, 1)
    [(0, 0), (0, 1)] (by decide)⟩

/-! ## Depth-First search correctness (C8) -/

/-- Spine stability in predicate form: extending the predecessor map with
a key outside the guarded region preserves spines inside it. -/
theorem spine_stable {g : Grid} {s : Coord} {cf : List (Coord × Coord)}
    {P : Coord → Prop}
    (hparent : ∀ v, P v → v ≠ s → ∃ p, dget cf v = some p ∧ P p)
    (hs : P s) (hroot : dget cf s = none) {n c : Coord} (hn : ¬ P n) :
    ∀ v k, Spine g s cf v k → P v → Spine g s ((n, c) :: cf) v k := by
  intro v k h
  induction h with
  | base hroot0 =>
    intro _
    refine .base ?_
    rw [dget_cons, if_neg (fun he => hn (by rw [he]; exact hs))]
    exact hroot0
  | step hd hnb hsp ih =>
    rename_i v' p' k'
    intro hv
    have hvs : v' ≠ s := by
      intro he
      rw [he, hroot] at hd
      simp at hd
    obtain ⟨p2, hp2, hp2mem⟩ := hparent v' hv hvs
    rw [hd] at hp2
    cases hp2
    refine .step ?_ hnb (ih hp2mem)
    rw [dget_cons, if_neg (fun he => hn (by rw [he]; exact hv))]
    exact hd

/-- Invariant of the DFS loop. -/
structure DfsInv (g : Grid) (s t : Coord) (st : DfsState) : Prop where
  tfresh : t ∉ st.visited
  vispops : ∀ v, v ∈ st.visited ↔ v ∈ st.pops
  closure : ∀ u ∈ st.visited, ∀ m ∈ get_neighbors g u,
    m ∈ st.visited ∨ m ∈ st.stack
  sroot : dget st.came_from s = none
  parentV : ∀ v ∈ st.visited, v ≠ s → ∃ p, dget st.came_from v = some p ∧
    p ∈ st.visited ∧ v ∈ get_neighbors g p
  parentS : ∀ v ∈ st.stack, v ≠ s → ∃ p, dget st.came_from v = some p ∧
    p ∈ st.visited ∧ v ∈ get_neighbors g p
  spineV : ∀ v ∈ st.visited, ∃ k, k + 1 ≤ st.pops.length ∧
    Spine g s st.came_from v k
  acct : st.pops.length + st.stack.length ≤ st.came_from.length + 1
  sShape : s ∈ st.visited ∨
    (st.stack = [s] ∧ st.visited = ∅ ∧ st.came_from = [] ∧ st.pops = [])

/-- The initial DFS state satisfies the invariant. -/
theorem dfs_init_inv (g : Grid) (s t : Coord) : DfsInv g s t (dfs_init s) := by
  refine ⟨by simp [dfs_init], ?_, ?_, rfl, ?_, ?_, ?_, by simp [dfs_init], ?_⟩
  · intro v; simp [dfs_init]
  · intro u hu; simp [dfs_init] at hu
  · intro v hv; simp [dfs_init] at hv
  · intro v hv hvs
    simp only [dfs_init, List.mem_singleton] at hv
    exact absurd hv hvs
  · intro v hv; simp [dfs_init] at hv
  · exact Or.inr ⟨rfl, rfl, rfl, rfl⟩

/-- Invariant during DFS expansion of `current` (already accepted and
marked visited), with `ns` the unprocessed reversed neighbors. -/
structure DfsMid (g : Grid) (s t current : Coord) (ns : List Coord)
    (st : DfsState) : Prop where
  tfresh : t ∉ st.visited
  vispops : ∀ v, v ∈ st.visited ↔ v ∈ st.pops
  closureOld : ∀ u ∈ st.visited, u ≠ current → ∀ m ∈ get_neighbors g u,
    m ∈ st.visited ∨ m ∈ st.stack
  closureCur : ∀ m ∈ get_neighbors g current,
    m ∈ st.visited ∨ m ∈ st.stack ∨ m ∈ ns
  sroot : dget st.came_from s = none
  parentV : ∀ v ∈ st.visited, v ≠ s → ∃ p, dget st.came_from v = some p ∧
    p ∈ st.visited ∧ v ∈ get_neighbors g p
  parentS : ∀ v ∈ st.stack, v ≠ s → ∃ p, dget st.came_from v = some p ∧
    p ∈ st.visited ∧ v ∈ get_neighbors g p
  spineV : ∀ v ∈ st.visited, ∃ k, k + 1 ≤ st.pops.length ∧
    Spine g s st.came_from v k
  acct : st.pops.length + st.stack.length ≤ st.came_from.length + 1
  sInV : s ∈ st.visited
  curInV : current ∈ st.visited

/-- One DFS push step preserves the mid-invariant. -/
theorem dfsMid_push {g : Grid} {s t current n : Coord} {ns : List Coord}
    {st : DfsState} (h : DfsMid g s t current (n :: ns) st)
    (hfresh : n ∉ st.visited) (hnbr : n ∈ get_neighbors g current) :
    DfsMid g s t current ns
      { st with
        came_from := (n, current) :: st.came_from
        stack := n :: st.stack
        nodes_explored := st.nodes_explored + 1
        adds := st.adds ++ [n] } := by
  have hns : n ≠ s := fun he => hfresh (he ▸ h.sInV)
  have hdg : ∀ v, v ≠ n → dget ((n, current) :: st.came_from) v =
      dget st.came_from v := by
    intro v hv
    rw [dget_cons, if_neg (fun he => hv he.symm)]
  refine ⟨h.tfresh, h.vispops, ?_, ?_, ?_, ?_, ?_, ?_, ?_, h.sInV, h.curInV⟩
  · intro u hu huc m hm
    rcases h.closureOld u hu huc m hm with hin | hin
    · exact Or.inl hin
    · exact Or.inr (List.mem_cons_of_mem _ hin)
  · intro m hm
    rcases h.closureCur m hm with hin | hin | hin
    · exact Or.inl hin
    · exact Or.inr (Or.inl (List.mem_cons_of_mem _ hin))
    · rcases List.mem_cons.mp hin with rfl | hin'
      · exact Or.inr (Or.inl (List.mem_cons_self _ _))
      · exact Or.inr (Or.inr hin')
  · rw [hdg s (Ne.symm hns)]
    exact h.sroot
  · intro v hv hvs
    obtain ⟨p, hp1, hp2, hp3⟩ := h.parentV v hv hvs
    exact ⟨p, by rw [hdg v (fun he => hfresh (he ▸ hv))]; exact hp1, hp2, hp3⟩
  · intro v hv hvs
    by_cases hvn : v = n
    · subst hvn
      exact ⟨current, by rw [dget_cons, if_pos rfl], h.curInV, hnbr⟩
    · rcases List.mem_cons.mp hv with rfl | hv'
      · exact absurd rfl hvn
      · obtain ⟨p, hp1, hp2, hp3⟩ := h.parentS v hv' hvs
        exact ⟨p, by rw [hdg v hvn]; exact hp1, hp2, hp3⟩
  · intro v hv
    obtain ⟨k, hk, hsp⟩ := h.spineV v hv
    refine ⟨k, hk, ?_⟩
    exact spine_stable (P := fun x => x ∈ st.visited)
      (fun x hx hxs => by
        obtain ⟨p, hp1, hp2, _⟩ := h.parentV x hx hxs
        exact ⟨p, hp1, hp2⟩) h.sInV h.sroot hfresh v k hsp hv
  · have := h.acct
    simp only [List.length_cons]
    omega

/-- Skipping an already-visited neighbor preserves the DFS mid-invariant. -/
theorem dfsMid_skip {g : Grid} {s t current n : Coord} {ns : List Coord}
    {st : DfsState} (h : DfsMid g s t current (n :: ns) st)
    (hvis : n ∈ st.visited) : DfsMid g s t current ns st := by
  refine ⟨h.tfresh, h.vispops, h.closureOld, ?_, h.sroot, h.parentV,
    h.parentS, h.spineV, h.acct, h.sInV, h.curInV⟩
  intro m hm
  rcases h.closureCur m hm with hin | hin | hin
  · exact Or.inl hin
  · exact Or.inr (Or.inl hin)
  · rcases List.mem_cons.mp hin with rfl | hin'
    · exact Or.inl hvis
    · exact Or.inr (Or.inr hin')

/-- The DFS neighbor fold preserves the mid-invariant. -/
theorem dfs_expand_mid {g : Grid} {s t current : Coord} :
    ∀ (ns : List Coord), (∀ n ∈ ns, n ∈ get_neighbors g current) →
    ∀ (st : DfsState), DfsMid g s t current ns st →
    DfsMid g s t current [] (dfs_expand current st ns) := by
  intro ns
  induction ns with
  | nil => intro _ st h; simpa [dfs_expand] using h
  | cons n rest ih =>
    intro hns st h
    rw [dfs_expand]
    by_cases hv : n ∈ st.visited
    · simp only [if_pos hv]
      exact ih (fun x hx => hns x (List.mem_cons_of_mem _ hx)) st
        (dfsMid_skip h hv)
    · simp only [if_neg hv]
      exact ih (fun x hx => hns x (List.mem_cons_of_mem _ hx)) _
        (dfsMid_push h hv (hns n (List.mem_cons_self _ _)))

/-- Accepting a fresh pop establishes the DFS mid-invariant with the full
reversed neighbor list pending. -/
theorem dfs_accept_mid {g : Grid} {s t current : Coord} {rest : List Coord}
    {st : DfsState} (h : DfsInv g s t st) (hstk : st.stack = current :: rest)
    (hfresh : current ∉ st.visited) (hgt : current ≠ t) :
    DfsMid g s t current ((get_neighbors g current).reverse)
      { st with
        stack := rest
        visited := insert current st.visited
        nodes_visited := st.nodes_visited + 1
        pops := st.pops ++ [current] } := by
  have hsEq : s ∈ st.visited ∨
      current = s ∧ st.came_from = [] ∧ st.pops = [] := by
    rcases h.sShape with hs | ⟨hse, _, hce, hpe⟩
    · exact Or.inl hs
    · rw [hstk] at hse
      simp only [List.cons.injEq] at hse
      exact Or.inr ⟨hse.1, hce, hpe⟩
  have hcur : current ∈ st.stack := by
    rw [hstk]
    exact List.mem_cons_self _ _
  refine ⟨?_, ?_, ?_, ?_, h.sroot, ?_, ?_, ?_, ?_, ?_,
    Finset.mem_insert_self _ _⟩
  · simp only [Finset.mem_insert]
    rintro (he | he)
    · exact hgt he.symm
    · exact h.tfresh he
  · intro v
    simp only [Finset.mem_insert, List.mem_append, List.mem_singleton,
      h.vispops v]
    tauto
  · intro u hu huc m hm
    have hu' : u ∈ st.visited := by
      rcases Finset.mem_insert.mp hu with rfl | hin
      · exact absurd rfl huc
      · exact hin
    rcases h.closure u hu' m hm with hin | hin
    · exact Or.inl (Finset.mem_insert_of_mem hin)
    · rw [hstk] at hin
      rcases List.mem_cons.mp hin with rfl | hin'
      · exact Or.inl (Finset.mem_insert_self _ _)
      · exact Or.inr hin'
  · intro m hm
    exact Or.inr (Or.inr (List.mem_reverse.mpr hm))
  · intro v hv hvs
    rcases Finset.mem_insert.mp hv with rfl | hin
    · obtain ⟨p, hp1, hp2, hp3⟩ := h.parentS v hcur hvs
      exact ⟨p, hp1, Finset.mem_insert_of_mem hp2, hp3⟩
    · obtain ⟨p, hp1, hp2, hp3⟩ := h.parentV v hin hvs
      exact ⟨p, hp1, Finset.mem_insert_of_mem hp2, hp3⟩
  · intro v hv hvs
    obtain ⟨p, hp1, hp2, hp3⟩ :=
      h.parentS v (by rw [hstk]; exact List.mem_cons_of_mem _ hv) hvs
    exact ⟨p, hp1, Finset.mem_insert_of_mem hp2, hp3⟩
  · intro v hv
    rcases Finset.mem_insert.mp hv with rfl | hin
    · by_cases hvs : v = s
      · rcases hsEq with hs | ⟨_, hce, hpe⟩
        · exact absurd (hvs ▸ hs) hfresh
        · refine ⟨0, by simp, ?_⟩
          rw [hvs]
          exact Spine.base h.sroot
      · obtain ⟨p, hp1, hp2, hp3⟩ := h.parentS v hcur hvs
        obtain ⟨k, hk, hsp⟩ := h.spineV p hp2
        refine ⟨k + 1, ?_, Spine.step hp1 hp3 hsp⟩
        simp only [List.length_append, List.length_singleton]
        omega
    · obtain ⟨k, hk, hsp⟩ := h.spineV v hin
      refine ⟨k, ?_, hsp⟩
      simp only [List.length_append, List.length_singleton]
      omega
  · have := h.acct
    rw [hstk] at this
    simp only [List.length_append, List.length_singleton, List.length_nil,
      List.length_cons] at this ⊢
    omega
  · rcases hsEq with hs | ⟨he, _, _⟩
    · exact Finset.mem_insert_of_mem hs
    · exact he ▸ Finset.mem_insert_self _ _

/-- A completed expansion restores the main DFS invariant. -/
theorem dfsMid_to_inv {g : Grid} {s t current : Coord} {st : DfsState}
    (h : DfsMid g s t current [] st) : DfsInv g s t st := by
  refine ⟨h.tfresh, h.vispops, ?_, h.sroot, h.parentV, h.parentS, h.spineV,
    h.acct, Or.inl h.sInV⟩
  intro u hu m hm
  by_cases hc : u = current
  · subst hc
    rcases h.closureCur m hm with hin | hin | hin
    · exact Or.inl hin
    · exact Or.inr hin
    · simp at hin
  · exact h.closureOld u hu hc m hm

/-- Correctness of a completed DFS run: a found path is a neighbor path
from start to goal; a no-path outcome means the goal is unreachable. -/
def DfsOutcomeOK (g : Grid) (s t : Coord) : RunRes DfsState → Prop
  | .found p _ => NPath g s t p
  | .noPath _ => ∀ k, ¬ ReachN g s t k
  | .out => True

/-- Main DFS loop lemma: the invariant yields a correct outcome. -/
theorem run_dfs_loop_ok (g : Grid) (s t : Coord) :
    ∀ fuel (st : DfsState), DfsInv g s t st →
    DfsOutcomeOK g s t (run_dfs_loop g t st fuel) := by
  intro fuel
  induction fuel with
  | zero => intro st _; simp [run_dfs_loop, DfsOutcomeOK]
  | succ n ih =>
    intro st h
    rw [run_dfs_loop]
    cases hq : st.stack with
    | nil =>
      simp only [DfsOutcomeOK]
      intro k hk
      have hall : ∀ u j, ReachN g s u j → u ∈ st.visited := by
        intro u j hu
        induction hu with
        | refl =>
          rcases h.sShape with hs | ⟨hse, _, _, _⟩
          · exact hs
          · rw [hq] at hse
            simp at hse
        | step hw hn ihw =>
          rcases h.closure _ ihw _ hn with hin | hin
          · exact hin
          · rw [hq] at hin
            simp at hin
      exact h.tfresh (hall t k hk)
    | cons current rest =>
      by_cases hv : current ∈ st.visited
      · simp only [if_pos hv]
        refine ih _ ⟨h.tfresh, h.vispops, ?_, h.sroot, h.parentV, ?_,
          h.spineV, ?_, ?_⟩
        · intro u hu m hm
          rcases h.closure u hu m hm with hin | hin
          · exact Or.inl hin
          · rw [hq] at hin
            rcases List.mem_cons.mp hin with rfl | hin'
            · exact Or.inl hv
            · exact Or.inr hin'
        · intro v hv' hvs
          exact h.parentS v (by rw [hq]; exact List.mem_cons_of_mem _ hv') hvs
        · have := h.acct
          rw [hq] at this
          simp only [List.length_cons] at this
          show st.pops.length + rest.length ≤ st.came_from.length + 1
          omega
        · rcases h.sShape with hs | ⟨_, hve, _, _⟩
          · exact Or.inl hs
          · rw [hve] at hv
            simp at hv
      · by_cases hg : current = t
        · simp only [if_neg hv, if_pos hg]
          simp only [DfsOutcomeOK]
          subst hg
          have hcur : current ∈ st.stack := by
            rw [hq]
            exact List.mem_cons_self _ _
          have hspn : ∃ k, k ≤ st.came_from.length ∧
              Spine g s st.came_from current k := by
            by_cases hcs : current = s
            · rcases h.sShape with hs | ⟨_, _, hce, _⟩
              · exact absurd (hcs ▸ hs) hv
              · exact ⟨0, by simp, by rw [hcs]; exact Spine.base h.sroot⟩
            · obtain ⟨p, hp1, hp2, hp3⟩ := h.parentS current hcur hcs
              obtain ⟨k, hk, hsp⟩ := h.spineV p hp2
              have hacct := h.acct
              rw [hq] at hacct
              simp only [List.length_cons] at hacct
              exact ⟨k + 1, by omega, Spine.step hp1 hp3 hsp⟩
          obtain ⟨k, hk, hsp⟩ := hspn
          exact (spine_reconstruct hsp hk).1
        · simp only [if_neg hv, if_neg hg]
          exact ih _ (dfsMid_to_inv (dfs_expand_mid _
            (fun x hx => List.mem_reverse.mp hx) _
            (dfs_accept_mid h hq hv hg)))

/-- If any valid path exists, `run_dfs` finds some valid path. -/
theorem run_dfs_found (g : Grid) (s t : Coord) (p0 : List Coord)
    (hp : ValidPath g s t p0) :
    ∃ p st', run_dfs g s t = .found p st' ∧ ValidPath g s t p := by
  have hreach : ReachN g s t (p0.length - 1) := validPath_reachN p0 t hp
  have hsmem : s ∈ p0 := by
    have := hp.1
    cases p0 with
    | nil => simp at this
    | cons a l =>
      simp at this
      rw [this]
      exact List.mem_cons_self _ _
  have hsprops := hp.2.2.1 s hsmem
  have hok : DfsOutcomeOK g s t (run_dfs g s t) :=
    run_dfs_loop_ok g s t (search_fuel g) (dfs_init s) (dfs_init_inv g s t)
  cases hres : run_dfs g s t with
  | found p st' =>
    rw [hres] at hok
    simp only [DfsOutcomeOK] at hok
    exact ⟨p, st', rfl, npath_validPath hok hsprops.1 hsprops.2⟩
  | noPath st' =>
    rw [hres] at hok
    simp only [DfsOutcomeOK] at hok
    exact absurd hreach (hok _)
  | out => exact absurd hres (run_dfs_not_out g s t)

/-- C8: whenever any valid path from start to goal exists, both `run_bfs`
and `run_dfs` succeed, both returned paths are valid, and the number of
cells of the Breadth-First path is at most that of the Depth-First path. -/
theorem claim_bfs_le_dfs (g : Grid) (s t : Coord) (p0 : List Coord)
    (hp : ValidPath g s t p0) :
    ∃ pb stb pd std, run_bfs g s t = .found pb stb ∧
      run_dfs g s t = .found pd std ∧ ValidPath g s t pb ∧
      ValidPath g s t pd ∧ pb.length ≤ pd.length := by
  obtain ⟨pb, stb, hb, hbv, hbmin, _⟩ := run_bfs_found_shortest g s t p0 hp
  obtain ⟨pd, std, hd, hdv⟩ := run_dfs_found g s t p0 hp
  exact ⟨pb, stb, pd, std, hb, hd, hbv, hdv, hbmin pd hdv⟩

/-- Witness for C8 on a concrete empty 2×2 grid. -/
theorem claim_bfs_le_dfs_witness :
    ValidPath (mkGrid 2 2 []) (0, 0) (1, 1) [(0, 0), (0, 1), (1, 1)] ∧
      (∃ pb stb pd std, run_bfs (mkGrid 2 2 []) (0, 0) (1, 1) = .found pb stb ∧
        run_dfs (mkGrid 2 2 []) (0, 0) (1, 1) = .found pd std ∧
        ValidPath (mkGrid 2 2 []) (0, 0) (1, 1) pb ∧
        ValidPath (mkGrid 2 2 []) (0, 0) (1, 1) pd ∧
        pb.length ≤ pd.length) :=
  ⟨by decide, claim_bfs_le_dfs (mkGrid 2 2 []) (0, 0) (1, 1)
    [(0, 0), (0, 1), (1, 1)] (by decide)⟩

/-! ## Straight-line geometry (C2) -/

/-- The `i`-th cell of the straight line from `s` in unit direction `d`. -/
def lineCell (s d : Coord) (i : ℕ) : Coord :=
  (s.1 + i * d.1, s.2 + i * d.2)

/-- The inclusive straight segment of `M + 1` cells from `s` towards `d`. -/
def linePath (s d : Coord) (M : ℕ) : List Coord :=
  (List.range (M + 1)).map (lineCell s d)

theorem lineCell_zero (s d : Coord) : lineCell s d 0 = s := by
  simp [lineCell]

/-- Manhattan distance between two cells of the same line is the index
distance. -/
theorem heuristic_lineCell {d : Coord} (hd : d ∈ directions) (s : Coord)
    (i j : ℕ) :
    heuristic (lineCell s d i) (lineCell s d j) = |(i : ℤ) - j| := by
  simp only [directions, List.mem_cons, List.not_mem_nil, or_false] at hd
  rcases hd with rfl | rfl | rfl | rfl
  · simp only [heuristic, lineCell]
    rw [show s.1 + (i : ℤ) * (-1) - (s.1 + (j : ℤ) * (-1)) = (j : ℤ) - i
        by ring,
      show s.2 + (i : ℤ) * 0 - (s.2 + (j : ℤ) * 0) = 0 by ring,
      abs_zero, abs_sub_comm]
    ring
  · simp only [heuristic, lineCell]
    rw [show s.1 + (i : ℤ) * 0 - (s.1 + (j : ℤ) * 0) = 0 by ring,
      show s.2 + (i : ℤ) * 1 - (s.2 + (j : ℤ) * 1) = (i : ℤ) - j by ring,
      abs_zero]
    ring
  · simp only [heuristic, lineCell]
    rw [show s.1 + (i : ℤ) * 1 - (s.1 + (j : ℤ) * 1) = (i : ℤ) - j by ring,
      show s.2 + (i : ℤ) * 0 - (s.2 + (j : ℤ) * 0) = 0 by ring,
      abs_zero]
    ring
  · simp only [heuristic, lineCell]
    rw [show s.1 + (i : ℤ) * 0 - (s.1 + (j : ℤ) * 0) = 0 by ring,
      show s.2 + (i : ℤ) * (-1) - (s.2 + (j : ℤ) * (-1)) = (j : ℤ) - i
        by ring,
      abs_zero, abs_sub_comm]
    ring

/-- Distinct indices give distinct line cells. -/
theorem lineCell_inj {d : Coord} (hd : d ∈ directions) {s : Coord}
    {i j : ℕ} (h : lineCell s d i = lineCell s d j) : i = j := by
  have h0 : heuristic (lineCell s d i) (lineCell s d j) = 0 := by
    rw [h]
    simp [heuristic]
  rw [heuristic_lineCell hd] at h0
  rw [abs_eq_zero] at h0
  omega

/-- The straight segment is a valid path of `M + 1` cells from `s` to its
`M`-th cell, provided every cell on it is in bounds and passable. -/
theorem linePath_valid {g : Grid} {s d : Coord} {M : ℕ}
    (hd : d ∈ directions)
    (hline : ∀ i ≤ M, inBounds g (lineCell s d i) ∧
      g.cell (lineCell s d i) ≠ CellType.OBSTACLE) :
    ValidPath g s (lineCell s d M) (linePath s d M) ∧
      (linePath s d M).length = M + 1 := by
  refine ⟨⟨?_, ?_, ?_, ?_⟩, by simp [linePath]⟩
  · rw [linePath, List.range_succ_eq_map]
    simp [lineCell_zero]
  · rw [linePath, List.range_succ, List.map_append]
    simp
  · intro c hc
    rw [linePath] at hc
    simp only [List.mem_map, List.mem_range] at hc
    obtain ⟨i, hi, rfl⟩ := hc
    exact hline i (by omega)
  · rw [pathSteps_iff_chain, linePath, List.chain'_map, List.chain'_range_succ]
    intro m hm
    rw [heuristic_lineCell hd]
    rw [show ((m : ℤ) - (m + 1 : ℕ)) = -1 by push_cast; ring]
    decide

/-- Any Manhattan-unit-step chain from `a` to `t` has more cells than the
Manhattan distance. -/
theorem manhattan_le_length : ∀ (p : List Coord) (a t : Coord),
    p.Chain' (fun x y => heuristic x y = 1) → p.head? = some a →
    p.getLast? = some t → heuristic a t + 1 ≤ (p.length : ℤ) := by
  intro p
  induction p with
  | nil => intro a t _ hh _; simp at hh
  | cons b rest ih =>
    intro a t hch hh hl
    simp only [List.head?_cons, Option.some.injEq] at hh
    subst hh
    cases rest with
    | nil =>
      simp only [List.getLast?_singleton, Option.some.injEq] at hl
      subst hl
      simp [heuristic]
    | cons c r =>
      rw [List.chain'_cons] at hch
      have h1 : heuristic b c = 1 := hch.1
      have hlast : (c :: r).getLast? = some t := by
        rwa [List.getLast?_cons_cons] at hl
      have hrec := ih c t hch.2 rfl hlast
      have htri : heuristic b t ≤ heuristic b c + heuristic c t := by
        simp only [heuristic]
        have t1 := abs_sub_le b.1 c.1 t.1
        have t2 := abs_sub_le b.2 c.2 t.2
        linarith
      simp only [List.length_cons] at hrec ⊢
      push_cast at hrec ⊢
      linarith

/-! ## Uniform-Cost search correctness (C2) -/

theorem entry_le_key {a b : HeapEntry} (h : entry_le a b) : a.1 ≤ b.1 := by
  unfold entry_le at h
  rcases h with h | ⟨h, _⟩
  · omega
  · omega

/-- A spine all of whose parent links point into `C` survives a cons whose
key lies outside `C` and differs from the root and the spine head. -/
theorem spine_cons_vals {g : Grid} {s : Coord} {cf : List (Coord × Coord)}
    {C : Finset Coord}
    (hvals : ∀ v p, dget cf v = some p → p ∈ C)
    {n c : Coord} (hn : n ∉ C) (hns : n ≠ s) :
    ∀ v k, Spine g s cf v k → v ≠ n → Spine g s ((n, c) :: cf) v k := by
  intro v k h
  induction h with
  | base hroot =>
    intro _
    refine .base ?_
    rw [dget_cons, if_neg (fun he => hns he)]
    exact hroot
  | step hd hnb _ ih =>
    intro hv
    have hpC := hvals _ _ hd
    refine .step ?_ hnb (ih (fun he => hn (he ▸ hpC)))
    rw [dget_cons, if_neg (fun he => hv he.symm)]
    exact hd

/-- Invariant of the UCS loop.  `visited_cells` is the closed set; closed
nodes carry optimal `g_score`s, every unclosed discovered node keeps a
fresh heap entry, and predecessor spines realize every `g_score`. -/
structure UcsInv (g : Grid) (s t : Coord) (st : UcsState) : Prop where
  tfresh : t ∉ st.visited_cells
  gs0 : dget st.g_score s = some 0
  gReach : ∀ v kv, dget st.g_score v = some kv → 0 ≤ kv ∧
    ReachN g s v kv.toNat
  openg : ∀ e ∈ st.open_set, ∃ kv, dget st.g_score e.2 = some kv ∧ kv ≤ e.1
  fresh : ∀ m kv, m ∉ st.visited_cells → dget st.g_score m = some kv →
    (kv, m) ∈ st.open_set
  gdefC : ∀ u ∈ st.visited_cells, ∃ gu, dget st.g_score u = some gu
  gOptC : ∀ u ∈ st.visited_cells, ∀ gu, dget st.g_score u = some gu →
    ∀ j : ℕ, ReachN g s u j → gu ≤ (j : ℤ)
  closure : ∀ u ∈ st.visited_cells, ∀ m ∈ get_neighbors g u,
    ∃ gm gu, dget st.g_score m = some gm ∧ dget st.g_score u = some gu ∧
      gm ≤ gu + 1
  spineAll : ∀ v kv, dget st.g_score v = some kv →
    Spine g s st.came_from v kv.toNat ∧ kv.toNat ≤ st.came_from.length
  cfvalsC : ∀ v p, dget st.came_from v = some p → p ∈ st.visited_cells

/-- The initial UCS state satisfies the invariant. -/
theorem ucs_init_inv (g : Grid) (s t : Coord) : UcsInv g s t (ucs_init s) := by
  have hg : ∀ v kv, dget (ucs_init s).g_score v = some kv → v = s ∧ kv = 0 := by
    intro v kv hv
    simp only [ucs_init, dget] at hv
    by_cases he : s = v
    · rw [if_pos he] at hv
      cases hv
      exact ⟨he.symm, rfl⟩
    · rw [if_neg he] at hv
      cases hv
  refine ⟨by simp [ucs_init], by simp [ucs_init, dget], ?_, ?_, ?_, ?_, ?_,
    ?_, ?_, ?_⟩
  · intro v kv hv
    obtain ⟨rfl, rfl⟩ := hg v kv hv
    exact ⟨le_refl _, ReachN.refl⟩
  · intro e he
    simp only [ucs_init, List.mem_singleton] at he
    subst he
    exact ⟨0, by simp [ucs_init, dget], le_refl _⟩
  · intro m kv _ hm
    obtain ⟨rfl, rfl⟩ := hg m kv hm
    simp [ucs_init]
  · intro u hu
    simp [ucs_init] at hu
  · intro u hu
    simp [ucs_init] at hu
  · intro u hu
    simp [ucs_init] at hu
  · intro v kv hv
    obtain ⟨rfl, rfl⟩ := hg v kv hv
    exact ⟨Spine.base rfl, by simp [ucs_init]⟩
  · intro v p hv
    simp [ucs_init, dget] at hv

/-- Key Dijkstra argument: if `(k, v)` is below every heap entry, then any
node reachable in `j` steps is either closed with a `g_score` at most `j`,
or `k ≤ j`. -/
theorem ucs_min_below {g : Grid} {s t : Coord} {st : UcsState}
    (h : UcsInv g s t st) {k : ℤ} {v : Coord}
    (hmem : ∀ e ∈ st.open_set, entry_le (k, v) e) :
    ∀ (j : ℕ) (w : Coord), ReachN g s w j →
      (w ∈ st.visited_cells ∧
        ∀ gw, dget st.g_score w = some gw → gw ≤ (j : ℤ)) ∨ k ≤ (j : ℤ) := by
  intro j w hw
  induction hw with
  | refl =>
    by_cases hs : s ∈ st.visited_cells
    · refine Or.inl ⟨hs, fun gw hgw => ?_⟩
      rw [h.gs0] at hgw
      cases hgw
      simp
    · have hin := h.fresh s 0 hs h.gs0
      have hle := entry_le_key (hmem _ hin)
      right
      simpa using hle
  | step hw2 hn ihw =>
    rename_i w' n' j'
    rcases ihw with ⟨hwc, hgw⟩ | hk
    · obtain ⟨gm, gu, hgm, hgu, hle⟩ := h.closure _ hwc _ hn
      by_cases hnc : n' ∈ st.visited_cells
      · refine Or.inl ⟨hnc, fun gw hgw' => ?_⟩
        rw [hgm] at hgw'
        cases hgw'
        have := hgw gu hgu
        push_cast
        omega
      · have hin := h.fresh _ _ hnc hgm
        have hle2 := entry_le_key (hmem _ hin)
        simp only at hle2
        have := hgw gu hgu
        right
        push_cast
        omega
    · right
      push_cast at hk ⊢
      omega

/-- Invariant during UCS relaxation of `current` (already closed), with
`ns` the unprocessed neighbors. -/
structure UcsMid (g : Grid) (s t current : Coord) (ns : List Coord)
    (st : UcsState) : Prop where
  tfresh : t ∉ st.visited_cells
  gs0 : dget st.g_score s = some 0
  gReach : ∀ v kv, dget st.g_score v = some kv → 0 ≤ kv ∧
    ReachN g s v kv.toNat
  openg : ∀ e ∈ st.open_set, ∃ kv, dget st.g_score e.2 = some kv ∧ kv ≤ e.1
  fresh : ∀ m kv, m ∉ st.visited_cells → dget st.g_score m = some kv →
    (kv, m) ∈ st.open_set
  gdefC : ∀ u ∈ st.visited_cells, ∃ gu, dget st.g_score u = some gu
  gOptC : ∀ u ∈ st.visited_cells, ∀ gu, dget st.g_score u = some gu →
    ∀ j : ℕ, ReachN g s u j → gu ≤ (j : ℤ)
  closureOld : ∀ u ∈ st.visited_cells, u ≠ current →
    ∀ m ∈ get_neighbors g u,
    ∃ gm gu, dget st.g_score m = some gm ∧ dget st.g_score u = some gu ∧
      gm ≤ gu + 1
  closureCur : ∀ m ∈ get_neighbors g current, m ∈ ns ∨
    ∃ gm gc, dget st.g_score m = some gm ∧
      dget st.g_score current = some gc ∧ gm ≤ gc + 1
  spineAll : ∀ v kv, dget st.g_score v = some kv →
    Spine g s st.came_from v kv.toNat ∧ kv.toNat ≤ st.came_from.length
  cfvalsC : ∀ v p, dget st.came_from v = some p → p ∈ st.visited_cells
  curC : current ∈ st.visited_cells

/-- Skipping a closed neighbor preserves the UCS mid-invariant: its
`g_score` is already optimal, hence within one step of `current`'s. -/
theorem ucsMid_skip_closed {g : Grid} {s t current n : Coord}
    {ns : List Coord} {st : UcsState}
    (h : UcsMid g s t current (n :: ns) st) (hv : n ∈ st.visited_cells)
    (hn : n ∈ get_neighbors g current) : UcsMid g s t current ns st := by
  refine ⟨h.tfresh, h.gs0, h.gReach, h.openg, h.fresh, h.gdefC, h.gOptC,
    h.closureOld, ?_, h.spineAll, h.cfvalsC, h.curC⟩
  intro m hm
  rcases h.closureCur m hm with hin | hdone
  · rcases List.mem_cons.mp hin with rfl | hin'
    · obtain ⟨gm, hgm⟩ := h.gdefC m hv
      obtain ⟨gc, hgc⟩ := h.gdefC current h.curC
      have hreach : ReachN g s m (gc.toNat + 1) :=
        ReachN.step (h.gReach current gc hgc).2 hn
      have hopt := h.gOptC m hv gm hgm _ hreach
      have hgc0 : 0 ≤ gc := (h.gReach current gc hgc).1
      refine Or.inr ⟨gm, gc, hgm, hgc, ?_⟩
      push_cast at hopt
      omega
    · exact Or.inl hin'
  · exact Or.inr hdone

/-- A non-improving relaxation preserves the UCS mid-invariant. -/
theorem ucsMid_noimp {g : Grid} {s t current n : Coord} {ns : List Coord}
    {st : UcsState} {gc gn : ℤ}
    (h : UcsMid g s t current (n :: ns) st)
    (hgc : dget st.g_score current = some gc)
    (hgn : dget st.g_score n = some gn) (hni : ¬ gc + 1 < gn) :
    UcsMid g s t current ns st := by
  refine ⟨h.tfresh, h.gs0, h.gReach, h.openg, h.fresh, h.gdefC, h.gOptC,
    h.closureOld, ?_, h.spineAll, h.cfvalsC, h.curC⟩
  intro m hm
  rcases h.closureCur m hm with hin | hdone
  · rcases List.mem_cons.mp hin with rfl | hin'
    · exact Or.inr ⟨gn, gc, hgn, hgc, by omega⟩
    · exact Or.inl hin'
  · exact Or.inr hdone

/-- An improving relaxation (better or first-time `g_score`, predecessor
update, fresh heap push) preserves the UCS mid-invariant. -/
theorem ucsMid_update {g : Grid} {s t current n : Coord} {ns : List Coord}
    {st : UcsState} {gc : ℤ}
    (h : UcsMid g s t current (n :: ns) st)
    (hfresh : n ∉ st.visited_cells) (hn : n ∈ get_neighbors g current)
    (hgc : dget st.g_score current = some gc)
    (himp : dget st.g_score n = none ∨
      (∃ gn, dget st.g_score n = some gn ∧ gc + 1 < gn)) :
    UcsMid g s t current ns
      { st with
        came_from := (n, current) :: st.came_from
        g_score := (n, gc + 1) :: st.g_score
        open_set := st.open_set ++ [(gc + 1, n)]
        nodes_explored := st.nodes_explored + 1
        adds := st.adds ++ [n] } := by
  have hgc0 : 0 ≤ gc := (h.gReach current gc hgc).1
  have hns : n ≠ s := by
    rintro rfl
    rcases himp with hnone | ⟨gn, hgn, hlt⟩
    · rw [h.gs0] at hnone
      cases hnone
    · rw [h.gs0] at hgn
      cases hgn
      omega
  have hcurn : current ≠ n := fun he => hfresh (he ▸ h.curC)
  have hdgg : ∀ v, v ≠ n →
      dget ((n, gc + 1) :: st.g_score) v = dget st.g_score v := by
    intro v hv
    rw [dget_cons, if_neg (fun he => hv he.symm)]
  have hdcf : ∀ v, v ≠ n →
      dget ((n, current) :: st.came_from) v = dget st.came_from v := by
    intro v hv
    rw [dget_cons, if_neg (fun he => hv he.symm)]
  have hreachn : ReachN g s n (gc.toNat + 1) :=
    ReachN.step (h.gReach current gc hgc).2 hn
  have htn : (gc + 1).toNat = gc.toNat + 1 := by omega
  refine ⟨h.tfresh, ?_, ?_, ?_, ?_, ?_, ?_, ?_, ?_, ?_, ?_, h.curC⟩
  · rw [hdgg s (Ne.symm hns)]
    exact h.gs0
  · intro v kv hv
    rw [dget_cons] at hv
    by_cases hnv : n = v
    · rw [if_pos hnv] at hv
      cases hv
      subst hnv
      exact ⟨by omega, by rw [htn]; exact hreachn⟩
    · rw [if_neg hnv] at hv
      exact h.gReach v kv hv
  · intro e he
    rcases List.mem_append.mp he with he' | he'
    · obtain ⟨kv, hkv, hle⟩ := h.openg e he'
      by_cases hen : e.2 = n
      · rw [hen] at hkv ⊢
        rcases himp with hnone | ⟨gn, hgn, hlt⟩
        · rw [hnone] at hkv
          cases hkv
        · rw [hgn] at hkv
          cases hkv
          exact ⟨gc + 1, by rw [dget_cons, if_pos rfl], by omega⟩
      · exact ⟨kv, by rw [hdgg _ hen]; exact hkv, hle⟩
    · simp only [List.mem_singleton] at he'
      subst he'
      exact ⟨gc + 1, by rw [dget_cons, if_pos rfl], le_refl _⟩
  · intro m kv hm hkv
    rw [dget_cons] at hkv
    by_cases hnm : n = m
    · rw [if_pos hnm] at hkv
      cases hkv
      subst hnm
      exact List.mem_append_right _ (List.mem_singleton.mpr rfl)
    · rw [if_neg hnm] at hkv
      exact List.mem_append_left _ (h.fresh m kv hm hkv)
  · intro u hu
    obtain ⟨gu, hgu⟩ := h.gdefC u hu
    exact ⟨gu, by rw [hdgg u (fun he => hfresh (he ▸ hu))]; exact hgu⟩
  · intro u hu gu hgu j hj
    rw [hdgg u (fun he => hfresh (he ▸ hu))] at hgu
    exact h.gOptC u hu gu hgu j hj
  · intro u hu huc m hm
    obtain ⟨gm, gu, h1, h2, h3⟩ := h.closureOld u hu huc m hm
    have hun : u ≠ n := fun he => hfresh (he ▸ hu)
    by_cases hmn : m = n
    · subst hmn
      rcases himp with hnone | ⟨gn, hgn, hlt⟩
      · rw [hnone] at h1
        cases h1
      · rw [hgn] at h1
        cases h1
        exact ⟨gc + 1, gu, by rw [dget_cons, if_pos rfl],
          by rw [hdgg u hun]; exact h2, by omega⟩
    · exact ⟨gm, gu, by rw [hdgg m hmn]; exact h1,
        by rw [hdgg u hun]; exact h2, h3⟩
  · intro m hm
    rcases h.closureCur m hm with hin | ⟨gm, gc2, h1, h2, h3⟩
    · rcases List.mem_cons.mp hin with rfl | hin'
      · exact Or.inr ⟨gc + 1, gc, by rw [dget_cons, if_pos rfl],
          by rw [hdgg current hcurn]; exact hgc, by omega⟩
      · exact Or.inl hin'
    · rw [hgc] at h2
      cases h2
      by_cases hmn : m = n
      · subst hmn
        exact Or.inr ⟨gc + 1, gc, by rw [dget_cons, if_pos rfl],
          by rw [hdgg current hcurn]; exact hgc, by omega⟩
      · exact Or.inr ⟨gm, gc, by rw [hdgg m hmn]; exact h1,
          by rw [hdgg current hcurn]; exact hgc, h3⟩
  · intro v kv hv
    rw [dget_cons] at hv
    by_cases hnv : n = v
    · rw [if_pos hnv] at hv
      cases hv
      subst hnv
      obtain ⟨spc, bc⟩ := h.spineAll current gc hgc
      have spc' : Spine g s ((n, current) :: st.came_from) current gc.toNat :=
        spine_cons_vals h.cfvalsC hfresh hns current gc.toNat spc hcurn
      refine ⟨?_, ?_⟩
      · rw [htn]
        exact Spine.step (by rw [dget_cons, if_pos rfl]) hn spc'
      · simp only [List.length_cons]
        omega
    · rw [if_neg hnv] at hv
      obtain ⟨sp, b⟩ := h.spineAll v kv hv
      refine ⟨spine_cons_vals h.cfvalsC hfresh hns v kv.toNat sp
        (fun he => hnv he.symm), ?_⟩
      simp only [List.length_cons]
      omega
  · intro v p hv
    rw [dget_cons] at hv
    by_cases hnv : n = v
    · rw [if_pos hnv] at hv
      cases hv
      exact h.curC
    · rw [if_neg hnv] at hv
      exact h.cfvalsC v p hv

/-- The UCS relaxation fold preserves the mid-invariant. -/
theorem ucs_expand_mid {g : Grid} {s t current : Coord} :
    ∀ (ns : List Coord), (∀ n ∈ ns, n ∈ get_neighbors g current) →
    ∀ (st : UcsState), UcsMid g s t current ns st →
    UcsMid g s t current [] (ucs_expand current st ns) := by
  intro ns
  induction ns with
  | nil => intro _ st h; simpa [ucs_expand] using h
  | cons n rest ih =>
    intro hns st h
    have hsub : ∀ x ∈ rest, x ∈ get_neighbors g current :=
      fun x hx => hns x (List.mem_cons_of_mem _ hx)
    have hnn : n ∈ get_neighbors g current := hns n (List.mem_cons_self _ _)
    rw [ucs_expand]
    by_cases hv : n ∈ st.visited_cells
    · simp only [if_pos hv]
      exact ih hsub st (ucsMid_skip_closed h hv hnn)
    · simp only [if_neg hv]
      obtain ⟨gc, hgc⟩ := h.gdefC current h.curC
      cases hgn : dget st.g_score n with
      | none =>
        simp only [hgn, hgc, Option.getD_some, if_true]
        exact ih hsub _ (ucsMid_update h hv hnn hgc (Or.inl hgn))
      | some gn =>
        by_cases himp : gc + 1 < gn
        · simp only [hgn, hgc, Option.getD_some, decide_eq_true himp,
            if_true]
          exact ih hsub _
            (ucsMid_update h hv hnn hgc (Or.inr ⟨gn, hgn, himp⟩))
        · simp only [hgn, hgc, Option.getD_some,
            decide_eq_false himp, Bool.false_eq_true, if_false]
          exact ih hsub st (ucsMid_noimp h hgc hgn himp)

/-- Accepting a fresh pop establishes the UCS mid-invariant with the full
neighbor list pending. -/
theorem ucs_accept_mid {g : Grid} {s t current : Coord} {k : ℤ}
    {restHeap : List HeapEntry} {st : UcsState} (h : UcsInv g s t st)
    (hpop : heap_pop st.open_set = some ((k, current), restHeap))
    (hfresh : current ∉ st.visited_cells) (hgt : current ≠ t) :
    UcsMid g s t current (get_neighbors g current)
      { st with
        open_set := restHeap
        visited_cells := insert current st.visited_cells
        nodes_visited := st.nodes_visited + 1
        pops := st.pops ++ [current] } := by
  obtain ⟨hm, herase⟩ := heap_pop_some hpop
  have hmem := heap_min_le hm
  have hkmem := heap_min_mem hm
  obtain ⟨gc, hgc, hgck⟩ := h.openg _ hkmem
  have hopt : ∀ j : ℕ, ReachN g s current j → gc ≤ (j : ℤ) := by
    intro j hj
    rcases ucs_min_below h hmem j current hj with ⟨hin, _⟩ | hk
    · exact absurd hin hfresh
    · omega
  subst herase
  refine ⟨?_, h.gs0, h.gReach, ?_, ?_, ?_, ?_, ?_, ?_, h.spineAll, ?_,
    Finset.mem_insert_self _ _⟩
  · simp only [Finset.mem_insert]
    rintro (he | he)
    · exact hgt he.symm
    · exact h.tfresh he
  · intro e he
    exact h.openg e (List.mem_of_mem_erase he)
  · intro m kv hm' hkv
    simp only [Finset.mem_insert, not_or] at hm'
    refine (List.mem_erase_of_ne ?_).mpr (h.fresh m kv hm'.2 hkv)
    intro he
    exact hm'.1 (congrArg Prod.snd he)
  · intro u hu
    rcases Finset.mem_insert.mp hu with rfl | hin
    · exact ⟨gc, hgc⟩
    · exact h.gdefC u hin
  · intro u hu gu hgu j hj
    rcases Finset.mem_insert.mp hu with rfl | hin
    · rw [hgc] at hgu
      cases hgu
      exact hopt j hj
    · exact h.gOptC u hin gu hgu j hj
  · intro u hu huc m hmm
    have hu' : u ∈ st.visited_cells := by
      rcases Finset.mem_insert.mp hu with rfl | hin
      · exact absurd rfl huc
      · exact hin
    exact h.closure u hu' m hmm
  · intro m hmm
    exact Or.inl hmm
  · intro v p hv
    exact Finset.mem_insert_of_mem (h.cfvalsC v p hv)

/-- A completed relaxation restores the main UCS invariant. -/
theorem ucsMid_to_inv {g : Grid} {s t current : Coord} {st : UcsState}
    (h : UcsMid g s t current [] st) : UcsInv g s t st := by
  refine ⟨h.tfresh, h.gs0, h.gReach, h.openg, h.fresh, h.gdefC, h.gOptC,
    ?_, h.spineAll, h.cfvalsC⟩
  intro u hu m hm
  by_cases hc : u = current
  · subst hc
    rcases h.closureCur m hm with hin | hdone
    · simp at hin
    · exact hdone
  · exact h.closureOld u hu hc m hm

/-- Correctness of a completed UCS run: a found path is a shortest
neighbor path; a no-path outcome means the goal is unreachable. -/
def UcsOutcomeOK (g : Grid) (s t : Coord) : RunRes UcsState → Prop
  | .found p _ => NPath g s t p ∧ ∀ j, ReachN g s t j → p.length ≤ j + 1
  | .noPath _ => ∀ j, ¬ ReachN g s t j
  | .out => True

/-- Main UCS loop lemma: the invariant yields a correct outcome. -/
theorem run_ucs_loop_ok (g : Grid) (s t : Coord) :
    ∀ fuel (st : UcsState), UcsInv g s t st →
    UcsOutcomeOK g s t (run_ucs_loop g t st fuel) := by
  intro fuel
  induction fuel with
  | zero => intro st _; simp [run_ucs_loop, UcsOutcomeOK]
  | succ fn ih =>
    intro st h
    rw [run_ucs_loop]
    cases hp : heap_pop st.open_set with
    | none =>
      have hempty := heap_pop_none hp
      simp only [UcsOutcomeOK]
      intro j hj
      have hall : ∀ (w : Coord) (i : ℕ), ReachN g s w i →
          w ∈ st.visited_cells := by
        intro w i hw
        induction hw with
        | refl =>
          by_cases hs : s ∈ st.visited_cells
          · exact hs
          · have := h.fresh s 0 hs h.gs0
            rw [hempty] at this
            simp at this
        | step hw2 hn2 ihw =>
          rename_i w' n' j'
          obtain ⟨gm, gu, h1, _, _⟩ := h.closure _ ihw _ hn2
          by_cases hnc : n' ∈ st.visited_cells
          · exact hnc
          · have := h.fresh _ _ hnc h1
            rw [hempty] at this
            simp at this
      exact h.tfresh (hall t j hj)
    | some pr =>
      obtain ⟨⟨k, current⟩, restHeap⟩ := pr
      by_cases hv : current ∈ st.visited_cells
      · simp only [if_pos hv]
        obtain ⟨hm, herase⟩ := heap_pop_some hp
        subst herase
        refine ih _ ⟨h.tfresh, h.gs0, h.gReach, ?_, ?_, h.gdefC, h.gOptC,
          h.closure, h.spineAll, h.cfvalsC⟩
        · intro e he
          exact h.openg e (List.mem_of_mem_erase he)
        · intro m kv hm' hkv
          refine (List.mem_erase_of_ne ?_).mpr (h.fresh m kv hm' hkv)
          intro he
          have hmc : m = current := congrArg Prod.snd he
          exact hm'
            (by
              rw [hmc]
              exact hv)
      · by_cases hg : current = t
        · simp only [if_neg hv, if_pos hg]
          simp only [UcsOutcomeOK]
          subst hg
          obtain ⟨hm, _⟩ := heap_pop_some hp
          have hmem := heap_min_le hm
          obtain ⟨gc, hgc, hgck⟩ := h.openg _ (heap_min_mem hm)
          obtain ⟨sp, hb⟩ := h.spineAll current gc hgc
          obtain ⟨hnp, hlen⟩ := spine_reconstruct sp hb
          refine ⟨hnp, ?_⟩
          intro j hj
          rcases ucs_min_below h hmem j current hj with ⟨hin, _⟩ | hk
          · exact absurd hin hv
          · have hgc0 := (h.gReach current gc hgc).1
            rw [hlen]
            omega
        · simp only [if_neg hv, if_neg hg]
          exact ih _ (ucsMid_to_inv (ucs_expand_mid _ (fun x hx => hx) _
            (ucs_accept_mid h hp hv hg)))

/-- If any valid path exists, `run_ucs` finds a shortest one. -/
theorem run_ucs_found_shortest (g : Grid) (s t : Coord) (p0 : List Coord)
    (hp : ValidPath g s t p0) :
    ∃ p st', run_ucs g s t = .found p st' ∧ ValidPath g s t p ∧
      ∀ q, ValidPath g s t q → p.length ≤ q.length := by
  have hreach : ReachN g s t (p0.length - 1) := validPath_reachN p0 t hp
  have hsmem : s ∈ p0 := by
    have := hp.1
    cases p0 with
    | nil => simp at this
    | cons a l =>
      simp at this
      rw [this]
      exact List.mem_cons_self _ _
  have hsprops := hp.2.2.1 s hsmem
  have hok : UcsOutcomeOK g s t (run_ucs g s t) :=
    run_ucs_loop_ok g s t (search_fuel g) (ucs_init s) (ucs_init_inv g s t)
  cases hres : run_ucs g s t with
  | found p st' =>
    rw [hres] at hok
    simp only [UcsOutcomeOK] at hok
    obtain ⟨hnp, hopt⟩ := hok
    refine ⟨p, st', rfl, npath_validPath hnp hsprops.1 hsprops.2, ?_⟩
    intro q hq
    have hq1 : 1 ≤ q.length := by
      have := hq.1
      cases q with
      | nil => simp at this
      | cons a l => simp
    have := hopt (q.length - 1) (validPath_reachN q t hq)
    omega
  | noPath st' =>
    rw [hres] at hok
    simp only [UcsOutcomeOK] at hok
    exact absurd hreach (hok _)
  | out => exact absurd hres (run_ucs_not_out g s t)

/-! ## A* on straight-line instances (C2) -/

/-- Lower-bound a sum of absolute values by checking one sign combination. -/
theorem le_abs_add_abs {c A B : ℤ}
    (h : c ≤ A + B ∨ c ≤ A - B ∨ c ≤ -A + B ∨ c ≤ -A - B) :
    c ≤ |A| + |B| := by
  have h1 := le_abs_self A
  have h2 := le_abs_self B
  have h3 := neg_abs_le A
  have h4 := neg_abs_le B
  rcases h with h | h | h | h <;> omega

/-- Successive line cells differ by exactly the direction offset. -/
theorem lineCell_succ (s d : Coord) (i : ℕ) :
    lineCell s d (i + 1) =
      ((lineCell s d i).1 + d.1, (lineCell s d i).2 + d.2) := by
  simp only [lineCell, Prod.mk.injEq]
  constructor <;> push_cast <;> ring

/-- Geometric split for the A* march: an unclosed neighbor of the `i`-th
line cell is either the next line cell, or lies off the line with Manhattan
distance to the goal at least `M - i + 1`. -/
theorem line_neighbor_split {s d : Coord} {M i : ℕ}
    (hd : d ∈ directions) (hiM : i < M) {n : Coord}
    (hn : heuristic (lineCell s d i) n = 1)
    (hnc : ∀ j, j < i + 1 → n ≠ lineCell s d j) :
    n = lineCell s d (i + 1) ∨
      ((∀ j, j ≤ M → n ≠ lineCell s d j) ∧
        (M : ℤ) - i + 1 ≤ heuristic n (lineCell s d M)) := by
  have hcand := (heuristic_eq_one_iff _ _).mp hn
  simp only [directions, List.mem_cons, List.not_mem_nil, or_false] at hd
  rcases hd with rfl | rfl | rfl | rfl <;>
    simp only [lineCell] at hcand hnc ⊢ <;>
    rcases hcand with hc | hc | hc | hc
  -- d = (-1, 0): candidates up (forward), right, down (backward), left
  · left
    rw [hc]
    simp only [Prod.mk.injEq]
    constructor <;> push_cast <;> ring
  · right
    constructor
    · intro j _ he
      rw [hc] at he
      simp only [Prod.mk.injEq] at he
      omega
    · rw [hc]
      simp only [heuristic]
      apply le_abs_add_abs
      omega
  · by_cases hi0 : i = 0
    · subst hi0
      right
      constructor
      · intro j _ he
        rw [hc] at he
        simp only [Prod.mk.injEq] at he
        omega
      · rw [hc]
        simp only [heuristic]
        apply le_abs_add_abs
        omega
    · exfalso
      refine hnc (i - 1) (by omega) ?_
      rw [hc]
      simp only [Prod.mk.injEq]
      have hci : ((i - 1 : ℕ) : ℤ) = (i : ℤ) - 1 := by omega
      rw [hci]
      constructor <;> ring
  · right
    constructor
    · intro j _ he
      rw [hc] at he
      simp only [Prod.mk.injEq] at he
      omega
    · rw [hc]
      simp only [heuristic]
      apply le_abs_add_abs
      omega
  -- d = (0, 1): candidates up, right (forward), down, left (backward)
  · right
    constructor
    · intro j _ he
      rw [hc] at he
      simp only [Prod.mk.injEq] at he
      omega
    · rw [hc]
      simp only [heuristic]
      apply le_abs_add_abs
      omega
  · left
    rw [hc]
    simp only [Prod.mk.injEq]
    constructor <;> push_cast <;> ring
  · right
    constructor
    · intro j _ he
      rw [hc] at he
      simp only [Prod.mk.injEq] at he
      omega
    · rw [hc]
      simp only [heuristic]
      apply le_abs_add_abs
      omega
  · by_cases hi0 : i = 0
    · subst hi0
      right
      constructor
      · intro j _ he
        rw [hc] at he
        simp only [Prod.mk.injEq] at he
        omega
      · rw [hc]
        simp only [heuristic]
        apply le_abs_add_abs
        omega
    · exfalso
      refine hnc (i - 1) (by omega) ?_
      rw [hc]
      simp only [Prod.mk.injEq]
      have hci : ((i - 1 : ℕ) : ℤ) = (i : ℤ) - 1 := by omega
      rw [hci]
      constructor <;> ring
  -- d = (1, 0): candidates up (backward), right, down (forward), left
  · by_cases hi0 : i = 0
    · subst hi0
      right
      constructor
      · intro j _ he
        rw [hc] at he
        simp only [Prod.mk.injEq] at he
        omega
      · rw [hc]
        simp only [heuristic]
        apply le_abs_add_abs
        omega
    · exfalso
      refine hnc (i - 1) (by omega) ?_
      rw [hc]
      simp only [Prod.mk.injEq]
      have hci : ((i - 1 : ℕ) : ℤ) = (i : ℤ) - 1 := by omega
      rw [hci]
      constructor <;> ring
  · right
    constructor
    · intro j _ he
      rw [hc] at he
      simp only [Prod.mk.injEq] at he
      omega
    · rw [hc]
      simp only [heuristic]
      apply le_abs_add_abs
      omega
  · left
    rw [hc]
    simp only [Prod.mk.injEq]
    constructor <;> push_cast <;> ring
  · right
    constructor
    · intro j _ he
      rw [hc] at he
      simp only [Prod.mk.injEq] at he
      omega
    · rw [hc]
      simp only [heuristic]
      apply le_abs_add_abs
      omega
  -- d = (0, -1): candidates up, right (backward), down, left (forward)
  · right
    constructor
    · intro j _ he
      rw [hc] at he
      simp only [Prod.mk.injEq] at he
      omega
    · rw [hc]
      simp only [heuristic]
      apply le_abs_add_abs
      omega
  · by_cases hi0 : i = 0
    · subst hi0
      right
      constructor
      · intro j _ he
        rw [hc] at he
        simp only [Prod.mk.injEq] at he
        omega
      · rw [hc]
        simp only [heuristic]
        apply le_abs_add_abs
        omega
    · exfalso
      refine hnc (i - 1) (by omega) ?_
      rw [hc]
      simp only [Prod.mk.injEq]
      have hci : ((i - 1 : ℕ) : ℤ) = (i : ℤ) - 1 := by omega
      rw [hci]
      constructor <;> ring
  · right
    constructor
    · intro j _ he
      rw [hc] at he
      simp only [Prod.mk.injEq] at he
      omega
    · rw [hc]
      simp only [heuristic]
      apply le_abs_add_abs
      omega
  · left
    rw [hc]
    simp only [Prod.mk.injEq]
    constructor <;> push_cast <;> ring

/-- Loop invariant of the A* march on a straight-line instance, on entry
to the iteration that will pop the `i`-th line cell: the heap holds one
line entry with key at most `M`, and apart from that one occurrence only
off-line entries with keys at least `M + 2`; `g_score` and `came_from` are
exact on the line prefix; the closed set is exactly the strict prefix. -/
structure AInv (g : Grid) (s d : Coord) (M i : ℕ) (st : AstarState) :
    Prop where
  openLine : ∃ k : ℤ, k ≤ (M : ℤ) ∧ (k, lineCell s d i) ∈ st.open_set ∧
    ∀ e ∈ st.open_set.erase (k, lineCell s d i),
      (M : ℤ) + 2 ≤ e.1 ∧ ∀ j, j ≤ M → e.2 ≠ lineCell s d j
  gval : dget st.g_score (lineCell s d i) = some (i : ℤ)
  gfresh : ∀ j, i < j → j ≤ M → dget st.g_score (lineCell s d j) = none
  closedIff : ∀ v, v ∈ st.closed_set ↔ ∃ j, j < i ∧ v = lineCell s d j
  parent : ∀ j, 1 ≤ j → j ≤ i →
    dget st.came_from (lineCell s d j) = some (lineCell s d (j - 1))
  sroot : dget st.came_from s = none
  cfLen : i ≤ st.came_from.length

/-- Mid-expansion invariant of the A* march while relaxing the neighbors
of the `i`-th line cell (already closed); `fl` records whether the next
line cell has been discovered and pushed yet. -/
structure AMid (g : Grid) (s d : Coord) (M i : ℕ) (fl : Bool)
    (ns : List Coord) (st : AstarState) : Prop where
  openOthF : fl = false → ∀ e ∈ st.open_set,
    (M : ℤ) + 2 ≤ e.1 ∧ ∀ j, j ≤ M → e.2 ≠ lineCell s d j
  openOthT : fl = true →
    ∀ e ∈ st.open_set.erase ((M : ℤ), lineCell s d (i + 1)),
      (M : ℤ) + 2 ≤ e.1 ∧ ∀ j, j ≤ M → e.2 ≠ lineCell s d j
  openFl : fl = true → ((M : ℤ), lineCell s d (i + 1)) ∈ st.open_set
  gval : dget st.g_score (lineCell s d i) = some (i : ℤ)
  gnext : dget st.g_score (lineCell s d (i + 1)) =
    (if fl then some ((i : ℤ) + 1) else none)
  gfresh : ∀ j, i + 1 < j → j ≤ M → dget st.g_score (lineCell s d j) = none
  closedIff : ∀ v, v ∈ st.closed_set ↔ ∃ j, j < i + 1 ∧ v = lineCell s d j
  parent : ∀ j, 1 ≤ j → j ≤ i →
    dget st.came_from (lineCell s d j) = some (lineCell s d (j - 1))
  parentNext : fl = true →
    dget st.came_from (lineCell s d (i + 1)) = some (lineCell s d i)
  sroot : dget st.came_from s = none
  cfLen : (if fl then i + 1 else i) ≤ st.came_from.length
  pend : fl = false → lineCell s d (i + 1) ∈ ns

/-- Relaxing the forward line neighbor (not yet discovered) pushes the
`(M, next line cell)` entry and sets the flag. -/
theorem amid_fwd_push {g : Grid} {s d : Coord} {M i : ℕ} {ns : List Coord}
    {st : AstarState} (hd : d ∈ directions) (hiM : i < M)
    (h : AMid g s d M i false (lineCell s d (i + 1) :: ns) st) :
    AMid g s d M i true ns
      { st with
        came_from := (lineCell s d (i + 1), lineCell s d i) :: st.came_from
        g_score := (lineCell s d (i + 1), (i : ℤ) + 1) :: st.g_score
        f_score := (lineCell s d (i + 1),
          (i : ℤ) + 1 + heuristic (lineCell s d (i + 1)) (lineCell s d M)) ::
            st.f_score
        open_set := st.open_set ++
          [((i : ℤ) + 1 + heuristic (lineCell s d (i + 1)) (lineCell s d M),
            lineCell s d (i + 1))]
        nodes_explored := st.nodes_explored + 1
        adds := st.adds ++ [lineCell s d (i + 1)] } := by
  have hfn : (i : ℤ) + 1 + heuristic (lineCell s d (i + 1)) (lineCell s d M) =
      (M : ℤ) := by
    rw [heuristic_lineCell hd]
    push_cast
    rw [abs_of_nonpos (by omega)]
    ring
  have hinj : ∀ {a b : ℕ}, lineCell s d a = lineCell s d b → a = b :=
    fun h => lineCell_inj hd h
  have hdg : ∀ v, v ≠ lineCell s d (i + 1) →
      dget ((lineCell s d (i + 1), (i : ℤ) + 1) :: st.g_score) v =
        dget st.g_score v := by
    intro v hv
    rw [dget_cons, if_neg (fun he => hv he.symm)]
  have hdc : ∀ v, v ≠ lineCell s d (i + 1) →
      dget ((lineCell s d (i + 1), lineCell s d i) :: st.came_from) v =
        dget st.came_from v := by
    intro v hv
    rw [dget_cons, if_neg (fun he => hv he.symm)]
  refine ⟨?_, ?_, ?_, ?_, ?_, ?_, h.closedIff, ?_, ?_, ?_, ?_, ?_⟩
  · intro hff
    cases hff
  · intro _
    rw [hfn]
    have hnot : ((M : ℤ), lineCell s d (i + 1)) ∉ st.open_set := by
      intro hmem
      exact (h.openOthF rfl _ hmem).2 (i + 1) (by omega) rfl
    rw [List.erase_append_right _ hnot, List.erase_cons_head]
    intro e he
    rw [List.append_nil] at he
    exact h.openOthF rfl e he
  · intro _
    rw [← hfn]
    exact List.mem_append_right _ (List.mem_singleton.mpr rfl)
  · rw [hdg _ (fun he => by have := hinj he; omega)]
    exact h.gval
  · rw [dget_cons, if_pos rfl]
    simp
  · intro j hj1 hj2
    rw [hdg _ (fun he => by have := hinj he.symm; omega)]
    exact h.gfresh j (by omega) hj2
  · intro j hj1 hj2
    rw [hdc _ (fun he => by have := hinj he.symm; omega)]
    exact h.parent j hj1 hj2
  · intro _
    rw [dget_cons, if_pos rfl]
  · rw [hdc s (fun he => by
      have he2 : lineCell s d 0 = lineCell s d (i + 1) := by
        rw [lineCell_zero]
        exact he
      have := hinj he2
      omega)]
    exact h.sroot
  · rw [if_pos rfl]
    simp only [List.length_cons]
    have := h.cfLen
    rw [if_neg Bool.false_ne_true] at this
    omega
  · intro hff
    cases hff

/-- A neighbor producing no state change preserves the A* mid-invariant. -/
theorem amid_skip {g : Grid} {s d : Coord} {M i : ℕ} {fl : Bool}
    {n : Coord} {ns : List Coord} {st : AstarState}
    (h : AMid g s d M i fl (n :: ns) st)
    (hnn : n ≠ lineCell s d (i + 1) ∨ fl = true) :
    AMid g s d M i fl ns st := by
  refine ⟨h.openOthF, h.openOthT, h.openFl, h.gval, h.gnext, h.gfresh,
    h.closedIff, h.parent, h.parentNext, h.sroot, h.cfLen, ?_⟩
  intro hff
  rcases List.mem_cons.mp (h.pend hff) with he | he
  · rcases hnn with hne | hfl
    · exact absurd he.symm hne
    · rw [hff] at hfl
      cases hfl
  · exact he

/-- An improving relaxation of an off-line neighbor that is pushed keeps
the A* mid-invariant: the fresh entry has key at least `M + 2`. -/
theorem amid_off_push {g : Grid} {s d : Coord} {M i : ℕ} {fl : Bool}
    {n : Coord} {ns : List Coord} {st : AstarState} (hiM : i < M)
    (h : AMid g s d M i fl (n :: ns) st)
    (hoff : ∀ j, j ≤ M → n ≠ lineCell s d j)
    (hheu : (M : ℤ) - i + 1 ≤ heuristic n (lineCell s d M)) :
    AMid g s d M i fl ns
      { st with
        came_from := (n, lineCell s d i) :: st.came_from
        g_score := (n, (i : ℤ) + 1) :: st.g_score
        f_score := (n, (i : ℤ) + 1 + heuristic n (lineCell s d M)) ::
          st.f_score
        open_set := st.open_set ++
          [((i : ℤ) + 1 + heuristic n (lineCell s d M), n)]
        nodes_explored := st.nodes_explored + 1
        adds := st.adds ++ [n] } := by
  have hdg : ∀ v, v ≠ n →
      dget ((n, (i : ℤ) + 1) :: st.g_score) v = dget st.g_score v := by
    intro v hv
    rw [dget_cons, if_neg (fun he => hv he.symm)]
  have hdc : ∀ v, v ≠ n →
      dget ((n, lineCell s d i) :: st.came_from) v = dget st.came_from v := by
    intro v hv
    rw [dget_cons, if_neg (fun he => hv he.symm)]
  have hynew : (M : ℤ) + 2 ≤ (i : ℤ) + 1 + heuristic n (lineCell s d M) ∧
      ∀ j, j ≤ M → n ≠ lineCell s d j := ⟨by omega, hoff⟩
  refine ⟨?_, ?_, ?_, ?_, ?_, ?_, h.closedIff, ?_, ?_, ?_, ?_, ?_⟩
  · intro hff e he
    rcases List.mem_append.mp he with he' | he'
    · exact h.openOthF hff e he'
    · simp only [List.mem_singleton] at he'
      subst he'
      exact hynew
  · intro hft e he
    rw [List.erase_append_left _ (h.openFl hft)] at he
    rcases List.mem_append.mp he with he' | he'
    · exact h.openOthT hft e he'
    · simp only [List.mem_singleton] at he'
      subst he'
      exact hynew
  · intro hft
    exact List.mem_append_left _ (h.openFl hft)
  · rw [hdg _ (Ne.symm (hoff i (by omega)))]
    exact h.gval
  · rw [hdg _ (Ne.symm (hoff (i + 1) (by omega)))]
    exact h.gnext
  · intro j hj1 hj2
    rw [hdg _ (Ne.symm (hoff j hj2))]
    exact h.gfresh j hj1 hj2
  · intro j hj1 hj2
    rw [hdc _ (Ne.symm (hoff j (by omega)))]
    exact h.parent j hj1 hj2
  · intro hfl
    rw [hdc _ (Ne.symm (hoff (i + 1) (by omega)))]
    exact h.parentNext hfl
  · rw [hdc s (Ne.symm (fun he => hoff 0 (by omega) (by
      rw [lineCell_zero]
      exact he)))]
    exact h.sroot
  · simp only [List.length_cons]
    have := h.cfLen
    cases fl <;> simp only [if_true, if_neg Bool.false_ne_true] at this ⊢ <;>
      omega
  · intro hff
    rcases List.mem_cons.mp (h.pend hff) with he | he
    · exact absurd he.symm (hoff (i + 1) (by omega))
    · exact he

/-- An improving relaxation of an off-line neighbor that is already on the
open list (no push, `improves` recorded) keeps the A* mid-invariant. -/
theorem amid_off_imp {g : Grid} {s d : Coord} {M i : ℕ} {fl : Bool}
    {n : Coord} {ns : List Coord} {st : AstarState} (hiM : i < M)
    (h : AMid g s d M i fl (n :: ns) st)
    (hoff : ∀ j, j ≤ M → n ≠ lineCell s d j) :
    AMid g s d M i fl ns
      { st with
        came_from := (n, lineCell s d i) :: st.came_from
        g_score := (n, (i : ℤ) + 1) :: st.g_score
        f_score := (n, (i : ℤ) + 1 + heuristic n (lineCell s d M)) ::
          st.f_score
        improves := st.improves ++ [n] } := by
  have hdg : ∀ v, v ≠ n →
      dget ((n, (i : ℤ) + 1) :: st.g_score) v = dget st.g_score v := by
    intro v hv
    rw [dget_cons, if_neg (fun he => hv he.symm)]
  have hdc : ∀ v, v ≠ n →
      dget ((n, lineCell s d i) :: st.came_from) v = dget st.came_from v := by
    intro v hv
    rw [dget_cons, if_neg (fun he => hv he.symm)]
  refine ⟨h.openOthF, h.openOthT, h.openFl, ?_, ?_, ?_, h.closedIff, ?_, ?_,
    ?_, ?_, ?_⟩
  · rw [hdg _ (Ne.symm (hoff i (by omega)))]
    exact h.gval
  · rw [hdg _ (Ne.symm (hoff (i + 1) (by omega)))]
    exact h.gnext
  · intro j hj1 hj2
    rw [hdg _ (Ne.symm (hoff j hj2))]
    exact h.gfresh j hj1 hj2
  · intro j hj1 hj2
    rw [hdc _ (Ne.symm (hoff j (by omega)))]
    exact h.parent j hj1 hj2
  · intro hfl
    rw [hdc _ (Ne.symm (hoff (i + 1) (by omega)))]
    exact h.parentNext hfl
  · rw [hdc s (Ne.symm (fun he => hoff 0 (by omega) (by
      rw [lineCell_zero]
      exact he)))]
    exact h.sroot
  · simp only [List.length_cons]
    have := h.cfLen
    cases fl <;> simp only [if_true, if_neg Bool.false_ne_true] at this ⊢ <;>
      omega
  · intro hff
    rcases List.mem_cons.mp (h.pend hff) with he | he
    · exact absurd he.symm (hoff (i + 1) (by omega))
    · exact he

/-- The A* relaxation fold from the `i`-th line cell completes the march
step: afterwards the next line cell is discovered, pushed with key `M`,
and apart from that entry the heap holds only off-line entries with keys
at least `M + 2`. -/
theorem astar_expand_march {g : Grid} {s d : Coord} {M i : ℕ}
    (hd : d ∈ directions) (hiM : i < M) :
    ∀ (ns : List Coord) (fl : Bool) (st : AstarState),
    (∀ n ∈ ns, n ∈ get_neighbors g (lineCell s d i)) →
    AMid g s d M i fl ns st →
    AMid g s d M i true []
      (astar_expand g (lineCell s d M) (lineCell s d i) st ns) := by
  intro ns
  induction ns with
  | nil =>
    intro fl st _ h
    cases fl with
    | false => exact absurd (h.pend rfl) (List.not_mem_nil _)
    | true => simpa [astar_expand] using h
  | cons n rest ih =>
    intro fl st hns h
    have hnn := hns n (List.mem_cons_self _ _)
    have hsub : ∀ x ∈ rest, x ∈ get_neighbors g (lineCell s d i) :=
      fun x hx => hns x (List.mem_cons_of_mem _ hx)
    rw [astar_expand]
    by_cases hcl : n ∈ st.closed_set
    · simp only [if_pos hcl]
      refine ih fl st hsub (amid_skip h (Or.inl ?_))
      intro he
      obtain ⟨j, hj, he2⟩ := (h.closedIff n).mp hcl
      rw [he] at he2
      have := lineCell_inj hd he2
      omega
    · simp only [if_neg hcl]
      have hn1 : heuristic (lineCell s d i) n = 1 :=
        ((mem_get_neighbors g _ n).mp hnn).1
      have hnc : ∀ j, j < i + 1 → n ≠ lineCell s d j := by
        intro j hj he
        exact hcl ((h.closedIff n).mpr ⟨j, hj, he⟩)
      rcases line_neighbor_split hd hiM hn1 hnc with hfwd | ⟨hoff, hheu⟩
      · subst hfwd
        cases fl with
        | true =>
          have hg := h.gnext
          rw [if_pos rfl] at hg
          simp only [h.gval, hg, Option.getD_some]
          have hdec : decide ((i : ℤ) + 1 < (i : ℤ) + 1) = false :=
            decide_eq_false (by omega)
          simp only [hdec, Bool.false_eq_true, if_false]
          exact ih true st hsub (amid_skip h (Or.inr rfl))
        | false =>
          have hg := h.gnext
          rw [if_neg Bool.false_ne_true] at hg
          simp only [h.gval, hg, Option.getD_some, if_true]
          have hnotin :
              ¬ lineCell s d (i + 1) ∈ st.open_set.map (fun e => e.2) := by
            intro hm
            simp only [List.mem_map] at hm
            obtain ⟨e, he, he2⟩ := hm
            exact (h.openOthF rfl e he).2 (i + 1) (by omega) he2
          simp only [if_neg hnotin]
          exact ih true _ hsub (amid_fwd_push hd hiM h)
      · cases hgn : dget st.g_score n with
        | none =>
          simp only [h.gval, hgn, Option.getD_some, if_true]
          by_cases hio : n ∈ st.open_set.map (fun e => e.2)
          · simp only [if_pos hio]
            exact ih fl _ hsub (amid_off_imp hiM h hoff)
          · simp only [if_neg hio]
            exact ih fl _ hsub (amid_off_push hiM h hoff hheu)
        | some gn =>
          by_cases himp : (i : ℤ) + 1 < gn
          · simp only [h.gval, hgn, Option.getD_some, decide_eq_true himp,
              if_true]
            by_cases hio : n ∈ st.open_set.map (fun e => e.2)
            · simp only [if_pos hio]
              exact ih fl _ hsub (amid_off_imp hiM h hoff)
            · simp only [if_neg hio]
              exact ih fl _ hsub (amid_off_push hiM h hoff hheu)
          · simp only [h.gval, hgn, Option.getD_some,
              decide_eq_false himp, Bool.false_eq_true, if_false]
            exact ih fl st hsub
              (amid_skip h (Or.inl (fun he => hoff (i + 1) (by omega) he)))

/-- The heap of a march state pops exactly the line entry. -/
theorem ainv_pop {g : Grid} {s d : Coord} {M i : ℕ} {st : AstarState}
    (h : AInv g s d M i st) :
    ∃ k : ℤ, k ≤ (M : ℤ) ∧
      heap_pop st.open_set =
        some ((k, lineCell s d i), st.open_set.erase (k, lineCell s d i)) ∧
      ∀ e ∈ st.open_set.erase (k, lineCell s d i),
        (M : ℤ) + 2 ≤ e.1 ∧ ∀ j, j ≤ M → e.2 ≠ lineCell s d j := by
  obtain ⟨k, hkM, hmem, hrest⟩ := h.openLine
  cases hm : heap_min st.open_set with
  | none =>
    rw [heap_min_eq_none] at hm
    rw [hm] at hmem
    simp at hmem
  | some m =>
    have hmm := heap_min_mem hm
    have hle := heap_min_le hm
    have hmeq : m = (k, lineCell s d i) := by
      by_cases he : m = (k, lineCell s d i)
      · exact he
      · have hin : m ∈ st.open_set.erase (k, lineCell s d i) :=
          (List.mem_erase_of_ne he).mpr hmm
        have h1 := (hrest m hin).1
        have h2 := entry_le_key (hle _ hmem)
        simp only at h2
        exfalso
        omega
    subst hmeq
    refine ⟨k, hkM, ?_, hrest⟩
    unfold heap_pop
    rw [hm]

/-- Accepting the pop of the `i`-th line cell (for `i < M`) and closing it
establishes the A* mid-invariant with the whole neighbor list pending. -/
theorem ainv_accept {g : Grid} {s d : Coord} {M i : ℕ} {st : AstarState}
    {k : ℤ} (hd : d ∈ directions)
    (hline : ∀ j, j ≤ M → inBounds g (lineCell s d j) ∧
      g.cell (lineCell s d j) ≠ CellType.OBSTACLE)
    (hiM : i < M) (h : AInv g s d M i st)
    (hrest : ∀ e ∈ st.open_set.erase (k, lineCell s d i),
      (M : ℤ) + 2 ≤ e.1 ∧ ∀ j, j ≤ M → e.2 ≠ lineCell s d j) :
    AMid g s d M i false (get_neighbors g (lineCell s d i))
      { st with
        open_set := st.open_set.erase (k, lineCell s d i)
        closed_set := insert (lineCell s d i) st.closed_set
        visited_cells := insert (lineCell s d i) st.visited_cells
        nodes_visited := st.nodes_visited + 1
        pops := st.pops ++ [lineCell s d i] } := by
  have hnbr : lineCell s d (i + 1) ∈ get_neighbors g (lineCell s d i) := by
    rw [mem_get_neighbors]
    refine ⟨?_, (hline (i + 1) (by omega)).1, (hline (i + 1) (by omega)).2⟩
    rw [heuristic_lineCell hd]
    push_cast
    rw [abs_of_nonpos (by omega)]
    ring
  refine ⟨?_, ?_, ?_, h.gval, ?_, ?_, ?_, h.parent, ?_, h.sroot, ?_, ?_⟩
  · intro _ e he
    exact hrest e he
  · intro hft
    cases hft
  · intro hft
    cases hft
  · rw [if_neg Bool.false_ne_true]
    exact h.gfresh (i + 1) (by omega) (by omega)
  · intro j hj1 hj2
    exact h.gfresh j (by omega) hj2
  · intro v
    simp only [Finset.mem_insert, h.closedIff v]
    constructor
    · rintro (rfl | ⟨j, hj, rfl⟩)
      · exact ⟨i, by omega, rfl⟩
      · exact ⟨j, by omega, rfl⟩
    · rintro ⟨j, hj, rfl⟩
      by_cases hji : j = i
      · subst hji
        exact Or.inl rfl
      · exact Or.inr ⟨j, by omega, rfl⟩
  · intro hft
    cases hft
  · rw [if_neg Bool.false_ne_true]
    exact h.cfLen
  · intro _
    exact hnbr

/-- A completed march expansion advances the loop invariant. -/
theorem amid_to_ainv {g : Grid} {s d : Coord} {M i : ℕ} {st : AstarState}
    (h : AMid g s d M i true [] st) : AInv g s d M (i + 1) st := by
  refine ⟨⟨(M : ℤ), le_refl _, h.openFl rfl, h.openOthT rfl⟩, ?_, ?_,
    h.closedIff, ?_, h.sroot, ?_⟩
  · have hg := h.gnext
    rw [if_pos rfl] at hg
    rw [hg]
    congr 1
  · intro j hj1 hj2
    exact h.gfresh j (by omega) hj2
  · intro j hj1 hj2
    by_cases hji : j = i + 1
    · subst hji
      simpa using h.parentNext rfl
    · exact h.parent j hj1 (by omega)
  · have := h.cfLen
    rw [if_pos rfl] at this
    exact this

/-- The line prefix of the predecessor map is a spine. -/
theorem line_spine {g : Grid} {s d : Coord} {M : ℕ} (hd : d ∈ directions)
    (hline : ∀ j, j ≤ M → inBounds g (lineCell s d j) ∧
      g.cell (lineCell s d j) ≠ CellType.OBSTACLE)
    {cf : List (Coord × Coord)}
    (hparent : ∀ j, 1 ≤ j → j ≤ M →
      dget cf (lineCell s d j) = some (lineCell s d (j - 1)))
    (hsroot : dget cf s = none) :
    ∀ i, i ≤ M → Spine g s cf (lineCell s d i) i := by
  intro i
  induction i with
  | zero =>
    intro _
    rw [lineCell_zero]
    exact .base hsroot
  | succ j ihj =>
    intro hj
    have hnbr : lineCell s d (j + 1) ∈ get_neighbors g (lineCell s d j) := by
      rw [mem_get_neighbors]
      refine ⟨?_, (hline (j + 1) hj).1, (hline (j + 1) hj).2⟩
      rw [heuristic_lineCell hd]
      push_cast
      rw [abs_of_nonpos (by omega)]
      ring
    have hp := hparent (j + 1) (by omega) hj
    simp only [Nat.add_sub_cancel] at hp
    exact .step hp hnbr (ihj (by omega))

/-- The initial A* state satisfies the march invariant at index 0. -/
theorem astar_init_ainv (g : Grid) (s d : Coord) (M : ℕ)
    (hd : d ∈ directions) :
    AInv g s d M 0 (astar_init s (lineCell s d M)) := by
  refine ⟨⟨0, by omega, ?_, ?_⟩, ?_, ?_, ?_, ?_, rfl, by simp [astar_init]⟩
  · rw [lineCell_zero]
    simp [astar_init]
  · rw [lineCell_zero]
    simp only [astar_init, List.erase_cons_head]
    intro e he
    simp at he
  · rw [lineCell_zero]
    simp [astar_init, dget]
  · intro j hj1 _
    simp only [astar_init, dget]
    rw [if_neg]
    intro he
    have he2 : lineCell s d 0 = lineCell s d j := by
      rw [lineCell_zero]
      exact he
    have := lineCell_inj hd he2
    omega
  · intro v
    simp only [astar_init, Finset.not_mem_empty, false_iff, not_exists]
    intro j
    omega
  · intro j hj1 hj2
    omega

/-- Cells between two in-bounds collinear cells are in bounds. -/
theorem line_inBounds {g : Grid} {s d : Coord} {M : ℕ}
    (hd : d ∈ directions) (hb0 : inBounds g s)
    (hbM : inBounds g (lineCell s d M)) :
    ∀ i, i ≤ M → inBounds g (lineCell s d i) := by
  intro i hi
  simp only [directions, List.mem_cons, List.not_mem_nil, or_false] at hd
  obtain ⟨h1, h2, h3, h4⟩ := hb0
  obtain ⟨h5, h6, h7, h8⟩ := hbM
  rcases hd with rfl | rfl | rfl | rfl <;>
    simp only [lineCell] at h5 h6 h7 h8 ⊢ <;>
    refine ⟨by omega, by omega, by omega, by omega⟩

/-- The line length is bounded by the grid perimeter. -/
theorem line_M_lt {g : Grid} {s d : Coord} {M : ℕ}
    (hd : d ∈ directions) (hb0 : inBounds g s)
    (hbM : inBounds g (lineCell s d M)) :
    M < g.rows + g.cols := by
  simp only [directions, List.mem_cons, List.not_mem_nil, or_false] at hd
  obtain ⟨h1, h2, h3, h4⟩ := hb0
  obtain ⟨h5, h6, h7, h8⟩ := hbM
  rcases hd with rfl | rfl | rfl | rfl <;>
    simp only [lineCell] at h5 h6 h7 h8 <;> omega

/-- Fuel adequacy for the march. -/
theorem line_M_lt_fuel {g : Grid} {s d : Coord} {M : ℕ}
    (hd : d ∈ directions) (hb0 : inBounds g s)
    (hbM : inBounds g (lineCell s d M)) :
    M < search_fuel g := by
  have hM := line_M_lt hd hb0 hbM
  have hr : 1 ≤ g.rows := by
    obtain ⟨h1, h2, _, _⟩ := hb0
    omega
  have hc : 1 ≤ g.cols := by
    obtain ⟨_, _, h3, h4⟩ := hb0
    omega
  have hr2 : g.rows ≤ g.rows * g.cols := Nat.le_mul_of_pos_right _ (by omega)
  have hc2 : g.cols ≤ g.rows * g.cols := Nat.le_mul_of_pos_left _ (by omega)
  rw [search_fuel]
  omega

/-- The A* march: from the invariant at index `i`, the run pops the line
cells in order and returns the reconstructed line path of `M + 1` cells. -/
theorem astar_march_loop {g : Grid} {s d : Coord} {M : ℕ}
    (hd : d ∈ directions)
    (hline : ∀ j, j ≤ M → inBounds g (lineCell s d j) ∧
      g.cell (lineCell s d j) ≠ CellType.OBSTACLE) :
    ∀ (fuel i : ℕ) (st : AstarState), i ≤ M → M - i < fuel →
    AInv g s d M i st →
    ∃ p st', run_astar_loop g (lineCell s d M) st fuel = .found p st' ∧
      NPath g s (lineCell s d M) p ∧ p.length = M + 1 := by
  intro fuel
  induction fuel with
  | zero =>
    intro i st _ hfl _
    omega
  | succ fn ih =>
    intro i st hiM hfl h
    obtain ⟨k, hkM, hpop, hrest⟩ := ainv_pop h
    rw [run_astar_loop]
    cases hp2 : heap_pop st.open_set with
    | none =>
      rw [hp2] at hpop
      cases hpop
    | some pr =>
      obtain ⟨⟨k2, cur⟩, rh⟩ := pr
      rw [hp2] at hpop
      simp only [Option.some.injEq, Prod.mk.injEq] at hpop
      obtain ⟨⟨hk2, hcur⟩, hrh⟩ := hpop
      subst hk2
      subst hcur
      subst hrh
      by_cases hieq : lineCell s d i = lineCell s d M
      · simp only [if_pos hieq]
        have hiM2 : i = M := lineCell_inj hd hieq
        subst hiM2
        have hsp : Spine g s st.came_from (lineCell s d i) i :=
          line_spine hd hline h.parent h.sroot i (le_refl i)
        obtain ⟨hnp, hlen⟩ := spine_reconstruct hsp h.cfLen
        exact ⟨_, _, rfl, hnp, hlen⟩
      · simp only [if_neg hieq]
        have hiMlt : i < M := by
          rcases Nat.lt_or_ge i M with hlt | hge
          · exact hlt
          · exact absurd (by rw [show i = M by omega]) hieq
        have hmid := astar_expand_march hd hiMlt
          (get_neighbors g (lineCell s d i)) false _ (fun n hn => hn)
          (ainv_accept hd hline hiMlt h hrest)
        exact ih (i + 1) _ (by omega) (by omega) (amid_to_ainv hmid)

/-- On a clear straight-line instance, `run_astar` succeeds and returns a
path of exactly `M + 1` cells. -/
theorem run_astar_line {g : Grid} {s d : Coord} {M : ℕ}
    (hd : d ∈ directions)
    (hline : ∀ j, j ≤ M → inBounds g (lineCell s d j) ∧
      g.cell (lineCell s d j) ≠ CellType.OBSTACLE) :
    ∃ p st', run_astar g s (lineCell s d M) = .found p st' ∧
      NPath g s (lineCell s d M) p ∧ p.length = M + 1 := by
  have hfuel : M < search_fuel g :=
    line_M_lt_fuel hd
      (by
        have := (hline 0 (by omega)).1
        rwa [lineCell_zero] at this)
      (hline M (le_refl M)).1
  exact astar_march_loop hd hline (search_fuel g) 0
    (astar_init s (lineCell s d M)) (by omega) (by omega)
    (astar_init_ainv g s d M hd)

/-- C2: whenever the goal is the `M`-th cell of the straight line from the
start in one of the four unit directions (i.e. start and goal share a row
or a column), both endpoints are in bounds, and no cell of the inclusive
straight segment is an obstacle, each of `run_bfs`, `run_ucs` and
`run_astar` succeeds and returns a path of exactly `M + 1` cells, where
`M` is the Manhattan distance `heuristic start goal`. -/
theorem claim_straight_line (g : Grid) (s d : Coord) (M : ℕ)
    (hd : d ∈ directions) (hs : inBounds g s)
    (ht : inBounds g (lineCell s d M))
    (hobs : ∀ i, i ≤ M → g.cell (lineCell s d i) ≠ CellType.OBSTACLE) :
    heuristic s (lineCell s d M) = (M : ℤ) ∧
    (∃ p st', run_bfs g s (lineCell s d M) = .found p st' ∧
      p.length = M + 1) ∧
    (∃ p st', run_ucs g s (lineCell s d M) = .found p st' ∧
      p.length = M + 1) ∧
    (∃ p st', run_astar g s (lineCell s d M) = .found p st' ∧
      p.length = M + 1) := by
  have hline : ∀ j, j ≤ M → inBounds g (lineCell s d j) ∧
      g.cell (lineCell s d j) ≠ CellType.OBSTACLE :=
    fun j hj => ⟨line_inBounds hd hs ht j hj, hobs j hj⟩
  have hman : heuristic s (lineCell s d M) = (M : ℤ) := by
    have hh := heuristic_lineCell hd s 0 M
    rw [lineCell_zero] at hh
    rw [hh, show ((0 : ℕ) : ℤ) - (M : ℤ) = -(M : ℤ) by push_cast; ring,
      abs_neg, abs_of_nonneg (by positivity)]
  obtain ⟨hvp, hlp⟩ := linePath_valid hd hline
  have hlow : ∀ q, ValidPath g s (lineCell s d M) q → M + 1 ≤ q.length := by
    intro q hq
    have hch : q.Chain' (fun a b => heuristic a b = 1) :=
      (pathSteps_iff_chain q).mp hq.2.2.2
    have hml := manhattan_le_length q s (lineCell s d M) hch hq.1 hq.2.1
    rw [hman] at hml
    omega
  refine ⟨hman, ?_, ?_, ?_⟩
  · obtain ⟨pb, stb, hb, hbv, hbmin, _⟩ :=
      run_bfs_found_shortest g s (lineCell s d M) (linePath s d M) hvp
    refine ⟨pb, stb, hb, ?_⟩
    have h1 := hbmin _ hvp
    rw [hlp] at h1
    have h2 := hlow pb hbv
    omega
  · obtain ⟨pu, stu, hu, huv, humin⟩ :=
      run_ucs_found_shortest g s (lineCell s d M) (linePath s d M) hvp
    refine ⟨pu, stu, hu, ?_⟩
    have h1 := humin _ hvp
    rw [hlp] at h1
    have h2 := hlow pu huv
    omega
  · obtain ⟨pa, sta, ha, _, hal⟩ := run_astar_line hd hline
    exact ⟨pa, sta, ha, hal⟩

/-- Witness for C2 on a concrete empty 1×3 grid with the horizontal line
from (0,0) to (0,2). -/
theorem claim_straight_line_witness :
    ((0, 1) : Coord) ∈ directions ∧ inBounds (mkGrid 1 3 []) (0, 0) ∧
      inBounds (mkGrid 1 3 []) (lineCell (0, 0) (0, 1) 2) ∧
      (∀ i, i ≤ 2 → (mkGrid 1 3 []).cell (lineCell (0, 0) (0, 1) i) ≠
        CellType.OBSTACLE) ∧
      (heuristic (0, 0) (lineCell (0, 0) (0, 1) 2) = ((2 : ℕ) : ℤ) ∧
        (∃ p st', run_bfs (mkGrid 1 3 []) (0, 0) (lineCell (0, 0) (0, 1) 2) =
          .found p st' ∧ p.length = 2 + 1) ∧
        (∃ p st', run_ucs (mkGrid 1 3 []) (0, 0) (lineCell (0, 0) (0, 1) 2) =
          .found p st' ∧ p.length = 2 + 1) ∧
        (∃ p st', run_astar (mkGrid 1 3 []) (0, 0)
          (lineCell (0, 0) (0, 1) 2) = .found p st' ∧ p.length = 2 + 1)) :=
  ⟨by decide, by decide, by decide, by decide,
    claim_straight_line (mkGrid 1 3 []) (0, 0) (0, 1) 2 (by decide)
      (by decide) (by decide) (by decide)⟩
